import Mathlib

/-!
Verification of the in-memory DynamoDB document store (model-ts/dynamodb).

This file shallowly embeds the core of the in-memory engine:
the JSON-like item values, the key encodings (`utils.ts`), the
deterministic treap (`treap.ts`), the table state with its index set
(`store.ts`), and the document-client operation surface
(`in-memory-document-client.ts`): parameter validation against the spec
manifest (`spec.ts`), limit normalization, expression-attribute input
checks, the query loop, update-expression application, and
transact-write with its journal and rollback.

The expression engine (string parsing and evaluation of condition, key
condition and update expressions) is an input to the operation surface;
the embedding keeps it as an explicit function argument
(`evalCondOr`, `parseUpdOr`, `parseKeyCondOr`): every theorem below
holds for an arbitrary such function, hence in particular for the
engine of `expression.ts`.  Likewise the stable SHA-256 priority
(`stablePriority` in `utils.ts`, computed via Node's crypto library)
enters only through the numeric priorities it yields, so the treap and
store definitions take the priority assignment as a function argument.
-/

namespace ModelTs

/-! ## JSON-like values and items

The source stores arbitrary `InMemoryItem` objects and deep-clones them
with `JSON.parse(JSON.stringify(item))`; the value model below is
exactly the JSON-representable values, so `cloneItem` is a structural
deep copy. -/

inductive Value where
  | null : Value
  | bool (b : Bool) : Value
  | num (q : ℚ) : Value
  | str (s : String) : Value
  | arr (xs : List Value) : Value
  | obj (fields : List (String × Value)) : Value
deriving Repr

mutual

def Value.beq : Value → Value → Bool
  | .null, .null => true
  | .bool a, .bool b => a == b
  | .num a, .num b => a == b
  | .str a, .str b => a == b
  | .arr xs, .arr ys => Value.beqList xs ys
  | .obj fs, .obj gs => Value.beqFields fs gs
  | _, _ => false

def Value.beqList : List Value → List Value → Bool
  | [], [] => true
  | x :: xs, y :: ys => Value.beq x y && Value.beqList xs ys
  | _, _ => false

def Value.beqFields : List (String × Value) → List (String × Value) → Bool
  | [], [] => true
  | (k, v) :: xs, (k2, v2) :: ys => k == k2 && Value.beq v v2 && Value.beqFields xs ys
  | _, _ => false

end

theorem Value.beq_iff : ∀ a b : Value, (Value.beq a b = true) ↔ a = b := by
  apply Value.beq.induct
    (motive_1 := fun a b => (Value.beq a b = true) ↔ a = b)
    (motive_2 := fun fs gs => (Value.beqFields fs gs = true) ↔ fs = gs)
    (motive_3 := fun xs ys => (Value.beqList xs ys = true) ↔ xs = ys)
  · simp [Value.beq]
  · intro a b; simp [Value.beq]
  · intro a b; simp [Value.beq]
  · intro a b; simp [Value.beq]
  · intro xs ys ih; simp [Value.beq, ih]
  · intro fs gs ih; simp [Value.beq, ih]
  · intro t x h1 h2 h3 h4 h5 h6
    cases t <;> cases x <;> first
      | exact (h1 rfl rfl).elim
      | exact (h2 _ _ rfl rfl).elim
      | exact (h3 _ _ rfl rfl).elim
      | exact (h4 _ _ rfl rfl).elim
      | exact (h5 _ _ rfl rfl).elim
      | exact (h6 _ _ rfl rfl).elim
      | simp [Value.beq]
  · simp [Value.beqList]
  · intro x xs y ys ih1 ih2; simp [Value.beqList, ih1, ih2]
  · intro t x h1 h2
    cases t <;> cases x <;> first
      | exact (h1 rfl rfl).elim
      | exact (h2 _ _ _ _ rfl rfl).elim
      | simp [Value.beqList]
  · simp [Value.beqFields]
  · intro k v xs k2 v2 ys ih1 ih2; simp [Value.beqFields, ih1, ih2]
  · intro t x h1 h2
    cases t <;> cases x <;> first
      | exact (h1 rfl rfl).elim
      | exact (h2 _ _ _ _ _ _ rfl rfl).elim
      | simp [Value.beqFields]

instance : DecidableEq Value := fun a b =>
  decidable_of_iff (Value.beq a b = true) (Value.beq_iff a b)

/-- An item is a JS object: an ordered association list of attributes. -/
abbrev Item := List (String × Value)

/-- Attribute access `item[name]` (JS objects have unique keys). -/
def getAttr (item : Item) (name : String) : Option Value :=
  match item with
  | [] => none
  | (k, v) :: rest => if k = name then some v else getAttr rest name

/-- Assignment `obj[name] = v`: replaces in place, else appends. -/
def setAttr (item : Item) (name : String) (v : Value) : Item :=
  match item with
  | [] => [(name, v)]
  | (k, w) :: rest =>
      if k = name then (k, v) :: rest else (k, w) :: setAttr rest name v

/-- Deletion `delete obj[name]`. -/
def removeAttr (item : Item) (name : String) : Item :=
  match item with
  | [] => []
  | (k, w) :: rest =>
      if k = name then rest else (k, w) :: removeAttr rest name

/-! ### utils.ts -/

/-- `ITEM_KEY_SEPARATOR = "\u0000"` -/
def ITEM_KEY_SEPARATOR : String := "\u0000"

/-- One part of `encodeCompositeKey`: backtick template
`${part.length}:${part}` from `utils.ts`. -/
def encodePart (part : String) : String :=
  toString part.length ++ (":") ++ part

/-- `encodeCompositeKey(...parts)` from `utils.ts`. -/
def encodeCompositeKey (parts : List String) : String :=
  String.intercalate ITEM_KEY_SEPARATOR (parts.map encodePart)

/-- `encodeItemKey(pk, sk)` from `utils.ts`. -/
def encodeItemKey (pk sk : String) : String :=
  encodeCompositeKey [pk, sk]

/-- `encodeIndexEntryKey(rangeKey, itemKey)` from `utils.ts`. -/
def encodeIndexEntryKey (rangeKey itemKey : String) : String :=
  rangeKey ++ ITEM_KEY_SEPARATOR ++ itemKey

mutual

/-- `cloneItem` is `JSON.parse(JSON.stringify(item))`: on the
JSON-representable values of `Value` this is a structural deep copy. -/
def cloneValue : Value → Value
  | .null => .null
  | .bool b => .bool b
  | .num q => .num q
  | .str s => .str s
  | .arr xs => .arr (cloneValueList xs)
  | .obj fs => .obj (cloneValueFields fs)

def cloneValueList : List Value → List Value
  | [] => []
  | x :: xs => cloneValue x :: cloneValueList xs

def cloneValueFields : List (String × Value) → List (String × Value)
  | [] => []
  | (k, v) :: fs => (k, cloneValue v) :: cloneValueFields fs

end

/-- `cloneItem` at the top level of an item object. -/
def cloneItem (item : Item) : Item :=
  cloneValueFields item

/-- The deep copy of a JSON-representable value is value-equal to it. -/
theorem cloneValue_eq : ∀ v : Value, cloneValue v = v := by
  apply cloneValue.induct
    (motive_1 := fun v => cloneValue v = v)
    (motive_2 := fun fs => cloneValueFields fs = fs)
    (motive_3 := fun xs => cloneValueList xs = xs) <;>
    intros <;> simp_all [cloneValue, cloneValueList, cloneValueFields]

theorem cloneItem_eq (item : Item) : cloneItem item = item := by
  induction item with
  | nil => rfl
  | cons f rest ih =>
      cases f
      simp [cloneItem, cloneValueFields, cloneValue_eq] at ih ⊢
      exact ih

/-- `sortItemsByPKSK` comparator from `utils.ts`, as a boolean `le`:
compares `String(a.PK ?? "")` then `String(a.SK ?? "")`. -/
def pkskOf (item : Item) : String × String :=
  (match getAttr item ("PK") with | some (.str s) => s | _ => "",
   match getAttr item ("SK") with | some (.str s) => s | _ => "")

def pkskLe (a b : Item) : Bool :=
  let pa := pkskOf a
  let pb := pkskOf b
  if pa.1 ≠ pb.1 then decide (pa.1 < pb.1)
  else if pa.2 ≠ pb.2 then decide (pa.2 < pb.2)
  else true

/-- `sortItemsByPKSK` from `utils.ts` (JS `Array.sort` is a stable
comparison sort; `mergeSort` models it). -/
def sortItemsByPKSK (items : List Item) : List Item :=
  items.mergeSort pkskLe

/-! ### Errors

`awsError` attaches a `code` to an `Error`; `NotSupportedError` is the
structured error of `errors.ts`; `jsError` stands for a plain runtime
`Error` (no AWS code), e.g. the one thrown by
`getValidatedPrimaryKey`. -/

inductive Err where
  | notSupported (method featurePath reason : String) : Err
  | aws (code message : String) : Err
  | jsError (message : String) : Err
deriving DecidableEq, Repr

def validationError (message : String) : Err :=
  .aws ("ValidationException") message

def conditionalCheckFailed : Err :=
  .aws ("ConditionalCheckFailedException") ("The conditional request failed.")

def transactionCanceledError (message : String) : Err :=
  .aws ("TransactionCanceledException") message

/-! ## The deterministic treap (`treap.ts`)

`DeterministicTreap<V>` is only ever instantiated at `V = string`
(`store.ts`), so the embedding is monomorphic.  A class value is its
`root` tree; the `_size` counter is modelled by the node count (the
bookkeeping of `insert`/`remove` is proved equivalent below).

String comparison `<` models the JS operator; they agree on all
strings without astral code points (JS compares UTF-16 units,
Lean compares code points). -/

inductive Treap where
  | nil : Treap
  | node (key : String) (priority : Nat) (value : String)
      (left : Treap) (right : Treap) : Treap
deriving DecidableEq, Repr

namespace Treap

/-- In-order traversal carrying (key, priority, value). -/
def toListP : Treap → List (String × Nat × String)
  | .nil => []
  | .node k p v l r => toListP l ++ (k, p, v) :: toListP r

/-- In-order traversal of (key, value) pairs. -/
def entries (t : Treap) : List (String × String) :=
  (toListP t).map fun e => (e.1, e.2.2)

/-- Node count; models the `_size` counter of the class. -/
def count : Treap → Nat
  | .nil => 0
  | .node _ _ _ l r => count l + count r + 1

/-- `rotateRight` from `treap.ts` (identity when there is no left child). -/
def rotateRight : Treap → Treap
  | .node k p v (.node lk lp lv ll lr) r => .node lk lp lv ll (.node k p v lr r)
  | t => t

/-- `rotateLeft` from `treap.ts`. -/
def rotateLeft : Treap → Treap
  | .node k p v l (.node rk rp rv rl rr) => .node rk rp rv (.node k p v l rl) rr
  | t => t

/-- Priority of the root node, if any (for the JS truthiness test
`node.left && node.left.priority < node.priority`). -/
def rootPrio? : Treap → Option Nat
  | .nil => none
  | .node _ p _ _ _ => some p

/-- The rotation guard `child && child.priority < priority`. -/
def childPrioLt (child : Treap) (p : Nat) : Bool :=
  match child with
  | .nil => false
  | .node _ cp _ _ _ => decide (cp < p)

/-- `insertNode` from `treap.ts`: returns the new subtree and whether a
node was inserted (`false` means an existing key had its value
replaced). -/
def insertNode : Treap → String → String → Nat → Treap × Bool
  | .nil, k, v, p => (.node k p v .nil .nil, true)
  | .node nk np nv l r, k, v, p =>
      if k = nk then (.node nk np v l r, false)
      else if k < nk then
        let res := insertNode l k v p
        let t2 := Treap.node nk np nv res.1 r
        (if childPrioLt res.1 np then rotateRight t2 else t2, res.2)
      else
        let res := insertNode r k v p
        let t2 := Treap.node nk np nv l res.1
        (if childPrioLt res.1 np then rotateLeft t2 else t2, res.2)

/-- `insert` (the class method, acting on the root). -/
def insert (t : Treap) (k v : String) (p : Nat) : Treap :=
  (insertNode t k v p).1

/-- `removeNode` from `treap.ts`.  In the two-child case the node is
rotated with its smaller-priority child and removal recurses into the
subtree that now holds the key, exactly as in the source. -/
def removeNode : Treap → String → Treap × Bool
  | .nil, _ => (.nil, false)
  | .node nk np nv l r, k =>
      if k < nk then
        let res := removeNode l k
        (.node nk np nv res.1 r, res.2)
      else if nk < k then
        let res := removeNode r k
        (.node nk np nv l res.1, res.2)
      else
        match l, r with
        | .nil, _ => (r, true)
        | .node lk lp lv ll lr, .nil => (.node lk lp lv ll lr, true)
        | .node lk lp lv ll lr, .node rk rp rv rl rr =>
            if lp < rp then
              let res := removeNode (.node nk np nv lr (.node rk rp rv rl rr)) k
              (.node lk lp lv ll res.1, res.2)
            else
              let res := removeNode (.node nk np nv (.node lk lp lv ll lr) rl) k
              (.node rk rp rv res.1 rr, res.2)
termination_by t _ => count t
decreasing_by all_goals (simp [count]; omega)

/-- `remove` (the class method, acting on the root). -/
def remove (t : Treap) (k : String) : Treap :=
  (removeNode t k).1

/-- `has` from `treap.ts` (iterative key search, modelled recursively). -/
def hasKey : Treap → String → Bool
  | .nil, _ => false
  | .node nk _ _ l r, k =>
      if k = nk then true
      else if k < nk then hasKey l k
      else hasKey r k

/-- Iteration bound, `{ key, inclusive }`. -/
structure TreapBound where
  key : String
  inclusive : Bool
deriving DecidableEq, Repr

structure TreapBounds where
  lower : Option TreapBound := none
  upper : Option TreapBound := none
deriving DecidableEq, Repr

def isBelowLowerBound (key : String) (lower : Option TreapBound) : Bool :=
  match lower with
  | none => false
  | some b => if b.inclusive then decide (key < b.key) else decide (key ≤ b.key)

def isAboveUpperBound (key : String) (upper : Option TreapBound) : Bool :=
  match upper with
  | none => false
  | some b => if b.inclusive then decide (b.key < key) else decide (b.key ≤ key)

/-- The ascending iterator of `treap.ts`, rendered recursively.  The
imperative version prunes a node and its left subtree when the node is
below the lower bound (`pushLeft` walks right), and aborts the whole
iteration on the first popped node above the upper bound (`return`);
the Boolean result records that abort. -/
def iterAsc (bounds : TreapBounds) : Treap → List (String × String) × Bool
  | .nil => ([], false)
  | .node k _ v l r =>
      if isBelowLowerBound k bounds.lower then iterAsc bounds r
      else
        let ls := iterAsc bounds l
        if ls.2 then ls
        else if isAboveUpperBound k bounds.upper then (ls.1, true)
        else
          let rs := iterAsc bounds r
          (ls.1 ++ (k, v) :: rs.1, rs.2)

/-- The descending iterator of `treap.ts`, rendered recursively
(mirror image of `iterAsc`). -/
def iterDesc (bounds : TreapBounds) : Treap → List (String × String) × Bool
  | .nil => ([], false)
  | .node k _ v l r =>
      if isAboveUpperBound k bounds.upper then iterDesc bounds l
      else
        let rs := iterDesc bounds r
        if rs.2 then rs
        else if isBelowLowerBound k bounds.lower then (rs.1, true)
        else
          let ls := iterDesc bounds l
          (rs.1 ++ (k, v) :: ls.1, ls.2)

/-- `iterate(direction, bounds)`: the produced sequence. -/
def iterate (t : Treap) (ascending : Bool) (bounds : TreapBounds) :
    List (String × String) :=
  if ascending then (iterAsc bounds t).1 else (iterDesc bounds t).1

/-! ### Basic treap lemmas -/

theorem toListP_rotateRight (t : Treap) : toListP (rotateRight t) = toListP t := by
  match t with
  | .nil => rfl
  | .node k p v .nil r => rfl
  | .node k p v (.node lk lp lv ll lr) r => simp [rotateRight, toListP]

theorem toListP_rotateLeft (t : Treap) : toListP (rotateLeft t) = toListP t := by
  match t with
  | .nil => rfl
  | .node k p v l .nil => rfl
  | .node k p v l (.node rk rp rv rl rr) => simp [rotateLeft, toListP]

theorem count_eq_length_toListP (t : Treap) : count t = (toListP t).length := by
  induction t with
  | nil => rfl
  | node k p v l r ihl ihr => simp [count, toListP, ihl, ihr]; omega

theorem count_eq_zero_iff (t : Treap) : count t = 0 ↔ t = .nil := by
  cases t <;> simp [count]

/-- With no bounds, the ascending iterator never aborts and yields the
in-order entries. -/
theorem iterAsc_no_bounds (t : Treap) :
    iterAsc {} t = (entries t, false) := by
  induction t with
  | nil => rfl
  | node k p v l r ihl ihr =>
      simp [iterAsc, isBelowLowerBound, isAboveUpperBound, ihl, ihr,
        entries, toListP]

/-- With no bounds, the descending iterator yields the reversed
in-order entries. -/
theorem iterDesc_no_bounds (t : Treap) :
    iterDesc {} t = ((entries t).reverse, false) := by
  induction t with
  | nil => rfl
  | node k p v l r ihl ihr =>
      simp [iterDesc, isBelowLowerBound, isAboveUpperBound, ihl, ihr,
        entries, toListP]

/-! ### The binary-search-tree invariant and list-level specifications -/

/-- The keys of the in-order traversal are strictly increasing (the
search-tree invariant every partition map maintains). -/
def SortedT (t : Treap) : Prop :=
  (toListP t).Pairwise (fun a b => a.1 < b.1)

theorem sortedT_nil : SortedT .nil := by simp [SortedT, toListP]

theorem sortedT_node_iff {k : String} {p : Nat} {v : String} {l r : Treap} :
    SortedT (.node k p v l r) ↔
      SortedT l ∧ SortedT r ∧
        (∀ e ∈ toListP l, e.1 < k) ∧ (∀ e ∈ toListP r, k < e.1) := by
  simp only [SortedT, toListP, List.pairwise_append, List.pairwise_cons]
  constructor
  · rintro ⟨hl, ⟨hr1, hr2⟩, hcross⟩
    refine ⟨hl, hr2, ?_, hr1⟩
    intro e he
    exact hcross e he (k, p, v) (by simp)
  · rintro ⟨hl, hr, hlk, hkr⟩
    refine ⟨hl, ⟨hkr, hr⟩, ?_⟩
    intro a ha b hb
    rcases List.mem_cons.mp hb with hb | hb
    · rw [hb]; exact hlk a ha
    · exact lt_trans (hlk a ha) (hkr b hb)

/-- List-level model of `insertNode`: insert sorted by key; an existing
key keeps its stored priority and only replaces the value, exactly as
`insertNode` does. -/
def listInsertP (k : String) (p : Nat) (v : String) :
    List (String × Nat × String) → List (String × Nat × String)
  | [] => [(k, p, v)]
  | e :: rest =>
      if k = e.1 then (e.1, e.2.1, v) :: rest
      else if k < e.1 then (k, p, v) :: e :: rest
      else e :: listInsertP k p v rest

theorem listInsertP_append_right {k : String} {p : Nat} {v : String}
    {xs ys : List (String × Nat × String)} {nk : String} {np : Nat} {nv : String}
    (h : k < nk) :
    listInsertP k p v (xs ++ (nk, np, nv) :: ys) =
      listInsertP k p v xs ++ (nk, np, nv) :: ys := by
  induction xs with
  | nil => simp [listInsertP, h, ne_of_lt h]
  | cons e rest ih =>
      by_cases h1 : k = e.1
      · simp [listInsertP, h1]
      · by_cases h2 : k < e.1
        · simp [listInsertP, h1, h2]
        · simp [listInsertP, h1, h2, ih]

theorem listInsertP_append_left {k : String} {p : Nat} {v : String}
    {xs ys : List (String × Nat × String)}
    (h : ∀ e ∈ xs, e.1 < k) :
    listInsertP k p v (xs ++ ys) = xs ++ listInsertP k p v ys := by
  induction xs with
  | nil => simp
  | cons e rest ih =>
      have he : e.1 < k := h e (by simp)
      have h1 : ¬k = e.1 := by exact fun hk => absurd (hk ▸ he) (lt_irrefl k)
      have h2 : ¬k < e.1 := not_lt_of_lt he
      have ih2 := ih (fun e2 he2 => h e2 (by simp [he2]))
      simp only [List.cons_append, listInsertP, if_neg h1, if_neg h2]
      rw [List.append_eq, ih2]

theorem key_mem_listInsertP {k : String} {p : Nat} {v : String}
    {l : List (String × Nat × String)} {b : String × Nat × String}
    (hb : b ∈ listInsertP k p v l) : b.1 = k ∨ ∃ e ∈ l, b.1 = e.1 := by
  induction l with
  | nil => simp [listInsertP] at hb; simp [hb]
  | cons e rest ih =>
      by_cases h1 : k = e.1
      · simp only [listInsertP, if_pos h1] at hb
        rcases List.mem_cons.mp hb with hb | hb
        · left; rw [hb, h1]
        · right; exact ⟨b, List.mem_cons.mpr (Or.inr hb), rfl⟩
      · by_cases h2 : k < e.1
        · simp only [listInsertP, if_neg h1, if_pos h2] at hb
          rcases List.mem_cons.mp hb with hb | hb
          · left; rw [hb]
          · right; exact ⟨b, hb, rfl⟩
        · simp only [listInsertP, if_neg h1, if_neg h2] at hb
          rcases List.mem_cons.mp hb with hb | hb
          · right; exact ⟨e, List.mem_cons.mpr (Or.inl rfl), by rw [hb]⟩
          · rcases ih hb with h | ⟨e2, he2, hb2⟩
            · left; exact h
            · right; exact ⟨e2, List.mem_cons.mpr (Or.inr he2), hb2⟩

theorem listInsertP_pairwise {k : String} {p : Nat} {v : String}
    {l : List (String × Nat × String)}
    (h : l.Pairwise (fun a b => a.1 < b.1)) :
    (listInsertP k p v l).Pairwise (fun a b => a.1 < b.1) := by
  induction l with
  | nil => simp [listInsertP]
  | cons e rest ih =>
      rw [List.pairwise_cons] at h
      by_cases h1 : k = e.1
      · simp only [listInsertP, if_pos h1]
        rw [List.pairwise_cons]
        exact ⟨h.1, h.2⟩
      · by_cases h2 : k < e.1
        · simp only [listInsertP, if_neg h1, if_pos h2]
          rw [List.pairwise_cons]
          refine ⟨?_, List.pairwise_cons.mpr ⟨h.1, h.2⟩⟩
          intro b hb
          rcases List.mem_cons.mp hb with hb | hb
          · rw [hb]; exact h2
          · exact lt_trans h2 (h.1 b hb)
        · simp only [listInsertP, if_neg h1, if_neg h2]
          rw [List.pairwise_cons]
          refine ⟨?_, ih h.2⟩
          have he : e.1 < k := lt_of_le_of_ne (not_lt.mp h2) (fun hk => h1 hk.symm)
          intro b hb
          rcases key_mem_listInsertP hb with hb | ⟨e2, he2, hb2⟩
          · rw [hb]; exact he
          · rw [hb2]; exact h.1 e2 he2

theorem count_rotateRight (t : Treap) : count (rotateRight t) = count t := by
  rw [count_eq_length_toListP, count_eq_length_toListP, toListP_rotateRight]

theorem count_rotateLeft (t : Treap) : count (rotateLeft t) = count t := by
  rw [count_eq_length_toListP, count_eq_length_toListP, toListP_rotateLeft]

/-- The `_size` bookkeeping of `insert` matches the node count: the
returned flag says whether a node was added. -/
theorem insertNode_count (t : Treap) (k v : String) (p : Nat) :
    count (insertNode t k v p).1 =
      count t + (if (insertNode t k v p).2 then 1 else 0) := by
  induction t with
  | nil => simp [insertNode, count]
  | node nk np nv l r ihl ihr =>
      by_cases h1 : k = nk
      · simp [insertNode, h1, count]
      · by_cases h2 : k < nk
        · simp only [insertNode, if_neg h1, if_pos h2]
          split
          · rw [count_rotateRight]; simp [count, ihl]; omega
          · simp [count, ihl]; omega
        · simp only [insertNode, if_neg h1, if_neg h2]
          split
          · rw [count_rotateLeft]; simp [count, ihr]; omega
          · simp [count, ihr]; omega

/-- List-level specification of `insertNode` on a search tree. -/
theorem toListP_insertNode {t : Treap} {k v : String} {p : Nat}
    (hs : SortedT t) :
    toListP (insertNode t k v p).1 = listInsertP k p v (toListP t) := by
  induction t with
  | nil => simp [insertNode, toListP, listInsertP]
  | node nk np nv l r ihl ihr =>
      rcases sortedT_node_iff.mp hs with ⟨hl, hr, hlk, hkr⟩
      by_cases h1 : k = nk
      · subst h1
        simp only [insertNode, if_pos rfl, toListP]
        rw [listInsertP_append_left hlk]
        simp [listInsertP]
      · by_cases h2 : k < nk
        · simp only [insertNode, if_neg h1, if_pos h2, toListP]
          have hrot : ∀ c : Bool,
              toListP (if c then rotateRight (Treap.node nk np nv (insertNode l k v p).1 r)
                else Treap.node nk np nv (insertNode l k v p).1 r) =
                toListP (Treap.node nk np nv (insertNode l k v p).1 r) := by
            intro c; cases c
            · rfl
            · simp [toListP_rotateRight]
          rw [hrot]
          rw [toListP, ihl hl, listInsertP_append_right h2]
        · have h3 : nk < k :=
            lt_of_le_of_ne (not_lt.mp h2) (fun hk => h1 hk.symm)
          simp only [insertNode, if_neg h1, if_neg h2, toListP]
          have hrot : ∀ c : Bool,
              toListP (if c then rotateLeft (Treap.node nk np nv l (insertNode r k v p).1)
                else Treap.node nk np nv l (insertNode r k v p).1) =
                toListP (Treap.node nk np nv l (insertNode r k v p).1) := by
            intro c; cases c
            · rfl
            · simp [toListP_rotateLeft]
          rw [hrot]
          rw [toListP, ihr hr]
          rw [listInsertP_append_left (fun e he => lt_trans (hlk e he) h3)]
          have hne : ¬k = nk := h1
          simp [listInsertP, hne, not_lt_of_lt h3]

theorem sortedT_insertNode {t : Treap} {k v : String} {p : Nat}
    (hs : SortedT t) : SortedT (insertNode t k v p).1 := by
  unfold SortedT
  rw [toListP_insertNode hs]
  exact listInsertP_pairwise hs

/-! ### Removal -/

/-- List-level model of `removeNode`: drop the first entry with the
given key. -/
def eraseKeyP (k : String) : List (String × Nat × String) → List (String × Nat × String)
  | [] => []
  | e :: rest => if e.1 = k then rest else e :: eraseKeyP k rest

theorem eraseKeyP_of_all_ne {k : String} {l : List (String × Nat × String)}
    (h : ∀ e ∈ l, e.1 ≠ k) : eraseKeyP k l = l := by
  induction l with
  | nil => rfl
  | cons e rest ih =>
      have : e.1 ≠ k := h e (by simp)
      simp only [eraseKeyP, if_neg this]
      rw [ih (fun e2 he2 => h e2 (by simp [he2]))]

theorem eraseKeyP_append_right {k : String} {xs ys : List (String × Nat × String)}
    (h : ∀ e ∈ ys, e.1 ≠ k) :
    eraseKeyP k (xs ++ ys) = eraseKeyP k xs ++ ys := by
  induction xs with
  | nil => simp [eraseKeyP, eraseKeyP_of_all_ne h]
  | cons e rest ih =>
      by_cases h1 : e.1 = k
      · simp [eraseKeyP, h1]
      · simp only [List.cons_append, eraseKeyP, if_neg h1]
        rw [List.append_eq, ih]

theorem eraseKeyP_append_left {k : String} {xs ys : List (String × Nat × String)}
    (h : ∀ e ∈ xs, e.1 ≠ k) :
    eraseKeyP k (xs ++ ys) = xs ++ eraseKeyP k ys := by
  induction xs with
  | nil => simp
  | cons e rest ih =>
      have h1 : e.1 ≠ k := h e (by simp)
      simp only [List.cons_append, eraseKeyP, if_neg h1]
      rw [List.append_eq, ih (fun e2 he2 => h e2 (by simp [he2]))]

theorem eraseKeyP_sublist (k : String) (l : List (String × Nat × String)) :
    (eraseKeyP k l).Sublist l := by
  induction l with
  | nil => simp [eraseKeyP]
  | cons e rest ih =>
      by_cases h1 : e.1 = k
      · simp only [eraseKeyP, if_pos h1]
        exact List.sublist_cons_self e rest
      · simp only [eraseKeyP, if_neg h1]
        exact List.Sublist.cons₂ e ih

/-! Per-case unfolding equations for `removeNode` (its equations are
guarded by the well-founded definition, so they are proved once). -/

theorem removeNode_lt {nk : String} {np : Nat} {nv : String} {l r : Treap}
    {k : String} (h : k < nk) :
    removeNode (.node nk np nv l r) k =
      (.node nk np nv (removeNode l k).1 r, (removeNode l k).2) := by
  rw [removeNode.eq_def]; simp [h]

theorem removeNode_gt {nk : String} {np : Nat} {nv : String} {l r : Treap}
    {k : String} (h1 : ¬k < nk) (h2 : nk < k) :
    removeNode (.node nk np nv l r) k =
      (.node nk np nv l (removeNode r k).1, (removeNode r k).2) := by
  rw [removeNode.eq_def]; simp [h1, h2]

theorem removeNode_eq_left_nil {nk : String} {np : Nat} {nv : String}
    {r : Treap} {k : String} (h1 : ¬k < nk) (h2 : ¬nk < k) :
    removeNode (.node nk np nv .nil r) k = (r, true) := by
  rw [removeNode.eq_def]; simp [h1, h2]

theorem removeNode_eq_right_nil {nk : String} {np : Nat} {nv : String}
    {lk : String} {lp : Nat} {lv : String} {ll lr : Treap} {k : String}
    (h1 : ¬k < nk) (h2 : ¬nk < k) :
    removeNode (.node nk np nv (.node lk lp lv ll lr) .nil) k =
      (.node lk lp lv ll lr, true) := by
  rw [removeNode.eq_def]; simp [h1, h2]

theorem removeNode_eq_two_left {nk : String} {np : Nat} {nv : String}
    {lk : String} {lp : Nat} {lv : String} {ll lr : Treap}
    {rk : String} {rp : Nat} {rv : String} {rl rr : Treap} {k : String}
    (h1 : ¬k < nk) (h2 : ¬nk < k) (hprio : lp < rp) :
    removeNode (.node nk np nv (.node lk lp lv ll lr) (.node rk rp rv rl rr)) k =
      (.node lk lp lv ll
        (removeNode (.node nk np nv lr (.node rk rp rv rl rr)) k).1,
       (removeNode (.node nk np nv lr (.node rk rp rv rl rr)) k).2) := by
  rw [removeNode.eq_def]; simp [h1, h2, hprio]

theorem removeNode_eq_two_right {nk : String} {np : Nat} {nv : String}
    {lk : String} {lp : Nat} {lv : String} {ll lr : Treap}
    {rk : String} {rp : Nat} {rv : String} {rl rr : Treap} {k : String}
    (h1 : ¬k < nk) (h2 : ¬nk < k) (hprio : ¬lp < rp) :
    removeNode (.node nk np nv (.node lk lp lv ll lr) (.node rk rp rv rl rr)) k =
      (.node rk rp rv
        (removeNode (.node nk np nv (.node lk lp lv ll lr) rl) k).1 rr,
       (removeNode (.node nk np nv (.node lk lp lv ll lr) rl) k).2) := by
  rw [removeNode.eq_def]; simp [h1, h2, hprio]

/-- List-level specification of `removeNode` on a search tree. -/
theorem toListP_removeNode (t : Treap) (k : String) :
    SortedT t → toListP (removeNode t k).1 = eraseKeyP k (toListP t) := by
  induction t, k using Treap.removeNode.induct with
  | case1 x => intro hs; simp [removeNode, toListP, eraseKeyP]
  | case2 nk np nv l r k hlt ih =>
      intro hs
      rcases sortedT_node_iff.mp hs with ⟨hl, hr, hlk, hkr⟩
      rw [removeNode_lt hlt]
      show toListP (removeNode l k).1 ++ (nk, np, nv) :: toListP r =
        eraseKeyP k (toListP l ++ (nk, np, nv) :: toListP r)
      rw [ih hl]
      rw [eraseKeyP_append_right]
      intro e he
      rcases List.mem_cons.mp he with he | he
      · rw [he]
        intro hk2
        simp only [] at hk2
        rw [hk2] at hlt
        exact lt_irrefl k hlt
      · intro hk2
        have h3 := lt_trans hlt (hkr e he)
        rw [hk2] at h3
        exact lt_irrefl k h3
  | case3 nk np nv l r k hlt hgt ih =>
      intro hs
      rcases sortedT_node_iff.mp hs with ⟨hl, hr, hlk, hkr⟩
      rw [removeNode_gt hlt hgt]
      show toListP l ++ (nk, np, nv) :: toListP (removeNode r k).1 =
        eraseKeyP k (toListP l ++ (nk, np, nv) :: toListP r)
      rw [ih hr]
      rw [eraseKeyP_append_left (by
        intro e he hk2
        have h3 := lt_trans (hlk e he) hgt
        rw [hk2] at h3
        exact lt_irrefl k h3)]
      have hne : ¬nk = k := by
        intro hk2
        rw [hk2] at hgt
        exact lt_irrefl k hgt
      simp [eraseKeyP, hne]
  | case4 nk np nv r k hlt hgt =>
      intro hs
      have hk : nk = k := le_antisymm (not_lt.mp hlt) (not_lt.mp hgt)
      rw [removeNode_eq_left_nil hlt hgt]
      show toListP r = eraseKeyP k (toListP .nil ++ (nk, np, nv) :: toListP r)
      simp [toListP, eraseKeyP, hk]
  | case5 nk np nv k hlt hgt lk lp lv ll lr =>
      intro hs
      rcases sortedT_node_iff.mp hs with ⟨hl, hr, hlk, hkr⟩
      have hk : nk = k := le_antisymm (not_lt.mp hlt) (not_lt.mp hgt)
      rw [removeNode_eq_right_nil hlt hgt]
      show toListP (.node lk lp lv ll lr) =
        eraseKeyP k (toListP (.node lk lp lv ll lr) ++ (nk, np, nv) :: toListP .nil)
      rw [eraseKeyP_append_left (by
        intro e he hk2
        have h3 := hlk e he
        rw [hk2, ← hk] at h3
        exact lt_irrefl nk h3)]
      simp [eraseKeyP, hk, toListP]
  | case6 nk np nv k hlt hgt lk lp lv ll lr rk rp rv rl rr hprio ih =>
      intro hs
      rcases sortedT_node_iff.mp hs with ⟨hl, hr, hlk, hkr⟩
      rcases sortedT_node_iff.mp hl with ⟨hll, hlr, hllk, hlkr⟩
      have hk : nk = k := le_antisymm (not_lt.mp hlt) (not_lt.mp hgt)
      have hne : ∀ e ∈ toListP ll ++ (lk, lp, lv) :: toListP lr, e.1 ≠ k := by
        intro e he hk2
        have h3 := hlk e he
        rw [hk2, ← hk] at h3
        exact lt_irrefl nk h3
      have hne2 : ∀ e ∈ toListP lr, e.1 ≠ k := by
        intro e he
        exact hne e (List.mem_append.mpr (Or.inr (List.mem_cons.mpr (Or.inr he))))
      have hinner : SortedT (.node nk np nv lr (.node rk rp rv rl rr)) := by
        rw [sortedT_node_iff]
        refine ⟨hlr, hr, ?_, hkr⟩
        intro e he
        exact hlk e (by simp [toListP]; tauto)
      rw [removeNode_eq_two_left hlt hgt hprio]
      show toListP ll ++ (lk, lp, lv) ::
          toListP (removeNode (.node nk np nv lr (.node rk rp rv rl rr)) k).1 =
        eraseKeyP k ((toListP ll ++ (lk, lp, lv) :: toListP lr) ++
          (nk, np, nv) :: toListP (.node rk rp rv rl rr))
      rw [ih hinner]
      show toListP ll ++ (lk, lp, lv) ::
          eraseKeyP k (toListP lr ++ (nk, np, nv) :: toListP (.node rk rp rv rl rr)) =
        eraseKeyP k ((toListP ll ++ (lk, lp, lv) :: toListP lr) ++
          (nk, np, nv) :: toListP (.node rk rp rv rl rr))
      rw [eraseKeyP_append_left hne2, eraseKeyP_append_left hne]
      simp [eraseKeyP, hk]
  | case7 nk np nv k hlt hgt lk lp lv ll lr rk rp rv rl rr hprio ih =>
      intro hs
      rcases sortedT_node_iff.mp hs with ⟨hl, hr, hlk, hkr⟩
      rcases sortedT_node_iff.mp hr with ⟨hrl, hrr, hrlk, hrkr⟩
      have hk : nk = k := le_antisymm (not_lt.mp hlt) (not_lt.mp hgt)
      have hne : ∀ e ∈ toListP (Treap.node lk lp lv ll lr), e.1 ≠ k := by
        intro e he hk2
        have h3 := hlk e he
        rw [hk2, ← hk] at h3
        exact lt_irrefl nk h3
      have hinner : SortedT (.node nk np nv (.node lk lp lv ll lr) rl) := by
        rw [sortedT_node_iff]
        refine ⟨hl, hrl, hlk, ?_⟩
        intro e he
        exact hkr e (by simp [toListP]; tauto)
      rw [removeNode_eq_two_right hlt hgt hprio]
      show toListP (removeNode (.node nk np nv (.node lk lp lv ll lr) rl) k).1 ++
          (rk, rp, rv) :: toListP rr =
        eraseKeyP k (toListP (.node lk lp lv ll lr) ++
          (nk, np, nv) :: (toListP rl ++ (rk, rp, rv) :: toListP rr))
      rw [ih hinner]
      show (eraseKeyP k (toListP (.node lk lp lv ll lr) ++ (nk, np, nv) :: toListP rl)) ++
          (rk, rp, rv) :: toListP rr =
        eraseKeyP k (toListP (.node lk lp lv ll lr) ++
          (nk, np, nv) :: (toListP rl ++ (rk, rp, rv) :: toListP rr))
      rw [eraseKeyP_append_left hne, eraseKeyP_append_left hne]
      simp [eraseKeyP, hk]

theorem sortedT_removeNode {t : Treap} {k : String} (hs : SortedT t) :
    SortedT (removeNode t k).1 := by
  unfold SortedT
  rw [toListP_removeNode t k hs]
  exact List.Pairwise.sublist (eraseKeyP_sublist k (toListP t)) hs

theorem toListP_eq_nil_iff (t : Treap) : toListP t = [] ↔ t = .nil := by
  cases t <;> simp [toListP]

/-! ### The heap invariant and uniqueness of treap shapes -/

/-- Min-heap on priorities: each node's priority is at most every
priority in its subtrees (the invariant `insertNode`'s rotations
maintain). -/
inductive HeapT : Treap → Prop
  | nil : HeapT .nil
  | node {k : String} {p : Nat} {v : String} {l r : Treap} :
      (∀ e ∈ toListP l, p ≤ e.2.1) →
      (∀ e ∈ toListP r, p ≤ e.2.1) →
      HeapT l → HeapT r → HeapT (.node k p v l r)

theorem heapT_node_iff {k : String} {p : Nat} {v : String} {l r : Treap} :
    HeapT (.node k p v l r) ↔
      (∀ e ∈ toListP l, p ≤ e.2.1) ∧ (∀ e ∈ toListP r, p ≤ e.2.1) ∧
        HeapT l ∧ HeapT r := by
  constructor
  · intro h
    cases h with
    | node h1 h2 h3 h4 => exact ⟨h1, h2, h3, h4⟩
  · rintro ⟨h1, h2, h3, h4⟩
    exact HeapT.node h1 h2 h3 h4

/-- The root priority of a heap bounds every priority in the tree. -/
theorem heapT_root_le {k : String} {p : Nat} {v : String} {l r : Treap}
    (h : HeapT (.node k p v l r)) :
    ∀ e ∈ toListP (Treap.node k p v l r), p ≤ e.2.1 := by
  rcases heapT_node_iff.mp h with ⟨h1, h2, _, _⟩
  intro e he
  rw [toListP] at he
  rcases List.mem_append.mp he with he | he
  · exact h1 e he
  · rcases List.mem_cons.mp he with he | he
    · rw [he]
    · exact h2 e he

/-- Inserting a fresh key adds exactly the new entry (as a multiset). -/
theorem toListP_insertNode_perm {t : Treap} {k v : String} {p : Nat}
    (hfresh : ∀ e ∈ toListP t, e.1 ≠ k) :
    (toListP (insertNode t k v p).1).Perm ((k, p, v) :: toListP t) := by
  induction t with
  | nil => simp [insertNode, toListP]
  | node nk np nv l r ihl ihr =>
      have hnk : ¬k = nk := by
        intro hk
        exact hfresh (nk, np, nv) (by simp [toListP]) (by rw [hk])
      by_cases h2 : k < nk
      · simp only [insertNode, if_neg hnk, if_pos h2]
        have hrot : ∀ c : Bool,
            toListP (if c then rotateRight (Treap.node nk np nv (insertNode l k v p).1 r)
              else Treap.node nk np nv (insertNode l k v p).1 r) =
              toListP (Treap.node nk np nv (insertNode l k v p).1 r) := by
          intro c; cases c
          · rfl
          · simp [toListP_rotateRight]
        rw [hrot]
        have ihl2 := ihl (fun e he => hfresh e (by simp [toListP]; tauto))
        show (toListP (insertNode l k v p).1 ++ (nk, np, nv) :: toListP r).Perm
          ((k, p, v) :: (toListP l ++ (nk, np, nv) :: toListP r))
        exact (ihl2.append_right _).trans (List.Perm.refl _)
      · simp only [insertNode, if_neg hnk, if_neg h2]
        have hrot : ∀ c : Bool,
            toListP (if c then rotateLeft (Treap.node nk np nv l (insertNode r k v p).1)
              else Treap.node nk np nv l (insertNode r k v p).1) =
              toListP (Treap.node nk np nv l (insertNode r k v p).1) := by
          intro c; cases c
          · rfl
          · simp [toListP_rotateLeft]
        rw [hrot]
        have ihr2 := ihr (fun e he => hfresh e (by simp [toListP]; tauto))
        show (toListP l ++ (nk, np, nv) :: toListP (insertNode r k v p).1).Perm
          ((k, p, v) :: (toListP l ++ (nk, np, nv) :: toListP r))
        have step1 : (toListP l ++ (nk, np, nv) :: toListP (insertNode r k v p).1).Perm
            (toListP l ++ (nk, np, nv) :: (k, p, v) :: toListP r) :=
          List.Perm.append_left _ (List.Perm.cons _ ihr2)
        have step2 : (toListP l ++ (nk, np, nv) :: (k, p, v) :: toListP r).Perm
            (toListP l ++ (k, p, v) :: (nk, np, nv) :: toListP r) :=
          List.Perm.append_left _ (List.Perm.swap _ _ _)
        have step3 : (toListP l ++ (k, p, v) :: (nk, np, nv) :: toListP r).Perm
            ((k, p, v) :: (toListP l ++ (nk, np, nv) :: toListP r)) :=
          List.perm_middle
        exact (step1.trans step2).trans step3

/-- Combined minimum on an optional root priority. -/
def minO : Option Nat → Nat → Nat
  | none, p => p
  | some q, p => min q p

/-- Inserting a fresh key into a heap puts the minimum of the old root
priority and the new priority at the root. -/
theorem rootPrio_insertNode {t : Treap} {k v : String} {p : Nat}
    (hfresh : ∀ e ∈ toListP t, e.1 ≠ k) (hh : HeapT t) :
    rootPrio? (insertNode t k v p).1 = some (minO (rootPrio? t) p) := by
  induction t with
  | nil => simp [insertNode, rootPrio?, minO]
  | node nk np nv l r ihl ihr =>
      rcases heapT_node_iff.mp hh with ⟨hpl, hpr, hhl, hhr⟩
      have hnk : ¬k = nk := by
        intro hk
        exact hfresh (nk, np, nv) (by simp [toListP]) (by rw [hk])
      by_cases h2 : k < nk
      · have ihl2 := ihl (fun e he => hfresh e (by simp [toListP]; tauto)) hhl
        simp only [insertNode, if_neg hnk, if_pos h2]
        by_cases hrot : childPrioLt (insertNode l k v p).1 np = true
        · rw [if_pos hrot]
          -- the rotation promotes the left child's root
          cases hl' : (insertNode l k v p).1 with
          | nil => rw [hl'] at hrot; simp [childPrioLt] at hrot
          | node k0 q0 v0 a b =>
              rw [hl'] at hrot ihl2
              simp only [childPrioLt, decide_eq_true_eq] at hrot
              simp only [rootPrio?] at ihl2
              rw [rotateRight]
              simp only [rootPrio?, minO]
              -- q0 = minO (rootPrio? l) p < np, while the old left root ≥ np
              cases l with
              | nil =>
                  simp [rootPrio?, minO] at ihl2
                  simp [rootPrio?, minO]
                  omega
              | node lk lp lv ll lr =>
                  have hlp : np ≤ lp :=
                    hpl (lk, lp, lv) (by simp [toListP])
                  simp [rootPrio?, minO] at ihl2 ⊢
                  omega
        · rw [if_neg hrot]
          simp only [rootPrio?, minO]
          -- no rotation: the inserted priority is at least np
          cases hl' : (insertNode l k v p).1 with
          | nil =>
              rw [hl'] at ihl2
              simp [rootPrio?] at ihl2
          | node k0 q0 v0 a b =>
              rw [hl'] at hrot ihl2
              simp only [childPrioLt, decide_eq_true_eq] at hrot
              simp only [rootPrio?, Option.some.injEq] at ihl2
              cases l with
              | nil =>
                  simp [rootPrio?, minO] at ihl2
                  simp only [Option.some.injEq]
                  omega
              | node lk lp lv ll lr =>
                  have hlp : np ≤ lp :=
                    hpl (lk, lp, lv) (by simp [toListP])
                  simp [rootPrio?, minO] at ihl2 ⊢
                  omega
      · have ihr2 := ihr (fun e he => hfresh e (by simp [toListP]; tauto)) hhr
        simp only [insertNode, if_neg hnk, if_neg h2]
        by_cases hrot : childPrioLt (insertNode r k v p).1 np = true
        · rw [if_pos hrot]
          cases hr' : (insertNode r k v p).1 with
          | nil => rw [hr'] at hrot; simp [childPrioLt] at hrot
          | node k0 q0 v0 a b =>
              rw [hr'] at hrot ihr2
              simp only [childPrioLt, decide_eq_true_eq] at hrot
              simp only [rootPrio?] at ihr2
              rw [rotateLeft]
              simp only [rootPrio?, minO]
              cases r with
              | nil =>
                  simp [rootPrio?, minO] at ihr2
                  simp [rootPrio?, minO]
                  omega
              | node rk rp rv rl rr =>
                  have hrp : np ≤ rp :=
                    hpr (rk, rp, rv) (by simp [toListP])
                  simp [rootPrio?, minO] at ihr2 ⊢
                  omega
        · rw [if_neg hrot]
          simp only [rootPrio?, minO]
          cases hr' : (insertNode r k v p).1 with
          | nil =>
              rw [hr'] at ihr2
              simp [rootPrio?] at ihr2
          | node k0 q0 v0 a b =>
              rw [hr'] at hrot ihr2
              simp only [childPrioLt, decide_eq_true_eq] at hrot
              simp only [rootPrio?, Option.some.injEq] at ihr2
              cases r with
              | nil =>
                  simp [rootPrio?, minO] at ihr2
                  simp only [Option.some.injEq]
                  omega
              | node rk rp rv rl rr =>
                  have hrp : np ≤ rp :=
                    hpr (rk, rp, rv) (by simp [toListP])
                  simp [rootPrio?, minO] at ihr2 ⊢
                  omega

theorem mem_toListP_node {e : String × Nat × String} {k : String} {p : Nat}
    {v : String} {l r : Treap} :
    e ∈ toListP (.node k p v l r) ↔
      e ∈ toListP l ∨ e = (k, p, v) ∨ e ∈ toListP r := by
  simp [toListP]

theorem minO_ge {o : Option Nat} {p np : Nat} (h : np ≤ minO o p) : np ≤ p := by
  cases o <;> simp [minO] at h <;> omega

/-- Inserting a fresh key preserves the heap invariant (the rotations
restore it level by level). -/
theorem heapT_insertNode {t : Treap} {k v : String} {p : Nat}
    (hfresh : ∀ e ∈ toListP t, e.1 ≠ k) (hh : HeapT t) :
    HeapT (insertNode t k v p).1 := by
  induction t with
  | nil =>
      simp only [insertNode]
      exact HeapT.node (by simp [toListP]) (by simp [toListP]) HeapT.nil HeapT.nil
  | node nk np nv l r ihl ihr =>
      rcases heapT_node_iff.mp hh with ⟨hpl, hpr, hhl, hhr⟩
      have hnk : ¬k = nk := by
        intro hk
        exact hfresh (nk, np, nv) (by simp [toListP]) (by rw [hk])
      by_cases h2 : k < nk
      · have hfl : ∀ e ∈ toListP l, e.1 ≠ k :=
          fun e he => hfresh e (by simp [toListP]; tauto)
        have ihl2 := ihl hfl hhl
        have hperm := @toListP_insertNode_perm l k v p hfl
        have hroot := @rootPrio_insertNode l k v p hfl hhl
        simp only [insertNode, if_neg hnk, if_pos h2]
        by_cases hrot : childPrioLt (insertNode l k v p).1 np = true
        · rw [if_pos hrot]
          cases hl' : (insertNode l k v p).1 with
          | nil => rw [hl'] at hrot; simp [childPrioLt] at hrot
          | node k0 q0 v0 a b =>
              rw [hl'] at hrot ihl2 hperm hroot
              simp only [childPrioLt, decide_eq_true_eq] at hrot
              have hrootnew : (k0, q0, v0) = (k, p, v) := by
                have hmem : (k0, q0, v0) ∈ toListP (Treap.node k0 q0 v0 a b) := by
                  simp [mem_toListP_node]
                have h4 := hperm.mem_iff.mp hmem
                rcases List.mem_cons.mp h4 with h | h
                · exact h
                · have h6 : np ≤ q0 := hpl _ h
                  exact absurd h6 (by omega)
              have h1 : toListP (Treap.node k0 q0 v0 a b) =
                  toListP a ++ (k0, q0, v0) :: toListP b := by rw [toListP]
              rw [h1, hrootnew] at hperm
              have hold : (toListP a ++ toListP b).Perm (toListP l) :=
                List.Perm.cons_inv (List.perm_middle.symm.trans hperm)
              have holdmem : ∀ e, e ∈ toListP a ∨ e ∈ toListP b → e ∈ toListP l := by
                intro e he
                exact hold.mem_iff.mp (List.mem_append.mpr he)
              rcases heapT_node_iff.mp ihl2 with ⟨hqa, hqb, hha, hhb⟩
              rw [rotateRight]
              refine HeapT.node hqa ?_ hha ?_
              · intro e he
                rcases mem_toListP_node.mp he with he | he | he
                · exact hqb e he
                · rw [he]; show q0 ≤ np; omega
                · have h7 : np ≤ e.2.1 := hpr e he
                  omega
              · refine HeapT.node ?_ hpr hhb hhr
                intro e he
                exact hpl e (holdmem e (Or.inr he))
        · rw [if_neg hrot]
          refine HeapT.node ?_ hpr ihl2 hhr
          intro e he
          rcases List.mem_cons.mp (hperm.mem_iff.mp he) with he | he
          · rw [he]
            cases hl' : (insertNode l k v p).1 with
            | nil => rw [hl'] at hperm; simp [toListP] at hperm
            | node k0 q0 v0 a b =>
                rw [hl'] at hrot hroot
                simp only [childPrioLt, decide_eq_true_eq] at hrot
                simp only [rootPrio?, Option.some.injEq] at hroot
                have : np ≤ q0 := by omega
                rw [hroot] at this
                exact minO_ge this
          · exact hpl e he
      · have hfr : ∀ e ∈ toListP r, e.1 ≠ k :=
          fun e he => hfresh e (by simp [toListP]; tauto)
        have ihr2 := ihr hfr hhr
        have hperm := @toListP_insertNode_perm r k v p hfr
        have hroot := @rootPrio_insertNode r k v p hfr hhr
        simp only [insertNode, if_neg hnk, if_neg h2]
        by_cases hrot : childPrioLt (insertNode r k v p).1 np = true
        · rw [if_pos hrot]
          cases hr' : (insertNode r k v p).1 with
          | nil => rw [hr'] at hrot; simp [childPrioLt] at hrot
          | node k0 q0 v0 a b =>
              rw [hr'] at hrot ihr2 hperm hroot
              simp only [childPrioLt, decide_eq_true_eq] at hrot
              have hrootnew : (k0, q0, v0) = (k, p, v) := by
                have hmem : (k0, q0, v0) ∈ toListP (Treap.node k0 q0 v0 a b) := by
                  simp [mem_toListP_node]
                have h4 := hperm.mem_iff.mp hmem
                rcases List.mem_cons.mp h4 with h | h
                · exact h
                · have h6 : np ≤ q0 := hpr _ h
                  exact absurd h6 (by omega)
              have h1 : toListP (Treap.node k0 q0 v0 a b) =
                  toListP a ++ (k0, q0, v0) :: toListP b := by rw [toListP]
              rw [h1, hrootnew] at hperm
              have hold : (toListP a ++ toListP b).Perm (toListP r) :=
                List.Perm.cons_inv (List.perm_middle.symm.trans hperm)
              have holdmem : ∀ e, e ∈ toListP a ∨ e ∈ toListP b → e ∈ toListP r := by
                intro e he
                exact hold.mem_iff.mp (List.mem_append.mpr he)
              rcases heapT_node_iff.mp ihr2 with ⟨hqa, hqb, hha, hhb⟩
              rw [rotateLeft]
              refine HeapT.node ?_ hqb ?_ hhb
              · intro e he
                rcases mem_toListP_node.mp he with he | he | he
                · have h7 : np ≤ e.2.1 := hpl e he
                  omega
                · rw [he]; show q0 ≤ np; omega
                · exact hqa e he
              · refine HeapT.node hpl ?_ hhl hha
                intro e he
                exact hpr e (holdmem e (Or.inl he))
        · rw [if_neg hrot]
          refine HeapT.node hpl ?_ hhl ihr2
          intro e he
          rcases List.mem_cons.mp (hperm.mem_iff.mp he) with he | he
          · rw [he]
            cases hr' : (insertNode r k v p).1 with
            | nil => rw [hr'] at hperm; simp [toListP] at hperm
            | node k0 q0 v0 a b =>
                rw [hr'] at hrot hroot
                simp only [childPrioLt, decide_eq_true_eq] at hrot
                simp only [rootPrio?, Option.some.injEq] at hroot
                have : np ≤ q0 := by omega
                rw [hroot] at this
                exact minO_ge this
          · exact hpr e he

/-- Entries in a list with pairwise-distinct priorities are determined
by their priority. -/
theorem eq_of_mem_pairwise_ne {l : List (String × Nat × String)}
    (hp : l.Pairwise (fun a b => a.2.1 ≠ b.2.1))
    {a b : String × Nat × String} (ha : a ∈ l) (hb : b ∈ l)
    (h : a.2.1 = b.2.1) : a = b := by
  induction l with
  | nil => simp at ha
  | cons e rest ih =>
      rw [List.pairwise_cons] at hp
      rcases List.mem_cons.mp ha with ha2 | ha2 <;>
        rcases List.mem_cons.mp hb with hb2 | hb2
      · rw [ha2, hb2]
      · rw [ha2] at h
        exact absurd h (hp.1 b hb2)
      · rw [hb2] at h
        exact absurd h.symm (hp.1 a ha2)
      · exact ih hp.2 ha2 hb2

/-- A list splits uniquely around an element that occurs in neither
prefix. -/
theorem split_unique {α : Type} {m : α} :
    ∀ {xs xs2 ys ys2 : List α},
      xs ++ m :: ys = xs2 ++ m :: ys2 → m ∉ xs → m ∉ xs2 →
      xs = xs2 ∧ ys = ys2 := by
  intro xs
  induction xs with
  | nil =>
      intro xs2 ys ys2 h h1 h2
      cases xs2 with
      | nil => simpa using h
      | cons x2 t2 =>
          simp only [List.nil_append, List.cons_append, List.cons.injEq] at h
          exact absurd (List.mem_cons.mpr (Or.inl h.1)) h2
  | cons x t ih =>
      intro xs2 ys ys2 h h1 h2
      cases xs2 with
      | nil =>
          simp only [List.cons_append, List.nil_append, List.cons.injEq] at h
          exact absurd (List.mem_cons.mpr (Or.inl h.1.symm)) h1
      | cons x2 t2 =>
          simp only [List.cons_append, List.cons.injEq] at h
          have hrec := ih h.2 (fun hm => h1 (List.mem_cons.mpr (Or.inr hm)))
            (fun hm => h2 (List.mem_cons.mpr (Or.inr hm)))
          exact ⟨by rw [h.1, hrec.1], hrec.2⟩

/-- A treap (search tree + heap) with pairwise-distinct priorities is
uniquely determined by its in-order content. -/
theorem treap_unique : ∀ (t1 t2 : Treap),
    SortedT t1 → HeapT t1 → SortedT t2 → HeapT t2 →
    toListP t1 = toListP t2 →
    (toListP t1).Pairwise (fun a b => a.2.1 ≠ b.2.1) →
    t1 = t2 := by
  intro t1
  induction t1 with
  | nil =>
      intro t2 _ _ _ _ heq _
      have : toListP t2 = [] := by rw [← heq]; rfl
      exact ((toListP_eq_nil_iff t2).mp this).symm
  | node k p v l r ihl ihr =>
      intro t2 hs1 hh1 hs2 hh2 heq hpne
      cases t2 with
      | nil => simp [toListP] at heq
      | node k2 p2 v2 l2 r2 =>
          rw [toListP, toListP] at heq
          have hm1 : (k, p, v) ∈ toListP l ++ (k, p, v) :: toListP r := by simp
          have hm2 : (k2, p2, v2) ∈ toListP l ++ (k, p, v) :: toListP r := by
            rw [heq]; simp
          have hb1 := heapT_root_le hh1
          have hb2 := heapT_root_le hh2
          rw [toListP] at hb1 hb2
          have hple : p ≤ p2 := by
            have := hb1 (k2, p2, v2) hm2
            simpa using this
          have hp2le : p2 ≤ p := by
            have hm1b : (k, p, v) ∈ toListP l2 ++ (k2, p2, v2) :: toListP r2 :=
              heq ▸ hm1
            have := hb2 (k, p, v) hm1b
            simpa using this
          have hpp : p = p2 := le_antisymm hple hp2le
          have hpne2 : (toListP l ++ (k, p, v) :: toListP r).Pairwise
              (fun a b => a.2.1 ≠ b.2.1) := by
            rw [toListP] at hpne; exact hpne
          have hroots : ((k, p, v) : String × Nat × String) = (k2, p2, v2) :=
            eq_of_mem_pairwise_ne hpne2 hm1 hm2 (by simpa using hpp)
          have hmnotl : (k, p, v) ∉ toListP l := by
            intro hmem
            rcases List.pairwise_append.mp hpne2 with ⟨_, _, hcross⟩
            exact hcross (k, p, v) hmem (k, p, v) (by simp) rfl
          have hmnotl2 : (k, p, v) ∉ toListP l2 := by
            intro hmem
            have hpne3 : (toListP l2 ++ (k2, p2, v2) :: toListP r2).Pairwise
                (fun a b => a.2.1 ≠ b.2.1) := by rw [← heq]; exact hpne2
            rcases List.pairwise_append.mp hpne3 with ⟨_, _, hcross⟩
            have := hcross (k, p, v) hmem (k2, p2, v2) (by simp)
            rw [hroots] at this
            exact this rfl
          have heq2 : toListP l ++ (k, p, v) :: toListP r =
              toListP l2 ++ (k, p, v) :: toListP r2 := by
            rw [heq, hroots]
          have hsplit := split_unique heq2 hmnotl hmnotl2
          rcases sortedT_node_iff.mp hs1 with ⟨hsl, hsr, _, _⟩
          rcases sortedT_node_iff.mp hs2 with ⟨hsl2, hsr2, _, _⟩
          rcases heapT_node_iff.mp hh1 with ⟨_, _, hhl, hhr⟩
          rcases heapT_node_iff.mp hh2 with ⟨_, _, hhl2, hhr2⟩
          have hpnel : (toListP l).Pairwise (fun a b => a.2.1 ≠ b.2.1) :=
            List.Pairwise.sublist (List.sublist_append_left _ _) hpne2
          have hpner : (toListP r).Pairwise (fun a b => a.2.1 ≠ b.2.1) :=
            List.Pairwise.sublist
              ((List.sublist_cons_self _ _).trans (List.sublist_append_right _ _)) hpne2
          have hl12 : l = l2 := ihl l2 hsl hhl hsl2 hhl2 hsplit.1 hpnel
          have hr12 : r = r2 := ihr r2 hsr hhr hsr2 hhr2 hsplit.2 hpner
          have hk : k = k2 := congrArg Prod.fst hroots
          have hv : v = v2 := by
            have := congrArg Prod.snd hroots
            exact congrArg Prod.snd this
          rw [hk, hpp, hv, hl12, hr12]

end Treap

/-! ## C3: insertion-order independence of the partition map

`addToIndexes` (`store.ts`) inserts
`(encodeIndexEntryKey range itemKey) -> itemKey` with priority
`stablePriority(indexName, hash, range, itemKey)` into the partition map
of a hash key.  `buildPartition` is that insertion loop over a list of
`(range, itemKey)` contents; `prio` stands for `stablePriority`, a fixed
function of the four strings (SHA-256 based in `utils.ts`, hence neither
random nor insertion-order dependent). -/

def buildPartition (prio : String → String → String → String → Nat)
    (indexName hashKey : String)
    (contents : List (String × String)) : Treap :=
  contents.foldl
    (fun t e =>
      Treap.insert t (encodeIndexEntryKey e.1 e.2) e.2
        (prio indexName hashKey e.1 e.2))
    Treap.nil

/-- Two lists that are permutations of each other and both strictly
sorted under an asymmetric relation are equal. -/
theorem eq_of_perm_of_pairwise_asymm {α : Type} {r : α → α → Prop}
    (hasymm : ∀ a b, r a b → ¬r b a) :
    ∀ {l1 l2 : List α}, l1.Perm l2 → l1.Pairwise r → l2.Pairwise r →
      l1 = l2 := by
  intro l1
  induction l1 with
  | nil =>
      intro l2 hperm _ _
      exact (hperm.nil_eq).symm ▸ rfl
  | cons a t1 ih =>
      intro l2 hperm h1 h2
      cases l2 with
      | nil => exact absurd hperm.symm (by simp)
      | cons b t2 =>
          rcases List.pairwise_cons.mp h1 with ⟨ha1, ht1⟩
          rcases List.pairwise_cons.mp h2 with ⟨hb2, ht2⟩
          have hab : a = b := by
            by_contra hne
            have hain : a ∈ b :: t2 := hperm.mem_iff.mp (by simp)
            have hbin : b ∈ a :: t1 := hperm.mem_iff.mpr (by simp)
            have ha2 : a ∈ t2 := by
              rcases List.mem_cons.mp hain with h | h
              · exact absurd h hne
              · exact h
            have hb1 : b ∈ t1 := by
              rcases List.mem_cons.mp hbin with h | h
              · exact absurd h.symm hne
              · exact h
            exact hasymm a b (ha1 b hb1) (hb2 a ha2)
          rw [hab] at hperm
          have := ih (hperm.cons_inv) ht1 ht2
          rw [hab, this]

/-- Invariant of the insertion fold: starting from a well-formed treap
whose keys avoid the incoming entry keys, the fold yields a well-formed
treap holding exactly the old and new entries. -/
theorem buildPartition_invariant
    (prio : String → String → String → String → Nat)
    (indexName hashKey : String) :
    ∀ (contents : List (String × String)) (t : Treap),
      Treap.SortedT t → Treap.HeapT t →
      (∀ e ∈ contents, ∀ x ∈ Treap.toListP t, x.1 ≠ encodeIndexEntryKey e.1 e.2) →
      (contents.map (fun e => encodeIndexEntryKey e.1 e.2)).Nodup →
      Treap.SortedT (contents.foldl
        (fun t e => Treap.insert t (encodeIndexEntryKey e.1 e.2) e.2
          (prio indexName hashKey e.1 e.2)) t) ∧
      Treap.HeapT (contents.foldl
        (fun t e => Treap.insert t (encodeIndexEntryKey e.1 e.2) e.2
          (prio indexName hashKey e.1 e.2)) t) ∧
      (Treap.toListP (contents.foldl
        (fun t e => Treap.insert t (encodeIndexEntryKey e.1 e.2) e.2
          (prio indexName hashKey e.1 e.2)) t)).Perm
        ((contents.map (fun e =>
          (encodeIndexEntryKey e.1 e.2, prio indexName hashKey e.1 e.2, e.2))) ++
          Treap.toListP t) := by
  intro contents
  induction contents with
  | nil =>
      intro t hs hh _ _
      exact ⟨hs, hh, by simp⟩
  | cons e rest ih =>
      intro t hs hh hdisj hnodup
      simp only [List.foldl_cons]
      have hfresh : ∀ x ∈ Treap.toListP t, x.1 ≠ encodeIndexEntryKey e.1 e.2 :=
        hdisj e (by simp)
      have hs2 : Treap.SortedT (Treap.insert t (encodeIndexEntryKey e.1 e.2) e.2
          (prio indexName hashKey e.1 e.2)) := Treap.sortedT_insertNode hs
      have hh2 : Treap.HeapT (Treap.insert t (encodeIndexEntryKey e.1 e.2) e.2
          (prio indexName hashKey e.1 e.2)) := Treap.heapT_insertNode hfresh hh
      have hperm2 := @Treap.toListP_insertNode_perm t (encodeIndexEntryKey e.1 e.2)
        e.2 (prio indexName hashKey e.1 e.2) hfresh
      rw [List.map_cons, List.nodup_cons] at hnodup
      have hdisj2 : ∀ e2 ∈ rest,
          ∀ x ∈ Treap.toListP (Treap.insert t (encodeIndexEntryKey e.1 e.2) e.2
            (prio indexName hashKey e.1 e.2)),
          x.1 ≠ encodeIndexEntryKey e2.1 e2.2 := by
        intro e2 he2 x hx
        rcases List.mem_cons.mp (hperm2.mem_iff.mp hx) with hx2 | hx2
        · rw [hx2]
          intro hcontra
          have hcontra2 : encodeIndexEntryKey e.1 e.2 =
              encodeIndexEntryKey e2.1 e2.2 := hcontra
          exact hnodup.1 (by
            rw [hcontra2]
            exact List.mem_map.mpr ⟨e2, he2, rfl⟩)
        · exact hdisj e2 (by simp [he2]) x hx2
      rcases ih _ hs2 hh2 hdisj2 hnodup.2 with ⟨ha, hb, hc⟩
      refine ⟨ha, hb, ?_⟩
      refine hc.trans ?_
      refine (List.Perm.append_left _ hperm2).trans ?_
      simp only [List.map_cons, List.cons_append]
      exact List.perm_middle

/-- C3: For every finite set of `(range, itemKey)` contents whose entry
keys are distinct and whose content-derived stable priorities are
pairwise distinct, inserting the contents in any two orders yields the
same tree (hence the same shape) and identical ascending and descending
iteration sequences.  The priority argument `prio` stands for
`stablePriority`: a fixed function of
`(index_name, hash_key, range_key, item_key)`, with no dependence on
randomness or insertion order. -/
theorem treap_insertion_order_independent
    (prio : String → String → String → String → Nat)
    (indexName hashKey : String) (l1 l2 : List (String × String))
    (hperm : l1.Perm l2)
    (hkeys : (l1.map (fun e => encodeIndexEntryKey e.1 e.2)).Nodup)
    (hprios : (l1.map (fun e => prio indexName hashKey e.1 e.2)).Nodup) :
    buildPartition prio indexName hashKey l1 =
      buildPartition prio indexName hashKey l2 ∧
    Treap.iterate (buildPartition prio indexName hashKey l1) true {} =
      Treap.iterate (buildPartition prio indexName hashKey l2) true {} ∧
    Treap.iterate (buildPartition prio indexName hashKey l1) false {} =
      Treap.iterate (buildPartition prio indexName hashKey l2) false {} := by
  have hkeys2 : (l2.map (fun e => encodeIndexEntryKey e.1 e.2)).Nodup :=
    (hperm.map _).nodup_iff.mp hkeys
  have inv1 := buildPartition_invariant prio indexName hashKey l1 Treap.nil
    Treap.sortedT_nil Treap.HeapT.nil (by simp [Treap.toListP]) hkeys
  have inv2 := buildPartition_invariant prio indexName hashKey l2 Treap.nil
    Treap.sortedT_nil Treap.HeapT.nil (by simp [Treap.toListP]) hkeys2
  rcases inv1 with ⟨hs1, hh1, hc1⟩
  rcases inv2 with ⟨hs2, hh2, hc2⟩
  have hc1b : (Treap.toListP (buildPartition prio indexName hashKey l1)).Perm
      (l1.map (fun e =>
        (encodeIndexEntryKey e.1 e.2, prio indexName hashKey e.1 e.2, e.2))) := by
    simpa [buildPartition, Treap.toListP] using hc1
  have hc2b : (Treap.toListP (buildPartition prio indexName hashKey l2)).Perm
      (l2.map (fun e =>
        (encodeIndexEntryKey e.1 e.2, prio indexName hashKey e.1 e.2, e.2))) := by
    simpa [buildPartition, Treap.toListP] using hc2
  have hlistperm : (Treap.toListP (buildPartition prio indexName hashKey l1)).Perm
      (Treap.toListP (buildPartition prio indexName hashKey l2)) :=
    (hc1b.trans (hperm.map _)).trans hc2b.symm
  have hasymm : ∀ a b : String × Nat × String, a.1 < b.1 → ¬b.1 < a.1 :=
    fun a b h1 h2 => absurd (lt_trans h1 h2) (lt_irrefl _)
  have heqlist : Treap.toListP (buildPartition prio indexName hashKey l1) =
      Treap.toListP (buildPartition prio indexName hashKey l2) :=
    eq_of_perm_of_pairwise_asymm hasymm hlistperm hs1 hs2
  have hpne : (Treap.toListP (buildPartition prio indexName hashKey l1)).Pairwise
      (fun a b => a.2.1 ≠ b.2.1) := by
    have hpr2 : (l1.map (fun e => prio indexName hashKey e.1 e.2)).Pairwise
        (fun a b => a ≠ b) := hprios
    rw [List.pairwise_map] at hpr2
    have hnodup2 : (l1.map (fun e =>
        (encodeIndexEntryKey e.1 e.2, prio indexName hashKey e.1 e.2, e.2))).Pairwise
        (fun a b => a.2.1 ≠ b.2.1) := by
      rw [List.pairwise_map]
      exact hpr2
    exact (List.Perm.pairwise_iff (fun hxy => Ne.symm hxy) hc1b).mpr hnodup2
  have htree : buildPartition prio indexName hashKey l1 =
      buildPartition prio indexName hashKey l2 :=
    Treap.treap_unique _ _ hs1 hh1 hs2 hh2 heqlist hpne
  exact ⟨htree, by rw [htree], by rw [htree]⟩

/-- Witness for C3 at a concrete content set, insertion order and
priority assignment. -/
theorem treap_insertion_order_independent_witness :
    buildPartition (fun _ _ r ik => (r ++ ik).length) ("GSI2") ("h")
        [("a", "x"), ("bb", "yy")] =
      buildPartition (fun _ _ r ik => (r ++ ik).length) ("GSI2") ("h")
        [("bb", "yy"), ("a", "x")] :=
  (treap_insertion_order_independent (fun _ _ r ik => (r ++ ik).length)
    ("GSI2") ("h") [("a", "x"), ("bb", "yy")] [("bb", "yy"), ("a", "x")]
    (List.Perm.swap ("bb", "yy") ("a", "x") [])
    (by decide) (by decide)).1

namespace Treap

/-- Components of an equality of key/priority/value triples. -/
theorem tripleEq {a a2 : String} {q q2 : Nat} {b b2 : String}
    (h : ((a, q, b) : String × Nat × String) = (a2, q2, b2)) :
    a = a2 ∧ q = q2 ∧ b = b2 := by
  simpa using h

/-- Stripping priorities from an in-order list. -/
theorem mem_entries_iff {t : Treap} {a b : String} :
    (a, b) ∈ entries t ↔ ∃ p, (a, p, b) ∈ toListP t := by
  constructor
  · intro h
    rcases List.mem_map.mp h with ⟨e, he, heq⟩
    refine ⟨e.2.1, ?_⟩
    have h1 : e.1 = a := congrArg Prod.fst heq
    have h2 : e.2.2 = b := congrArg Prod.snd heq
    rw [← h1, ← h2]
    exact he
  · rintro ⟨p, hp⟩
    exact List.mem_map.mpr ⟨(a, p, b), hp, rfl⟩

theorem mem_strip_listInsertP {k : String} {p : Nat} {v : String}
    {lst : List (String × Nat × String)}
    (hsorted : lst.Pairwise (fun a b => a.1 < b.1)) {a b : String} :
    (∃ q, (a, q, b) ∈ listInsertP k p v lst) ↔
      ((∃ q, (a, q, b) ∈ lst) ∧ a ≠ k) ∨ (a = k ∧ b = v) := by
  induction lst with
  | nil =>
      simp only [listInsertP, List.mem_singleton, List.not_mem_nil]
      constructor
      · rintro ⟨q, hq⟩
        rcases tripleEq hq with ⟨ha, _, hb⟩
        exact Or.inr ⟨ha, hb⟩
      · rintro (⟨⟨q, hq⟩, _⟩ | ⟨ha, hb⟩)
        · exact absurd hq (by simp)
        · exact ⟨p, by rw [ha, hb]⟩
  | cons e rest ih =>
      rw [List.pairwise_cons] at hsorted
      have ihr := ih hsorted.2
      by_cases h1 : k = e.1
      · simp only [listInsertP, if_pos h1]
        constructor
        · rintro ⟨q, hq⟩
          rcases List.mem_cons.mp hq with hq | hq
          · rcases tripleEq hq with ⟨ha, _, hb⟩
            exact Or.inr ⟨by rw [ha, ← h1], hb⟩
          · refine Or.inl ⟨⟨q, List.mem_cons.mpr (Or.inr hq)⟩, ?_⟩
            intro ha
            have h3 := hsorted.1 (a, q, b) hq
            rw [ha, h1] at h3
            exact lt_irrefl _ h3
        · rintro (⟨⟨q, hq⟩, hne⟩ | ⟨ha, hb⟩)
          · rcases List.mem_cons.mp hq with hq | hq
            · rcases tripleEq hq with ⟨ha, _, _⟩
              exact absurd (by rw [ha, ← h1]) hne
            · exact ⟨q, List.mem_cons.mpr (Or.inr hq)⟩
          · exact ⟨e.2.1, List.mem_cons.mpr (Or.inl (by rw [ha, hb, h1]))⟩
      · by_cases h2 : k < e.1
        · simp only [listInsertP, if_neg h1, if_pos h2]
          constructor
          · rintro ⟨q, hq⟩
            rcases List.mem_cons.mp hq with hq | hq
            · rcases tripleEq hq with ⟨ha, _, hb⟩
              exact Or.inr ⟨ha, hb⟩
            · rcases List.mem_cons.mp hq with hq | hq
              · refine Or.inl ⟨⟨q, List.mem_cons.mpr (Or.inl hq)⟩, ?_⟩
                rcases tripleEq hq with ⟨ha, _, _⟩
                intro hak
                rw [ha] at hak
                exact h1 hak.symm
              · refine Or.inl ⟨⟨q, List.mem_cons.mpr (Or.inr hq)⟩, ?_⟩
                intro ha
                have h3 := hsorted.1 (a, q, b) hq
                rw [ha] at h3
                exact absurd (lt_trans h2 h3) (lt_irrefl k)
          · rintro (⟨⟨q, hq⟩, hne⟩ | ⟨ha, hb⟩)
            · exact ⟨q, List.mem_cons.mpr (Or.inr hq)⟩
            · exact ⟨p, List.mem_cons.mpr (Or.inl (by rw [ha, hb]))⟩
        · simp only [listInsertP, if_neg h1, if_neg h2]
          constructor
          · rintro ⟨q, hq⟩
            rcases List.mem_cons.mp hq with hq | hq
            · refine Or.inl ⟨⟨q, List.mem_cons.mpr (Or.inl hq)⟩, ?_⟩
              rcases tripleEq hq with ⟨ha, _, _⟩
              intro hak
              rw [ha] at hak
              exact h1 hak.symm
            · rcases ihr.mp ⟨q, hq⟩ with ⟨⟨q2, hq2⟩, hne⟩ | hkb
              · exact Or.inl ⟨⟨q2, List.mem_cons.mpr (Or.inr hq2)⟩, hne⟩
              · exact Or.inr hkb
          · rintro (⟨⟨q, hq⟩, hne⟩ | ⟨ha, hb⟩)
            · rcases List.mem_cons.mp hq with hq | hq
              · exact ⟨q, List.mem_cons.mpr (Or.inl hq)⟩
              · rcases ihr.mpr (Or.inl ⟨⟨q, hq⟩, hne⟩) with ⟨q2, hq2⟩
                exact ⟨q2, List.mem_cons.mpr (Or.inr hq2)⟩
            · rcases ihr.mpr (Or.inr ⟨ha, hb⟩) with ⟨q2, hq2⟩
              exact ⟨q2, List.mem_cons.mpr (Or.inr hq2)⟩

/-- Membership in the entries of a treap after `insert`. -/
theorem mem_entries_insert {t : Treap} {k v : String} {p : Nat}
    (hs : SortedT t) {a b : String} :
    (a, b) ∈ entries (insert t k v p) ↔
      (((a, b) ∈ entries t ∧ a ≠ k) ∨ (a = k ∧ b = v)) := by
  rw [mem_entries_iff]
  unfold insert
  rw [show toListP (insertNode t k v p).1 = listInsertP k p v (toListP t) from
    toListP_insertNode hs]
  rw [mem_strip_listInsertP hs]
  rw [mem_entries_iff]

theorem mem_strip_eraseKeyP {k : String}
    {lst : List (String × Nat × String)}
    (hsorted : lst.Pairwise (fun a b => a.1 < b.1)) {a b : String} :
    (∃ q, (a, q, b) ∈ eraseKeyP k lst) ↔
      (∃ q, (a, q, b) ∈ lst) ∧ a ≠ k := by
  induction lst with
  | nil => simp [eraseKeyP]
  | cons e rest ih =>
      rw [List.pairwise_cons] at hsorted
      have ihr := ih hsorted.2
      by_cases h1 : e.1 = k
      · simp only [eraseKeyP, if_pos h1]
        constructor
        · rintro ⟨q, hq⟩
          refine ⟨⟨q, List.mem_cons.mpr (Or.inr hq)⟩, ?_⟩
          intro ha
          have h3 := hsorted.1 (a, q, b) hq
          rw [ha, ← h1] at h3
          exact lt_irrefl _ h3
        · rintro ⟨⟨q, hq⟩, hne⟩
          rcases List.mem_cons.mp hq with hq | hq
          · rcases tripleEq hq with ⟨ha, _, _⟩
            exact absurd (by rw [ha, h1]) hne
          · exact ⟨q, hq⟩
      · simp only [eraseKeyP, if_neg h1]
        constructor
        · rintro ⟨q, hq⟩
          rcases List.mem_cons.mp hq with hq | hq
          · refine ⟨⟨q, List.mem_cons.mpr (Or.inl hq)⟩, ?_⟩
            rcases tripleEq hq with ⟨ha, _, _⟩
            intro hak
            rw [ha] at hak
            exact h1 hak
          · rcases ihr.mp ⟨q, hq⟩ with ⟨⟨q2, hq2⟩, hne⟩
            exact ⟨⟨q2, List.mem_cons.mpr (Or.inr hq2)⟩, hne⟩
        · rintro ⟨⟨q, hq⟩, hne⟩
          rcases List.mem_cons.mp hq with hq | hq
          · exact ⟨q, List.mem_cons.mpr (Or.inl hq)⟩
          · rcases ihr.mpr ⟨⟨q, hq⟩, hne⟩ with ⟨q2, hq2⟩
            exact ⟨q2, List.mem_cons.mpr (Or.inr hq2)⟩

/-- Membership in the entries of a treap after `remove`. -/
theorem mem_entries_remove {t : Treap} {k : String}
    (hs : SortedT t) {a b : String} :
    (a, b) ∈ entries (remove t k) ↔ ((a, b) ∈ entries t ∧ a ≠ k) := by
  rw [mem_entries_iff]
  unfold remove
  rw [toListP_removeNode t k hs]
  rw [mem_strip_eraseKeyP hs]
  rw [mem_entries_iff]

/-- The entry keys of a search tree are distinct. -/
theorem entries_keys_nodup {t : Treap} (hs : SortedT t) :
    ((entries t).map Prod.fst).Nodup := by
  have h : ((entries t).map Prod.fst).Pairwise (fun a b => a ≠ b) := by
    unfold entries
    rw [List.map_map, List.pairwise_map]
    exact hs.imp (fun h => ne_of_lt h)
  exact h

end Treap

/-! ## Table state (`store.ts`, `gsi.ts`)

`InMemoryTableState` keeps an insertion-ordered `Map` from encoded item
key to the stored item, plus, per index name, a `Map` from hash key to
a partition treap.  Maps are modelled as association lists
(`JS Map` iteration order) resp. as functions to `Option Treap`.
The priority assignment `prio` stands for `stablePriority`. -/

def GSI_NAMES : List String :=
  ["GSI2", "GSI3", "GSI4", "GSI5", "GSI6", "GSI7", "GSI8", "GSI9",
   "GSI10", "GSI11", "GSI12", "GSI13", "GSI14", "GSI15", "GSI16",
   "GSI17", "GSI18", "GSI19"]

structure IndexDescriptor where
  name : String
  hashAttribute : String
  rangeAttribute : String
deriving DecidableEq, Repr

def PRIMARY_INDEX_NAME : String := "primary"

def INDEX_DESCRIPTORS : List IndexDescriptor :=
  { name := PRIMARY_INDEX_NAME, hashAttribute := "PK", rangeAttribute := "SK" } ::
    GSI_NAMES.map (fun n =>
      { name := n, hashAttribute := n ++ ("PK"), rangeAttribute := n ++ ("SK") })

/-- `INDEX_BY_NAME` lookup. -/
def getDescriptor? (name : String) : Option IndexDescriptor :=
  INDEX_DESCRIPTORS.find? (fun d => d.name = name)

def isGSI (indexName : String) : Bool := indexName ≠ PRIMARY_INDEX_NAME

def isSupportedIndexName (indexName : String) : Bool :=
  indexName = PRIMARY_INDEX_NAME || GSI_NAMES.contains indexName

/-- JS `Map.get`. -/
def mapGet {α : Type} (m : List (String × α)) (k : String) : Option α :=
  match m with
  | [] => none
  | (k2, v) :: rest => if k2 = k then some v else mapGet rest k

/-- JS `Map.set`: replaces in place, else appends at the end. -/
def mapSet {α : Type} (m : List (String × α)) (k : String) (v : α) :
    List (String × α) :=
  match m with
  | [] => [(k, v)]
  | (k2, v2) :: rest =>
      if k2 = k then (k2, v) :: rest else (k2, v2) :: mapSet rest k v

/-- JS `Map.delete`. -/
def mapDelete {α : Type} (m : List (String × α)) (k : String) :
    List (String × α) :=
  match m with
  | [] => []
  | (k2, v2) :: rest =>
      if k2 = k then rest else (k2, v2) :: mapDelete rest k

/-- The per-index family of partition maps: index name, then hash key. -/
abbrev Indexes := String → String → Option Treap

/-- Replace one partition slot. -/
def updatePartition (idx : Indexes) (name h : String) (t : Option Treap) :
    Indexes :=
  fun n hh => if n = name then (if hh = h then t else idx n hh) else idx n hh

/-- `getIndexKeyFromItem` from `store.ts` (both branches of the
`primary` test coincide in the source). -/
def getIndexKeyFromItem (indexName : String) (item : Item) :
    Option (String × String) :=
  match getDescriptor? indexName with
  | none => none
  | some d =>
      if indexName = PRIMARY_INDEX_NAME then
        match getAttr item d.hashAttribute, getAttr item d.rangeAttribute with
        | some (.str h), some (.str r) => some (h, r)
        | _, _ => none
      else
        match getAttr item d.hashAttribute, getAttr item d.rangeAttribute with
        | some (.str h), some (.str r) => some (h, r)
        | _, _ => none

/-- The loop body of `addToIndexes` for one descriptor. -/
def addToIndexesStep (prio : String → String → String → String → Nat)
    (itemKey : String) (item : Item) (acc : Indexes) (d : IndexDescriptor) :
    Indexes :=
  match getIndexKeyFromItem d.name item with
  | none => acc
  | some (h, r) =>
      let tree := (acc d.name h).getD Treap.nil
      let entryKey := encodeIndexEntryKey r itemKey
      updatePartition acc d.name h
        (some (Treap.insert tree entryKey itemKey (prio d.name h r itemKey)))

/-- `addToIndexes` from `store.ts`. -/
def addToIndexes (prio : String → String → String → String → Nat)
    (idx : Indexes) (itemKey : String) (item : Item) : Indexes :=
  INDEX_DESCRIPTORS.foldl (addToIndexesStep prio itemKey item) idx

/-- The loop body of `removeFromIndexes` for one descriptor. -/
def removeFromIndexesStep (itemKey : String) (item : Item)
    (acc : Indexes) (d : IndexDescriptor) : Indexes :=
  match getIndexKeyFromItem d.name item with
  | none => acc
  | some (h, r) =>
      match acc d.name h with
      | none => acc
      | some tree =>
          let entryKey := encodeIndexEntryKey r itemKey
          let tree2 := Treap.remove tree entryKey
          if Treap.count tree2 = 0 then
            updatePartition acc d.name h none
          else
            updatePartition acc d.name h (some tree2)

/-- `removeFromIndexes` from `store.ts`. -/
def removeFromIndexes (idx : Indexes) (itemKey : String) (item : Item) :
    Indexes :=
  INDEX_DESCRIPTORS.foldl (removeFromIndexesStep itemKey item) idx

structure TableState where
  itemStore : List (String × Item)
  indexes : Indexes

def emptyTable : TableState :=
  { itemStore := [], indexes := fun _ _ => none }

/-- `cloneItemByItemKey`. -/
def TableState.cloneItemByItemKey (s : TableState) (itemKey : String) :
    Option Item :=
  (mapGet s.itemStore itemKey).map cloneItem

/-- `cloneItemByKey`. -/
def TableState.cloneItemByKey (s : TableState) (pk sk : String) : Option Item :=
  s.cloneItemByItemKey (encodeItemKey pk sk)

/-- `put` from `store.ts`: validates the primary key, removes the
previous item from the indexes, stores a deep copy, adds it to the
indexes, and returns the previous item (cloned). -/
def TableState.put (prio : String → String → String → String → Nat)
    (s : TableState) (item : Item) :
    Except Err (TableState × Option Item) :=
  match getAttr item ("PK"), getAttr item ("SK") with
  | some (.str pk), some (.str sk) =>
      let itemKey := encodeItemKey pk sk
      let previous := mapGet s.itemStore itemKey
      let idx1 :=
        match previous with
        | some prev => removeFromIndexes s.indexes itemKey prev
        | none => s.indexes
      let stored := cloneItem item
      .ok ({ itemStore := mapSet s.itemStore itemKey stored,
             indexes := addToIndexes prio idx1 itemKey stored },
           previous.map cloneItem)
  | _, _ => .error (.jsError ("Primary key attributes PK and SK must be strings."))

/-- `deleteByKey` from `store.ts`. -/
def TableState.deleteByKey (s : TableState) (pk sk : String) :
    TableState × Option Item :=
  let itemKey := encodeItemKey pk sk
  match mapGet s.itemStore itemKey with
  | none => (s, none)
  | some prev =>
      ({ itemStore := mapDelete s.itemStore itemKey,
         indexes := removeFromIndexes s.indexes itemKey prev },
       some (cloneItem prev))

/-- `hasItem` from `store.ts`. -/
def TableState.hasItem (s : TableState) (pk sk : String) : Bool :=
  (mapGet s.itemStore (encodeItemKey pk sk)).isSome

/-- JS template-literal coercion used by `snapshot`
(`\x7b${item.PK}__${item.SK}\x7d`); stored items always carry string
PK/SK, which is the only case exercised. -/
def templateString (v : Option Value) : String :=
  match v with
  | none => "undefined"
  | some (.str s) => s
  | some .null => "null"
  | some (.bool b) => if b then "true" else "false"
  | some (.num q) => toString q
  | some (.arr _) => ""
  | some (.obj _) => "[object Object]"

/-- `snapshot` from `store.ts`: items sorted ascending by `(PK, SK)`,
keyed by `PK__SK`. -/
def TableState.snapshot (s : TableState) : List (String × Item) :=
  ((sortItemsByPKSK (s.itemStore.map Prod.snd)).map cloneItem).map
    (fun item =>
      (templateString (getAttr item ("PK")) ++ ("__") ++
        templateString (getAttr item ("SK")), item))

/-- `scanItems` from `store.ts`. -/
def TableState.scanItems (s : TableState)
    (exclusiveStartKey : Option (String × String)) : List Item :=
  let sorted := sortItemsByPKSK ((s.itemStore.map Prod.snd).map cloneItem)
  match exclusiveStartKey with
  | none => sorted
  | some (startPK, startSK) =>
      sorted.filter (fun item =>
        let pk := templateString (getAttr item ("PK"))
        let sk := templateString (getAttr item ("SK"))
        if pk > startPK then true
        else if pk < startPK then false
        else decide (sk > startSK))

/-- States reachable from the empty table by `put` and `deleteByKey`
(every mutating document-client operation — put, update, delete,
batch-write, transact-write, including transaction rollback — writes
to the table exclusively through these two methods). -/
inductive Reachable (prio : String → String → String → String → Nat) :
    TableState → Prop
  | empty : Reachable prio emptyTable
  | put {s s' : TableState} {item : Item} {prev : Option Item} :
      Reachable prio s → TableState.put prio s item = .ok (s', prev) →
      Reachable prio s'
  | delete {s : TableState} {pk sk : String} :
      Reachable prio s → Reachable prio (TableState.deleteByKey s pk sk).1

/-! ### Association-list map lemmas -/

theorem mapGet_eq_none_iff {α : Type} {m : List (String × α)} {k : String} :
    mapGet m k = none ↔ ∀ v, (k, v) ∉ m := by
  induction m with
  | nil => simp [mapGet]
  | cons e rest ih =>
      obtain ⟨k2, v2⟩ := e
      by_cases h : k2 = k
      · subst h
        simp only [mapGet, if_pos rfl]
        constructor
        · intro hg; exact absurd hg (by simp)
        · intro hv
          exact absurd (List.mem_cons.mpr (Or.inl rfl)) (hv v2)
      · simp only [mapGet, if_neg h, ih]
        constructor
        · intro hv v hmem
          rcases List.mem_cons.mp hmem with heq | hmem2
          · exact h (congrArg Prod.fst heq).symm
          · exact hv v hmem2
        · intro hv v hmem
          exact hv v (List.mem_cons.mpr (Or.inr hmem))

theorem mem_of_mapGet_eq_some {α : Type} {m : List (String × α)} {k : String}
    {v : α} (h : mapGet m k = some v) : (k, v) ∈ m := by
  induction m with
  | nil => exact absurd h (by simp [mapGet])
  | cons e rest ih =>
      obtain ⟨k2, v2⟩ := e
      by_cases h2 : k2 = k
      · subst h2
        rw [mapGet, if_pos rfl] at h
        exact List.mem_cons.mpr (Or.inl (by rw [Option.some.injEq] at h; rw [h]))
      · rw [mapGet, if_neg h2] at h
        exact List.mem_cons.mpr (Or.inr (ih h))

theorem mapGet_eq_some_of_mem {α : Type} {m : List (String × α)}
    (hnd : (m.map Prod.fst).Nodup) {k : String} {v : α} (h : (k, v) ∈ m) :
    mapGet m k = some v := by
  induction m with
  | nil => exact absurd h (by simp)
  | cons e rest ih =>
      obtain ⟨k2, v2⟩ := e
      rw [List.map_cons, List.nodup_cons] at hnd
      rcases List.mem_cons.mp h with heq | hmem
      · rw [← heq]
        exact (by rw [mapGet, if_pos rfl])
      · by_cases h2 : k2 = k
        · subst h2
          exact absurd (List.mem_map_of_mem Prod.fst hmem) hnd.1
        · rw [mapGet, if_neg h2]
          exact ih hnd.2 hmem

theorem mapVal_unique {α : Type} {m : List (String × α)}
    (hnd : (m.map Prod.fst).Nodup) {k : String} {v1 v2 : α}
    (h1 : (k, v1) ∈ m) (h2 : (k, v2) ∈ m) : v1 = v2 := by
  have e1 := mapGet_eq_some_of_mem hnd h1
  have e2 := mapGet_eq_some_of_mem hnd h2
  rw [e1, Option.some.injEq] at e2
  exact e2

theorem mapGet_mapSet_self {α : Type} (m : List (String × α)) (k : String)
    (v : α) : mapGet (mapSet m k v) k = some v := by
  induction m with
  | nil => simp [mapSet, mapGet]
  | cons e rest ih =>
      obtain ⟨k2, v2⟩ := e
      by_cases h : k2 = k
      · rw [mapSet, if_pos h, mapGet, if_pos h]
      · rw [mapSet, if_neg h, mapGet, if_neg h]
        exact ih

theorem mem_keys_mapSet {α : Type} {m : List (String × α)} {k a : String}
    {v : α} :
    a ∈ (mapSet m k v).map Prod.fst ↔ (a ∈ m.map Prod.fst ∨ a = k) := by
  induction m with
  | nil => simp [mapSet]
  | cons e rest ih =>
      obtain ⟨k2, v2⟩ := e
      by_cases h : k2 = k
      · subst h
        rw [mapSet, if_pos rfl]
        simp only [List.map_cons, List.mem_cons]
        constructor
        · rintro (h2 | h2)
          · exact Or.inl (Or.inl h2)
          · exact Or.inl (Or.inr h2)
        · rintro ((h2 | h2) | h2)
          · exact Or.inl h2
          · exact Or.inr h2
          · exact Or.inl h2
      · rw [mapSet, if_neg h]
        simp only [List.map_cons, List.mem_cons, ih]
        constructor
        · rintro (h2 | (h2 | h2))
          · exact Or.inl (Or.inl h2)
          · exact Or.inl (Or.inr h2)
          · exact Or.inr h2
        · rintro ((h2 | h2) | h2)
          · exact Or.inl h2
          · exact Or.inr (Or.inl h2)
          · exact Or.inr (Or.inr h2)

theorem keys_mapSet_nodup {α : Type} {m : List (String × α)}
    (hnd : (m.map Prod.fst).Nodup) (k : String) (v : α) :
    ((mapSet m k v).map Prod.fst).Nodup := by
  induction m with
  | nil => simp [mapSet]
  | cons e rest ih =>
      obtain ⟨k2, v2⟩ := e
      rw [List.map_cons, List.nodup_cons] at hnd
      by_cases h : k2 = k
      · rw [mapSet, if_pos h, List.map_cons, List.nodup_cons]
        exact ⟨hnd.1, hnd.2⟩
      · rw [mapSet, if_neg h, List.map_cons, List.nodup_cons]
        refine ⟨?_, ih hnd.2⟩
        intro hmem
        rcases mem_keys_mapSet.mp hmem with h2 | h2
        · exact hnd.1 h2
        · exact h h2

theorem mem_mapSet_iff {α : Type} {m : List (String × α)}
    (hnd : (m.map Prod.fst).Nodup) {k b : String} {v w : α} :
    (b, w) ∈ mapSet m k v ↔ ((b = k ∧ w = v) ∨ ((b, w) ∈ m ∧ b ≠ k)) := by
  induction m with
  | nil =>
      simp only [mapSet, List.mem_singleton, List.not_mem_nil, Prod.mk.injEq]
      constructor
      · rintro ⟨hb, hw⟩; exact Or.inl ⟨hb, hw⟩
      · rintro (⟨hb, hw⟩ | ⟨hf, _⟩)
        · exact ⟨hb, hw⟩
        · exact absurd hf (by simp)
  | cons e rest ih =>
      obtain ⟨k2, v2⟩ := e
      rw [List.map_cons, List.nodup_cons] at hnd
      by_cases h : k2 = k
      · subst h
        rw [mapSet, if_pos rfl]
        constructor
        · intro hmem
          rcases List.mem_cons.mp hmem with heq | hmem2
          · rcases Prod.mk.injEq .. |>.mp heq with ⟨hb, hw⟩
            exact Or.inl ⟨hb, hw⟩
          · refine Or.inr ⟨List.mem_cons.mpr (Or.inr hmem2), ?_⟩
            intro hb
            have hbm : b ∈ List.map Prod.fst rest :=
              List.mem_map_of_mem Prod.fst hmem2
            rw [hb] at hbm
            exact hnd.1 hbm
        · rintro (⟨hb, hw⟩ | ⟨hmem2, hbne⟩)
          · exact List.mem_cons.mpr (Or.inl (by rw [hb, hw]))
          · rcases List.mem_cons.mp hmem2 with heq | hmem3
            · exact absurd (congrArg Prod.fst heq) hbne
            · exact List.mem_cons.mpr (Or.inr hmem3)
      · rw [mapSet, if_neg h]
        constructor
        · intro hmem
          rcases List.mem_cons.mp hmem with heq | hmem2
          · rcases Prod.mk.injEq .. |>.mp heq with ⟨hb, hw⟩
            refine Or.inr ⟨List.mem_cons.mpr (Or.inl (by rw [hb, hw])), ?_⟩
            intro hbk
            exact h (by rw [← hbk, ← hb])
          · rcases (ih hnd.2).mp hmem2 with h2 | ⟨hmem3, hbne⟩
            · exact Or.inl h2
            · exact Or.inr ⟨List.mem_cons.mpr (Or.inr hmem3), hbne⟩
        · rintro (⟨hb, hw⟩ | ⟨hmem2, hbne⟩)
          · exact List.mem_cons.mpr (Or.inr ((ih hnd.2).mpr (Or.inl ⟨hb, hw⟩)))
          · rcases List.mem_cons.mp hmem2 with heq | hmem3
            · exact List.mem_cons.mpr (Or.inl heq)
            · exact List.mem_cons.mpr
                (Or.inr ((ih hnd.2).mpr (Or.inr ⟨hmem3, hbne⟩)))

theorem mapDelete_sublist {α : Type} (m : List (String × α)) (k : String) :
    List.Sublist (mapDelete m k) m := by
  induction m with
  | nil => simp [mapDelete]
  | cons e rest ih =>
      obtain ⟨k2, v2⟩ := e
      by_cases h : k2 = k
      · rw [mapDelete, if_pos h]
        exact List.sublist_cons_of_sublist _ (List.Sublist.refl rest)
      · rw [mapDelete, if_neg h]
        exact List.Sublist.cons₂ _ ih

theorem keys_mapDelete_nodup {α : Type} {m : List (String × α)}
    (hnd : (m.map Prod.fst).Nodup) (k : String) :
    ((mapDelete m k).map Prod.fst).Nodup :=
  List.Nodup.sublist (List.Sublist.map Prod.fst (mapDelete_sublist m k)) hnd

theorem mem_mapDelete_iff {α : Type} {m : List (String × α)}
    (hnd : (m.map Prod.fst).Nodup) {k b : String} {w : α} :
    (b, w) ∈ mapDelete m k ↔ ((b, w) ∈ m ∧ b ≠ k) := by
  induction m with
  | nil => simp [mapDelete]
  | cons e rest ih =>
      obtain ⟨k2, v2⟩ := e
      rw [List.map_cons, List.nodup_cons] at hnd
      by_cases h : k2 = k
      · subst h
        rw [mapDelete, if_pos rfl]
        constructor
        · intro hmem
          refine ⟨List.mem_cons.mpr (Or.inr hmem), ?_⟩
          intro hb
          have hbm : b ∈ List.map Prod.fst rest :=
            List.mem_map_of_mem Prod.fst hmem
          rw [hb] at hbm
          exact hnd.1 hbm
        · rintro ⟨hmem, hbne⟩
          rcases List.mem_cons.mp hmem with heq | hmem2
          · exact absurd (congrArg Prod.fst heq) hbne
          · exact hmem2
      · rw [mapDelete, if_neg h]
        constructor
        · intro hmem
          rcases List.mem_cons.mp hmem with heq | hmem2
          · refine ⟨List.mem_cons.mpr (Or.inl heq), ?_⟩
            intro hbk
            have hb2 : b = k2 := congrArg Prod.fst heq
            exact h (by rw [← hb2]; exact hbk)
          · rcases (ih hnd.2).mp hmem2 with ⟨hmem3, hbne⟩
            exact ⟨List.mem_cons.mpr (Or.inr hmem3), hbne⟩
        · rintro ⟨hmem, hbne⟩
          rcases List.mem_cons.mp hmem with heq | hmem2
          · exact List.mem_cons.mpr (Or.inl heq)
          · exact List.mem_cons.mpr (Or.inr ((ih hnd.2).mpr ⟨hmem2, hbne⟩))

/-! ### Pointwise evaluation of the index folds -/

theorem updatePartition_other {idx : Indexes} {name h : String}
    {t : Option Treap} {n hh : String} (hn : n ≠ name) :
    updatePartition idx name h t n hh = idx n hh := by
  simp [updatePartition, hn]

theorem addToIndexesStep_other
    {prio : String → String → String → String → Nat} {ik : String}
    {item : Item} {acc : Indexes} {d : IndexDescriptor} {n h : String}
    (hn : n ≠ d.name) :
    addToIndexesStep prio ik item acc d n h = acc n h := by
  unfold addToIndexesStep
  cases getIndexKeyFromItem d.name item with
  | none => rfl
  | some pr =>
      obtain ⟨hh, r⟩ := pr
      simp [updatePartition, hn]

theorem addToIndexesStep_congr
    {prio : String → String → String → String → Nat} {ik : String}
    {item : Item} (acc1 acc2 : Indexes) (d : IndexDescriptor) (h : String)
    (hagree : ∀ hh, acc1 d.name hh = acc2 d.name hh) :
    addToIndexesStep prio ik item acc1 d d.name h =
      addToIndexesStep prio ik item acc2 d d.name h := by
  unfold addToIndexesStep
  cases getIndexKeyFromItem d.name item with
  | none => exact hagree h
  | some pr =>
      obtain ⟨hh, r⟩ := pr
      simp only [updatePartition, if_pos rfl, hagree hh]
      by_cases hcase : h = hh
      · simp [hcase]
      · simp [hcase, hagree h]

theorem removeFromIndexesStep_other {ik : String} {item : Item}
    {acc : Indexes} {d : IndexDescriptor} {n h : String} (hn : n ≠ d.name) :
    removeFromIndexesStep ik item acc d n h = acc n h := by
  unfold removeFromIndexesStep
  cases getIndexKeyFromItem d.name item with
  | none => rfl
  | some pr =>
      obtain ⟨hh, r⟩ := pr
      show (match acc d.name hh with
        | none => acc
        | some tree =>
            let entryKey := encodeIndexEntryKey r ik
            let tree2 := Treap.remove tree entryKey
            if Treap.count tree2 = 0 then updatePartition acc d.name hh none
            else updatePartition acc d.name hh (some tree2)) n h = acc n h
      cases acc d.name hh with
      | none => rfl
      | some tree =>
          by_cases hc :
              Treap.count (Treap.remove tree (encodeIndexEntryKey r ik)) = 0
          · simp [hc, updatePartition, hn]
          · simp [hc, updatePartition, hn]

theorem removeFromIndexesStep_congr {ik : String} {item : Item}
    (acc1 acc2 : Indexes) (d : IndexDescriptor) (h : String)
    (hagree : ∀ hh, acc1 d.name hh = acc2 d.name hh) :
    removeFromIndexesStep ik item acc1 d d.name h =
      removeFromIndexesStep ik item acc2 d d.name h := by
  unfold removeFromIndexesStep
  cases getIndexKeyFromItem d.name item with
  | none => exact hagree h
  | some pr =>
      obtain ⟨hh, r⟩ := pr
      show (match acc1 d.name hh with
        | none => acc1
        | some tree =>
            let entryKey := encodeIndexEntryKey r ik
            let tree2 := Treap.remove tree entryKey
            if Treap.count tree2 = 0 then updatePartition acc1 d.name hh none
            else updatePartition acc1 d.name hh (some tree2)) d.name h =
        (match acc2 d.name hh with
        | none => acc2
        | some tree =>
            let entryKey := encodeIndexEntryKey r ik
            let tree2 := Treap.remove tree entryKey
            if Treap.count tree2 = 0 then updatePartition acc2 d.name hh none
            else updatePartition acc2 d.name hh (some tree2)) d.name h
      rw [hagree hh]
      cases acc2 d.name hh with
      | none => exact hagree h
      | some tree =>
          by_cases hc :
              Treap.count (Treap.remove tree (encodeIndexEntryKey r ik)) = 0
          · by_cases hcase : h = hh
            · simp [hc, updatePartition, hcase]
            · simp [hc, updatePartition, hcase, hagree h]
          · by_cases hcase : h = hh
            · simp [hc, updatePartition, hcase]
            · simp [hc, updatePartition, hcase, hagree h]

theorem foldl_indexes_other {step : Indexes → IndexDescriptor → Indexes}
    (hother : ∀ idx d n h, n ≠ d.name → step idx d n h = idx n h) :
    ∀ {ds : List IndexDescriptor} {n : String}, (∀ d ∈ ds, n ≠ d.name) →
      ∀ (idx : Indexes) (h : String), ds.foldl step idx n h = idx n h := by
  intro ds
  induction ds with
  | nil => intro n _ idx h; rfl
  | cons d rest ih =>
      intro n hn idx h
      rw [List.foldl_cons]
      rw [ih (fun d2 hd2 => hn d2 (List.mem_cons.mpr (Or.inr hd2))) (step idx d) h]
      exact hother idx d n h (hn d (List.mem_cons.mpr (Or.inl rfl)))

theorem foldl_indexes_eval {step : Indexes → IndexDescriptor → Indexes}
    (hother : ∀ idx d n h, n ≠ d.name → step idx d n h = idx n h)
    (hcongr : ∀ (idx1 idx2 : Indexes) (d : IndexDescriptor) (h : String),
      (∀ hh, idx1 d.name hh = idx2 d.name hh) →
      step idx1 d d.name h = step idx2 d d.name h) :
    ∀ {ds : List IndexDescriptor},
      (ds.map (fun d => d.name)).Nodup →
      ∀ (idx : Indexes) (n h : String),
      ds.foldl step idx n h =
        match ds.find? (fun d => d.name = n) with
        | none => idx n h
        | some d => step idx d n h := by
  intro ds
  induction ds with
  | nil => intro _ idx n h; rfl
  | cons d rest ih =>
      intro hnd idx n h
      rw [List.map_cons, List.nodup_cons] at hnd
      by_cases hd : d.name = n
      · rw [List.find?_cons_of_pos _ (by simp [hd])]
        rw [List.foldl_cons]
        have hrest : ∀ d2 ∈ rest, n ≠ d2.name := by
          intro d2 hd2 hne
          have hmm : d2.name ∈ List.map (fun d3 => d3.name) rest :=
            List.mem_map_of_mem _ hd2
          rw [← hne, ← hd] at hmm
          exact hnd.1 hmm
        rw [foldl_indexes_other hother hrest (step idx d) h]
      · rw [List.find?_cons_of_neg _ (by simp [hd])]
        rw [List.foldl_cons]
        rw [ih hnd.2 (step idx d) n h]
        cases hf : rest.find? (fun d2 => d2.name = n) with
        | none => exact hother idx d n h (fun hne => hd hne.symm)
        | some d2 =>
            have hp := List.find?_some hf
            have hd2 : d2.name = n := of_decide_eq_true hp
            subst hd2
            exact hcongr (step idx d) idx d2 h
              (fun hh => hother idx d d2.name hh (fun heq => hd heq.symm))

theorem descriptors_names_nodup :
    (INDEX_DESCRIPTORS.map (fun d => d.name)).Nodup := by decide

theorem getDescriptor?_name {n : String} {d : IndexDescriptor}
    (h : getDescriptor? n = some d) : d.name = n ∧ d ∈ INDEX_DESCRIPTORS := by
  unfold getDescriptor? at h
  have hp := List.find?_some h
  exact ⟨of_decide_eq_true hp, List.mem_of_find?_eq_some h⟩

theorem addToIndexes_eval (prio : String → String → String → String → Nat)
    (idx : Indexes) (ik : String) (item : Item) (n h : String) :
    addToIndexes prio idx ik item n h =
      match getDescriptor? n with
      | none => idx n h
      | some d => addToIndexesStep prio ik item idx d n h := by
  unfold addToIndexes getDescriptor?
  exact foldl_indexes_eval
    (fun idx2 d n2 h2 hn => addToIndexesStep_other hn)
    (fun idx1 idx2 d h2 hag => addToIndexesStep_congr idx1 idx2 d h2 hag)
    descriptors_names_nodup idx n h

theorem removeFromIndexes_eval (idx : Indexes) (ik : String) (item : Item)
    (n h : String) :
    removeFromIndexes idx ik item n h =
      match getDescriptor? n with
      | none => idx n h
      | some d => removeFromIndexesStep ik item idx d n h := by
  unfold removeFromIndexes getDescriptor?
  exact foldl_indexes_eval
    (fun idx2 d n2 h2 hn => removeFromIndexesStep_other hn)
    (fun idx1 idx2 d h2 hag => removeFromIndexesStep_congr idx1 idx2 d h2 hag)
    descriptors_names_nodup idx n h

/-! ### Index-slot characterization of the store operations -/

/-- Entries of an optional partition treap (an absent partition has no
entries). -/
def entriesO : Option Treap → List (String × String)
  | none => []
  | some t => Treap.entries t

theorem entriesO_getD (o : Option Treap) :
    Treap.entries (o.getD Treap.nil) = entriesO o := by
  cases o <;> rfl

theorem sortedT_getD {o : Option Treap}
    (hs : ∀ t, o = some t → Treap.SortedT t) :
    Treap.SortedT (o.getD Treap.nil) := by
  cases o with
  | none => exact Treap.sortedT_nil
  | some t => exact hs t rfl

theorem getIndexKeyFromItem_of_no_descriptor {n : String} {item : Item}
    (hg : getDescriptor? n = none) : getIndexKeyFromItem n item = none := by
  unfold getIndexKeyFromItem
  rw [hg]

theorem addToIndexes_eval_none (prio : String → String → String → String → Nat)
    (idx : Indexes) (ik : String) (item : Item) (n h : String)
    (hg : getDescriptor? n = none) :
    addToIndexes prio idx ik item n h = idx n h := by
  rw [addToIndexes_eval, hg]

theorem addToIndexes_eval_some (prio : String → String → String → String → Nat)
    (idx : Indexes) (ik : String) (item : Item) (n h : String)
    (d : IndexDescriptor) (hg : getDescriptor? n = some d) :
    addToIndexes prio idx ik item n h =
      addToIndexesStep prio ik item idx d n h := by
  rw [addToIndexes_eval, hg]

theorem removeFromIndexes_eval_none (idx : Indexes) (ik : String)
    (item : Item) (n h : String) (hg : getDescriptor? n = none) :
    removeFromIndexes idx ik item n h = idx n h := by
  rw [removeFromIndexes_eval, hg]

theorem removeFromIndexes_eval_some (idx : Indexes) (ik : String)
    (item : Item) (n h : String) (d : IndexDescriptor)
    (hg : getDescriptor? n = some d) :
    removeFromIndexes idx ik item n h =
      removeFromIndexesStep ik item idx d n h := by
  rw [removeFromIndexes_eval, hg]

theorem addToIndexesStep_eval_none
    {prio : String → String → String → String → Nat} {ik : String}
    {item : Item} {idx : Indexes} {d : IndexDescriptor}
    (hp : getIndexKeyFromItem d.name item = none) (n h : String) :
    addToIndexesStep prio ik item idx d n h = idx n h := by
  unfold addToIndexesStep
  rw [hp]

theorem addToIndexesStep_eval_some
    {prio : String → String → String → String → Nat} {ik : String}
    {item : Item} {idx : Indexes} {d : IndexDescriptor} {hh r : String}
    (hp : getIndexKeyFromItem d.name item = some (hh, r)) (n h : String) :
    addToIndexesStep prio ik item idx d n h =
      updatePartition idx d.name hh
        (some (Treap.insert ((idx d.name hh).getD Treap.nil)
          (encodeIndexEntryKey r ik) ik (prio d.name hh r ik))) n h := by
  unfold addToIndexesStep
  rw [hp]

theorem removeFromIndexesStep_eval_none {ik : String} {item : Item}
    {idx : Indexes} {d : IndexDescriptor}
    (hp : getIndexKeyFromItem d.name item = none) (n h : String) :
    removeFromIndexesStep ik item idx d n h = idx n h := by
  unfold removeFromIndexesStep
  rw [hp]

theorem removeFromIndexesStep_eval_some {ik : String} {item : Item}
    {idx : Indexes} {d : IndexDescriptor} {hh r : String}
    (hp : getIndexKeyFromItem d.name item = some (hh, r)) (n h : String) :
    removeFromIndexesStep ik item idx d n h =
      (match idx d.name hh with
       | none => idx n h
       | some tree =>
           if Treap.count (Treap.remove tree (encodeIndexEntryKey r ik)) = 0
           then updatePartition idx d.name hh none n h
           else updatePartition idx d.name hh
             (some (Treap.remove tree (encodeIndexEntryKey r ik))) n h) := by
  unfold removeFromIndexesStep
  rw [hp]
  show (match idx d.name hh with
    | none => idx
    | some tree =>
        let entryKey := encodeIndexEntryKey r ik
        let tree2 := Treap.remove tree entryKey
        if Treap.count tree2 = 0 then updatePartition idx d.name hh none
        else updatePartition idx d.name hh (some tree2)) n h =
    (match idx d.name hh with
     | none => idx n h
     | some tree =>
         if Treap.count (Treap.remove tree (encodeIndexEntryKey r ik)) = 0
         then updatePartition idx d.name hh none n h
         else updatePartition idx d.name hh
           (some (Treap.remove tree (encodeIndexEntryKey r ik))) n h)
  cases idx d.name hh with
  | none => rfl
  | some tree =>
      by_cases hc : Treap.count (Treap.remove tree (encodeIndexEntryKey r ik)) = 0
      · simp [hc]
      · simp [hc]

/-- Membership in an index slot after `addToIndexes`: the new item key
entry is present in the slot the item projects into, a colliding entry
key is overwritten, and all other slots are untouched. -/
theorem mem_entriesO_addToIndexes
    {prio : String → String → String → String → Nat} {ik : String}
    {item : Item} {idx : Indexes} {n h : String}
    (hsort : ∀ t, idx n h = some t → Treap.SortedT t) {a b : String} :
    (a, b) ∈ entriesO (addToIndexes prio idx ik item n h) ↔
      (((a, b) ∈ entriesO (idx n h) ∧
          ¬ ∃ r, getIndexKeyFromItem n item = some (h, r) ∧
            a = encodeIndexEntryKey r ik) ∨
        (∃ r, getIndexKeyFromItem n item = some (h, r) ∧
          a = encodeIndexEntryKey r ik ∧ b = ik)) := by
  cases hg : getDescriptor? n with
  | none =>
      rw [addToIndexes_eval_none prio idx ik item n h hg]
      simp [getIndexKeyFromItem_of_no_descriptor hg]
  | some d =>
      obtain ⟨hdn, hdmem⟩ := getDescriptor?_name hg
      subst hdn
      rw [addToIndexes_eval_some prio idx ik item d.name h d hg]
      cases hp : getIndexKeyFromItem d.name item with
      | none =>
          rw [addToIndexesStep_eval_none hp]
          simp [hp]
      | some pr =>
          obtain ⟨hh, r⟩ := pr
          rw [addToIndexesStep_eval_some hp]
          by_cases hcase : h = hh
          · subst hcase
            have hsg : Treap.SortedT ((idx d.name h).getD Treap.nil) :=
              sortedT_getD hsort
            have hins := Treap.mem_entries_insert
              (k := encodeIndexEntryKey r ik) (v := ik)
              (p := prio d.name h r ik) hsg (a := a) (b := b)
            rw [entriesO_getD] at hins
            simp [updatePartition, entriesO, hins, hp] <;> tauto
          · have hne2 : ¬(hh = h) := fun he => hcase he.symm
            simp [updatePartition, hcase, hne2, hp]

/-- Membership in an index slot after `removeFromIndexes`: the entry of
the removed item key disappears from the slot the item projects into
(whether or not the emptied partition is dropped), and all other slots
are untouched. -/
theorem mem_entriesO_removeFromIndexes
    {ik : String} {item : Item} {idx : Indexes} {n h : String}
    (hsort : ∀ t, idx n h = some t → Treap.SortedT t) {a b : String} :
    (a, b) ∈ entriesO (removeFromIndexes idx ik item n h) ↔
      ((a, b) ∈ entriesO (idx n h) ∧
        ¬ ∃ r, getIndexKeyFromItem n item = some (h, r) ∧
          a = encodeIndexEntryKey r ik) := by
  cases hg : getDescriptor? n with
  | none =>
      rw [removeFromIndexes_eval_none idx ik item n h hg]
      simp [getIndexKeyFromItem_of_no_descriptor hg]
  | some d =>
      obtain ⟨hdn, hdmem⟩ := getDescriptor?_name hg
      subst hdn
      rw [removeFromIndexes_eval_some idx ik item d.name h d hg]
      cases hp : getIndexKeyFromItem d.name item with
      | none =>
          rw [removeFromIndexesStep_eval_none hp]
          simp [hp]
      | some pr =>
          obtain ⟨hh, r⟩ := pr
          rw [removeFromIndexesStep_eval_some hp]
          by_cases hcase : h = hh
          · subst hcase
            cases hA : idx d.name h with
            | none => simp [entriesO, hA, hp]
            | some tree =>
                have hstree := hsort tree hA
                have hiff := Treap.mem_entries_remove
                  (k := encodeIndexEntryKey r ik) hstree (a := a) (b := b)
                by_cases hc : Treap.count
                    (Treap.remove tree (encodeIndexEntryKey r ik)) = 0
                · have hnil : Treap.remove tree (encodeIndexEntryKey r ik) =
                      Treap.nil :=
                    (Treap.count_eq_zero_iff _).mp hc
                  rw [hnil] at hiff
                  simp only [Treap.entries, Treap.toListP, List.map_nil,
                    List.not_mem_nil, false_iff] at hiff
                  simp [hc, updatePartition, entriesO, hp, hA] <;> tauto
                · simp [hc, updatePartition, entriesO, hp, hA, hiff] <;> tauto
          · have hne2 : ¬(hh = h) := fun he => hcase he.symm
            cases hA : idx d.name hh with
            | none => simp [hne2, hp]
            | some tree =>
                by_cases hc : Treap.count
                    (Treap.remove tree (encodeIndexEntryKey r ik)) = 0
                · simp [hc, updatePartition, hcase, hne2, hp]
                · simp [hc, updatePartition, hcase, hne2, hp]

/-- Sortedness of every partition is preserved by `addToIndexes`. -/
theorem addToIndexes_sorted
    {prio : String → String → String → String → Nat} {ik : String}
    {item : Item} {idx : Indexes}
    (hsort : ∀ n h t, idx n h = some t → Treap.SortedT t) :
    ∀ n h t, addToIndexes prio idx ik item n h = some t → Treap.SortedT t := by
  intro n h t heq
  cases hg : getDescriptor? n with
  | none =>
      rw [addToIndexes_eval_none prio idx ik item n h hg] at heq
      exact hsort n h t heq
  | some d =>
      obtain ⟨hdn, hdmem⟩ := getDescriptor?_name hg
      subst hdn
      rw [addToIndexes_eval_some prio idx ik item d.name h d hg] at heq
      cases hp : getIndexKeyFromItem d.name item with
      | none =>
          rw [addToIndexesStep_eval_none hp] at heq
          exact hsort d.name h t heq
      | some pr =>
          obtain ⟨hh, r⟩ := pr
          rw [addToIndexesStep_eval_some hp] at heq
          simp only [updatePartition, eq_self_iff_true, if_true] at heq
          by_cases h2 : h = hh
          · rw [if_pos h2] at heq
            rw [Option.some.injEq] at heq
            rw [← heq]
            exact Treap.sortedT_insertNode
              (sortedT_getD (fun t2 ht2 => hsort d.name hh t2 ht2))
          · rw [if_neg h2] at heq
            exact hsort d.name h t heq

/-- Sortedness of every partition is preserved by `removeFromIndexes`. -/
theorem removeFromIndexes_sorted {ik : String} {item : Item} {idx : Indexes}
    (hsort : ∀ n h t, idx n h = some t → Treap.SortedT t) :
    ∀ n h t, removeFromIndexes idx ik item n h = some t → Treap.SortedT t := by
  intro n h t heq
  cases hg : getDescriptor? n with
  | none =>
      rw [removeFromIndexes_eval_none idx ik item n h hg] at heq
      exact hsort n h t heq
  | some d =>
      obtain ⟨hdn, hdmem⟩ := getDescriptor?_name hg
      subst hdn
      rw [removeFromIndexes_eval_some idx ik item d.name h d hg] at heq
      cases hp : getIndexKeyFromItem d.name item with
      | none =>
          rw [removeFromIndexesStep_eval_none hp] at heq
          exact hsort d.name h t heq
      | some pr =>
          obtain ⟨hh, r⟩ := pr
          rw [removeFromIndexesStep_eval_some hp] at heq
          cases hA : idx d.name hh with
          | none =>
              simp only [hA] at heq
              exact hsort d.name h t heq
          | some tree =>
              simp only [hA] at heq
              by_cases hc : Treap.count
                  (Treap.remove tree (encodeIndexEntryKey r ik)) = 0
              · rw [if_pos hc] at heq
                simp only [updatePartition, eq_self_iff_true, if_true] at heq
                by_cases h2 : h = hh
                · rw [if_pos h2] at heq
                  exact absurd heq (by simp)
                · rw [if_neg h2] at heq
                  exact hsort d.name h t heq
              · rw [if_neg hc] at heq
                simp only [updatePartition, eq_self_iff_true, if_true] at heq
                by_cases h2 : h = hh
                · rw [if_pos h2] at heq
                  rw [Option.some.injEq] at heq
                  rw [← heq]
                  exact Treap.sortedT_removeNode (hsort d.name hh tree hA)
                · rw [if_neg h2] at heq
                  exact hsort d.name h t heq

/-! ### The store invariant behind claim C1 -/

def nulChar : Char := Char.ofNat 0

/-- The string has no embedded NUL character (the separator of
`encodeIndexEntryKey`). -/
def nulFreeStr (s : String) : Prop := nulChar ∉ s.data

instance (s : String) : Decidable (nulFreeStr s) :=
  inferInstanceAs (Decidable (nulChar ∉ s.data))

/-- `encodeIndexEntryKey` is injective as long as the range keys are
NUL-free: the item-key suffix starts at the first NUL. -/
theorem encodeIndexEntryKey_inj {r1 r2 ik1 ik2 : String}
    (h1 : nulFreeStr r1) (h2 : nulFreeStr r2)
    (heq : encodeIndexEntryKey r1 ik1 = encodeIndexEntryKey r2 ik2) :
    r1 = r2 ∧ ik1 = ik2 := by
  unfold encodeIndexEntryKey at heq
  have hd := congrArg String.data heq
  have hsep : ITEM_KEY_SEPARATOR.data = [nulChar] := by decide
  simp only [String.data_append, hsep, List.append_assoc,
    List.singleton_append] at hd
  have hsplit := Treap.split_unique hd h1 h2
  exact ⟨String.ext hsplit.1, String.ext hsplit.2⟩

theorem countP_eq_one_of_unique {α : Type} {l : List α} {p : α → Bool}
    {e : α} (hnd : l.Nodup) (he : e ∈ l) (hpe : p e = true)
    (hu : ∀ x ∈ l, p x = true → x = e) : l.countP p = 1 := by
  induction l with
  | nil => exact absurd he (by simp)
  | cons x xs ih =>
      rw [List.nodup_cons] at hnd
      by_cases hx : p x = true
      · have hxe : x = e := hu x (List.mem_cons.mpr (Or.inl rfl)) hx
        have hzero : xs.countP p = 0 := by
          rw [List.countP_eq_zero]
          intro y hy hpy
          have hye : y = e := hu y (List.mem_cons.mpr (Or.inr hy)) hpy
          rw [hye, ← hxe] at hy
          exact hnd.1 hy
        rw [List.countP_cons, hzero]
        simp [hx]
      · rcases List.mem_cons.mp he with heq | hexs
        · rw [heq] at hpe
          exact absurd hpe hx
        · rw [List.countP_cons]
          simp [hx,
            ih hnd.2 hexs (fun y hy hpy => hu y (List.mem_cons.mpr (Or.inr hy)) hpy)]

/-- Inductive invariant of `InMemoryTableState` (for stores whose range
keys are NUL-free): the item store is a well-formed map keyed by the
encoded primary key, every partition treap is a search tree, and the
index entries are exactly the projections of the stored items. -/
structure Inv (s : TableState) : Prop where
  keysNodup : (s.itemStore.map Prod.fst).Nodup
  storeWF : ∀ ik item, (ik, item) ∈ s.itemStore →
    ∃ pk sk, getAttr item ("PK") = some (.str pk) ∧
      getAttr item ("SK") = some (.str sk) ∧ ik = encodeItemKey pk sk
  rangesNulFree : ∀ ik item, (ik, item) ∈ s.itemStore → ∀ n hh r,
    getIndexKeyFromItem n item = some (hh, r) → nulFreeStr r
  idxSorted : ∀ n hh t, s.indexes n hh = some t → Treap.SortedT t
  idxChar : ∀ n hh a b, (a, b) ∈ entriesO (s.indexes n hh) ↔
    ∃ item r, (b, item) ∈ s.itemStore ∧
      getIndexKeyFromItem n item = some (hh, r) ∧
      a = encodeIndexEntryKey r b

/-- No entry of the partition `(n, hh)` points at the item key `ik`. -/
def PartitionFreeOf (s : TableState) (n hh ik : String) : Prop :=
  ∀ t, s.indexes n hh = some t → ∀ e ∈ Treap.entries t, e.2 ≠ ik

/-- The property claimed for every reachable table state: each stored
item has exactly one index entry in the partition it projects into, and
no entry anywhere else. -/
def IndexedOnce (s : TableState) : Prop :=
  ∀ ik item, (ik, item) ∈ s.itemStore → ∀ d ∈ INDEX_DESCRIPTORS,
    (∀ hh r, getIndexKeyFromItem d.name item = some (hh, r) →
      (∃ t, s.indexes d.name hh = some t ∧
        (Treap.entries t).countP (fun e => e.2 = ik) = 1) ∧
      (∀ h2, h2 ≠ hh → PartitionFreeOf s d.name h2 ik)) ∧
    (getIndexKeyFromItem d.name item = none →
      ∀ h2, PartitionFreeOf s d.name h2 ik)

theorem IndexedOnce_of_Inv {s : TableState} (hinv : Inv s) :
    IndexedOnce s := by
  intro ik item hmem d hd
  constructor
  · intro hh r hproj
    constructor
    · have hE : (encodeIndexEntryKey r ik, ik) ∈ entriesO (s.indexes d.name hh) :=
        (hinv.idxChar d.name hh _ ik).mpr ⟨item, r, hmem, hproj, rfl⟩
      cases hA : s.indexes d.name hh with
      | none =>
          rw [hA] at hE
          exact absurd hE (by simp [entriesO])
      | some t =>
          rw [hA] at hE
          refine ⟨t, rfl, ?_⟩
          have hnd : (Treap.entries t).Nodup :=
            List.Nodup.of_map _
              (Treap.entries_keys_nodup (hinv.idxSorted d.name hh t hA))
          apply countP_eq_one_of_unique hnd hE (by simp)
          intro x hx hpx
          obtain ⟨a2, b2⟩ := x
          have hb2 : b2 = ik := of_decide_eq_true hpx
          subst hb2
          have hchar := (hinv.idxChar d.name hh a2 b2).mp (by rw [hA]; exact hx)
          obtain ⟨item2, r2, hmem2, hproj2, ha2⟩ := hchar
          have hitem : item2 = item := mapVal_unique hinv.keysNodup hmem2 hmem
          rw [hitem, hproj] at hproj2
          injection hproj2 with hpair
          have hr : r = r2 := congrArg Prod.snd hpair
          rw [← hr] at ha2
          rw [ha2]
    · intro h2 hne t hA e he hek
      obtain ⟨a2, b2⟩ := e
      have hb2 : b2 = ik := hek
      subst hb2
      have hchar := (hinv.idxChar d.name h2 a2 b2).mp (by rw [hA]; exact he)
      obtain ⟨item2, r2, hmem2, hproj2, _⟩ := hchar
      have hitem : item2 = item := mapVal_unique hinv.keysNodup hmem2 hmem
      rw [hitem, hproj] at hproj2
      injection hproj2 with hpair
      exact hne (congrArg Prod.fst hpair).symm
  · intro hnone h2 t hA e he hek
    obtain ⟨a2, b2⟩ := e
    have hb2 : b2 = ik := hek
    subst hb2
    have hchar := (hinv.idxChar d.name h2 a2 b2).mp (by rw [hA]; exact he)
    obtain ⟨item2, r2, hmem2, hproj2, _⟩ := hchar
    have hitem : item2 = item := mapVal_unique hinv.keysNodup hmem2 hmem
    rw [hitem, hnone] at hproj2
    cases hproj2

theorem Inv_emptyTable : Inv emptyTable := by
  refine ⟨?_, ?_, ?_, ?_, ?_⟩
  · simp [emptyTable]
  · intro ik item h
    exact absurd h (by simp [emptyTable])
  · intro ik item h
    exact absurd h (by simp [emptyTable])
  · intro n hh t h
    exact absurd h (by simp [emptyTable])
  · intro n hh a b
    simp [emptyTable, entriesO]

/-- What a successful `put` produces. -/
theorem put_ok_elim {prio : String → String → String → String → Nat}
    {s : TableState} {item : Item} {s2 : TableState} {prev : Option Item}
    (hput : TableState.put prio s item = .ok (s2, prev)) :
    ∃ pk sk, getAttr item ("PK") = some (.str pk) ∧
      getAttr item ("SK") = some (.str sk) ∧
      prev = (mapGet s.itemStore (encodeItemKey pk sk)).map cloneItem ∧
      s2.itemStore = mapSet s.itemStore (encodeItemKey pk sk) (cloneItem item) ∧
      s2.indexes = addToIndexes prio
        (match mapGet s.itemStore (encodeItemKey pk sk) with
         | some prev0 => removeFromIndexes s.indexes (encodeItemKey pk sk) prev0
         | none => s.indexes)
        (encodeItemKey pk sk) (cloneItem item) := by
  unfold TableState.put at hput
  cases hPK : getAttr item ("PK") with
  | none => rw [hPK] at hput; simp at hput
  | some v =>
      rw [hPK] at hput
      cases v with
      | null => simp at hput
      | bool b => simp at hput
      | num q => simp at hput
      | arr xs => simp at hput
      | obj fs => simp at hput
      | str pk =>
          cases hSK : getAttr item ("SK") with
          | none => rw [hSK] at hput; simp at hput
          | some w =>
              rw [hSK] at hput
              cases w with
              | null => simp at hput
              | bool b => simp at hput
              | num q => simp at hput
              | arr xs => simp at hput
              | obj fs => simp at hput
              | str sk =>
                  simp only [Except.ok.injEq, Prod.mk.injEq] at hput
                  obtain ⟨hs2, hprev⟩ := hput
                  refine ⟨pk, sk, rfl, rfl, hprev.symm, ?_, ?_⟩
                  · rw [← hs2]
                  · rw [← hs2]

theorem deleteByKey_elim (s : TableState) (pk sk : String) :
    TableState.deleteByKey s pk sk =
      match mapGet s.itemStore (encodeItemKey pk sk) with
      | none => (s, none)
      | some prev =>
          ({ itemStore := mapDelete s.itemStore (encodeItemKey pk sk),
             indexes := removeFromIndexes s.indexes (encodeItemKey pk sk) prev },
           some (cloneItem prev)) := by
  unfold TableState.deleteByKey
  show (match mapGet s.itemStore (encodeItemKey pk sk) with
    | none => (s, none)
    | some prev =>
        ({ itemStore := mapDelete s.itemStore (encodeItemKey pk sk),
           indexes := removeFromIndexes s.indexes (encodeItemKey pk sk) prev },
         some (cloneItem prev))) = _
  rfl

theorem put_preserves_Inv
    {prio : String → String → String → String → Nat} {s : TableState}
    {item : Item} {s2 : TableState} {prev : Option Item}
    (hinv : Inv s)
    (hnf : ∀ n hh r, getIndexKeyFromItem n item = some (hh, r) → nulFreeStr r)
    (hput : TableState.put prio s item = .ok (s2, prev)) : Inv s2 := by
  obtain ⟨pk, sk, hPK, hSK, hprev, hstore, hidx⟩ := put_ok_elim hput
  refine ⟨?_, ?_, ?_, ?_, ?_⟩
  · rw [hstore]
    exact keys_mapSet_nodup hinv.keysNodup _ _
  · rw [hstore]
    intro ik2 item2 hmem2
    rcases (mem_mapSet_iff hinv.keysNodup).mp hmem2 with ⟨hik, hit⟩ | ⟨hold, _⟩
    · refine ⟨pk, sk, ?_, ?_, hik⟩
      · rw [hit, cloneItem_eq]
        exact hPK
      · rw [hit, cloneItem_eq]
        exact hSK
    · exact hinv.storeWF ik2 item2 hold
  · rw [hstore]
    intro ik2 item2 hmem2
    rcases (mem_mapSet_iff hinv.keysNodup).mp hmem2 with ⟨hik, hit⟩ | ⟨hold, _⟩
    · intro n hh r hproj
      rw [hit, cloneItem_eq] at hproj
      exact hnf n hh r hproj
    · exact hinv.rangesNulFree ik2 item2 hold
  · rw [hidx]
    cases hprev0 : mapGet s.itemStore (encodeItemKey pk sk) with
    | none => exact addToIndexes_sorted hinv.idxSorted
    | some prev0 =>
        exact addToIndexes_sorted (removeFromIndexes_sorted hinv.idxSorted)
  · intro n hh a b
    rw [hidx, hstore]
    cases hprev0 : mapGet s.itemStore (encodeItemKey pk sk) with
    | none =>
        rw [mem_entriesO_addToIndexes (fun t ht => hinv.idxSorted n hh t ht)]
        rw [cloneItem_eq]
        constructor
        · rintro (⟨hold, hnohit⟩ | ⟨r, hproj, ha, hb⟩)
          · obtain ⟨item0, r0, hm0, hp0, ha0⟩ := (hinv.idxChar n hh a b).mp hold
            refine ⟨item0, r0, ?_, hp0, ha0⟩
            rw [mem_mapSet_iff hinv.keysNodup]
            refine Or.inr ⟨hm0, ?_⟩
            intro hbik
            rw [hbik] at hm0
            rw [mapGet_eq_none_iff] at hprev0
            exact hprev0 item0 hm0
          · refine ⟨item, r, ?_, hproj, by rw [ha, hb]⟩
            rw [mem_mapSet_iff hinv.keysNodup]
            exact Or.inl ⟨hb, rfl⟩
        · rintro ⟨item2, r2, hm2, hp2, ha2⟩
          rw [mem_mapSet_iff hinv.keysNodup] at hm2
          rcases hm2 with ⟨hbik, hit2⟩ | ⟨hold2, hbne⟩
          · right
            rw [hit2] at hp2
            rw [hbik] at ha2
            exact ⟨r2, hp2, ha2, hbik⟩
          · left
            have hnf2 : nulFreeStr r2 :=
              hinv.rangesNulFree _ _ hold2 n hh r2 hp2
            refine ⟨(hinv.idxChar n hh a b).mpr ⟨item2, r2, hold2, hp2, ha2⟩, ?_⟩
            rintro ⟨r3, hproj3, ha3⟩
            rw [ha3] at ha2
            have hnf3 : nulFreeStr r3 := hnf n hh r3 hproj3
            obtain ⟨_, hik⟩ := encodeIndexEntryKey_inj hnf3 hnf2 ha2
            exact hbne hik.symm
    | some prev0 =>
        have hprevmem : (encodeItemKey pk sk, prev0) ∈ s.itemStore :=
          mem_of_mapGet_eq_some hprev0
        have hsort1 : ∀ t,
            removeFromIndexes s.indexes (encodeItemKey pk sk) prev0 n hh =
              some t → Treap.SortedT t :=
          fun t ht => removeFromIndexes_sorted hinv.idxSorted n hh t ht
        rw [mem_entriesO_addToIndexes hsort1]
        rw [mem_entriesO_removeFromIndexes (fun t ht => hinv.idxSorted n hh t ht)]
        rw [cloneItem_eq]
        constructor
        · rintro (⟨⟨hold, hnoprev⟩, _⟩ | ⟨r, hproj, ha, hb⟩)
          · obtain ⟨item0, r0, hm0, hp0, ha0⟩ := (hinv.idxChar n hh a b).mp hold
            refine ⟨item0, r0, ?_, hp0, ha0⟩
            rw [mem_mapSet_iff hinv.keysNodup]
            refine Or.inr ⟨hm0, ?_⟩
            intro hbik
            rw [hbik] at hm0
            have hi0 : item0 = prev0 := mapVal_unique hinv.keysNodup hm0 hprevmem
            apply hnoprev
            refine ⟨r0, ?_, ?_⟩
            · rw [← hi0]
              exact hp0
            · rw [ha0, hbik]
          · refine ⟨item, r, ?_, hproj, by rw [ha, hb]⟩
            rw [mem_mapSet_iff hinv.keysNodup]
            exact Or.inl ⟨hb, rfl⟩
        · rintro ⟨item2, r2, hm2, hp2, ha2⟩
          rw [mem_mapSet_iff hinv.keysNodup] at hm2
          rcases hm2 with ⟨hbik, hit2⟩ | ⟨hold2, hbne⟩
          · right
            rw [hit2] at hp2
            rw [hbik] at ha2
            exact ⟨r2, hp2, ha2, hbik⟩
          · left
            have hnf2 : nulFreeStr r2 :=
              hinv.rangesNulFree _ _ hold2 n hh r2 hp2
            refine ⟨⟨(hinv.idxChar n hh a b).mpr ⟨item2, r2, hold2, hp2, ha2⟩,
              ?_⟩, ?_⟩
            · rintro ⟨r3, hproj3, ha3⟩
              rw [ha3] at ha2
              have hnf3 : nulFreeStr r3 :=
                hinv.rangesNulFree _ _ hprevmem n hh r3 hproj3
              obtain ⟨_, hik⟩ := encodeIndexEntryKey_inj hnf3 hnf2 ha2
              exact hbne hik.symm
            · rintro ⟨r3, hproj3, ha3⟩
              rw [ha3] at ha2
              have hnf3 : nulFreeStr r3 := hnf n hh r3 hproj3
              obtain ⟨_, hik⟩ := encodeIndexEntryKey_inj hnf3 hnf2 ha2
              exact hbne hik.symm

theorem delete_preserves_Inv {s : TableState} {pk sk : String}
    (hinv : Inv s) : Inv (TableState.deleteByKey s pk sk).1 := by
  rw [deleteByKey_elim]
  cases hprev0 : mapGet s.itemStore (encodeItemKey pk sk) with
  | none => exact hinv
  | some prev0 =>
      have hprevmem : (encodeItemKey pk sk, prev0) ∈ s.itemStore :=
        mem_of_mapGet_eq_some hprev0
      refine ⟨?_, ?_, ?_, ?_, ?_⟩
      · exact keys_mapDelete_nodup hinv.keysNodup _
      · intro ik2 item2 hm2
        exact hinv.storeWF ik2 item2
          ((mem_mapDelete_iff hinv.keysNodup).mp hm2).1
      · intro ik2 item2 hm2
        exact hinv.rangesNulFree ik2 item2
          ((mem_mapDelete_iff hinv.keysNodup).mp hm2).1
      · exact removeFromIndexes_sorted hinv.idxSorted
      · intro n hh a b
        rw [mem_entriesO_removeFromIndexes (fun t ht => hinv.idxSorted n hh t ht)]
        constructor
        · rintro ⟨hold, hnoprev⟩
          obtain ⟨item0, r0, hm0, hp0, ha0⟩ := (hinv.idxChar n hh a b).mp hold
          refine ⟨item0, r0, ?_, hp0, ha0⟩
          rw [mem_mapDelete_iff hinv.keysNodup]
          refine ⟨hm0, ?_⟩
          intro hbik
          rw [hbik] at hm0
          have hi0 : item0 = prev0 := mapVal_unique hinv.keysNodup hm0 hprevmem
          apply hnoprev
          refine ⟨r0, ?_, ?_⟩
          · rw [← hi0]
            exact hp0
          · rw [ha0, hbik]
        · rintro ⟨item2, r2, hm2, hp2, ha2⟩
          rw [mem_mapDelete_iff hinv.keysNodup] at hm2
          obtain ⟨hold2, hbne⟩ := hm2
          refine ⟨(hinv.idxChar n hh a b).mpr ⟨item2, r2, hold2, hp2, ha2⟩, ?_⟩
          rintro ⟨r3, hproj3, ha3⟩
          rw [ha3] at ha2
          have hnf3 : nulFreeStr r3 :=
            hinv.rangesNulFree _ _ hprevmem n hh r3 hproj3
          have hnf2 : nulFreeStr r2 :=
            hinv.rangesNulFree _ _ hold2 n hh r2 hp2
          obtain ⟨_, hik⟩ := encodeIndexEntryKey_inj hnf3 hnf2 ha2
          exact hbne hik.symm

/-- The NUL-free-range restriction on a single item, as a computable
check over the index descriptors. -/
def itemRangesNulFree (item : Item) : Bool :=
  INDEX_DESCRIPTORS.all (fun d =>
    match getIndexKeyFromItem d.name item with
    | some pr => decide (nulFreeStr pr.2)
    | none => true)

theorem itemRangesNulFree_spec {item : Item}
    (h : itemRangesNulFree item = true) :
    ∀ n hh r, getIndexKeyFromItem n item = some (hh, r) → nulFreeStr r := by
  intro n hh r hproj
  cases hg : getDescriptor? n with
  | none =>
      rw [getIndexKeyFromItem_of_no_descriptor hg] at hproj
      cases hproj
  | some d =>
      obtain ⟨hdn, hdmem⟩ := getDescriptor?_name hg
      subst hdn
      have hall := List.all_eq_true.mp h d hdmem
      simp only [hproj] at hall
      exact of_decide_eq_true hall

/-- Table states reachable from the empty table through `put` and
`deleteByKey` when every put item has NUL-free projected range keys
(every mutating document-client operation writes through these two
methods). -/
inductive ReachableNF (prio : String → String → String → String → Nat) :
    TableState → Prop
  | empty : ReachableNF prio emptyTable
  | put {s s2 : TableState} {item : Item} {prev : Option Item} :
      ReachableNF prio s → itemRangesNulFree item = true →
      TableState.put prio s item = .ok (s2, prev) → ReachableNF prio s2
  | delete {s : TableState} (pk sk : String) :
      ReachableNF prio s → ReachableNF prio (TableState.deleteByKey s pk sk).1

theorem Inv_of_ReachableNF
    {prio : String → String → String → String → Nat} {s : TableState}
    (h : ReachableNF prio s) : Inv s := by
  induction h with
  | empty => exact Inv_emptyTable
  | put hr hnf hput ih =>
      exact put_preserves_Inv ih (itemRangesNulFree_spec hnf) hput
  | delete pk sk hr ih => exact delete_preserves_Inv ih

/-! ### Claim C1 -/

def cexItem2 : Item :=
  [("PK", Value.str ("a" ++ ITEM_KEY_SEPARATOR ++ ("1:a"))),
   ("SK", Value.str ("b")),
   ("GSI2PK", Value.str ("h")),
   ("GSI2SK", Value.str ("x"))]

def cexItem1 : Item :=
  [("PK", Value.str ("a")), ("SK", Value.str ("b")),
   ("GSI2PK", Value.str ("h")),
   ("GSI2SK", Value.str ("x" ++ ITEM_KEY_SEPARATOR ++ ("5:a")))]

def cexS1 (prio : String → String → String → String → Nat) : TableState :=
  match TableState.put prio emptyTable cexItem2 with
  | .ok (st, _) => st
  | .error _ => emptyTable

def cexState (prio : String → String → String → String → Nat) : TableState :=
  match TableState.put prio (cexS1 prio) cexItem1 with
  | .ok (st, _) => st
  | .error _ => emptyTable

def cexTree (prio : String → String → String → String → Nat) : Treap :=
  match (cexState prio).indexes ("GSI2") ("h") with
  | some t => t
  | none => Treap.nil

/-- Priority-independent form of the C1 counterexample. -/
theorem index_invariant_cex_general
    (prio : String → String → String → String → Nat) :
    Reachable prio (cexState prio) ∧ ¬ IndexedOnce (cexState prio) := by
  constructor
  · exact Reachable.put
      (Reachable.put Reachable.empty
        (rfl : TableState.put prio emptyTable cexItem2 =
          .ok (cexS1 prio, none)))
      (rfl : TableState.put prio (cexS1 prio) cexItem1 =
        .ok (cexState prio, none))
  · intro h
    have hstoreEq : (cexState prio).itemStore =
        [(encodeItemKey ("a" ++ ITEM_KEY_SEPARATOR ++ ("1:a")) ("b"), cexItem2),
         (encodeItemKey ("a") ("b"), cexItem1)] := rfl
    have hmem : (encodeItemKey ("a" ++ ITEM_KEY_SEPARATOR ++ ("1:a")) ("b"),
        cexItem2) ∈ (cexState prio).itemStore := by
      rw [hstoreEq]
      exact List.mem_cons.mpr (Or.inl rfl)
    have hd : (⟨"GSI2", "GSI2PK", "GSI2SK"⟩ : IndexDescriptor) ∈
        INDEX_DESCRIPTORS := by decide
    obtain ⟨hsome, _⟩ := h _ cexItem2 hmem _ hd
    have hproj : getIndexKeyFromItem ("GSI2") cexItem2 =
        some (("h"), ("x")) := by decide
    obtain ⟨⟨t, ht, hcount⟩, _⟩ := hsome ("h") ("x") hproj
    have ht2 : (cexState prio).indexes ("GSI2") ("h") =
        some (cexTree prio) := rfl
    have heq2 : cexTree prio = t := Option.some.inj (ht2.symm.trans ht)
    rw [← heq2] at hcount
    have hentries : Treap.entries (cexTree prio) =
        [(encodeIndexEntryKey ("x")
            (encodeItemKey ("a" ++ ITEM_KEY_SEPARATOR ++ ("1:a")) ("b")),
          encodeItemKey ("a") ("b"))] := rfl
    rw [hentries] at hcount
    exact absurd hcount (by decide)

def cexPrio : String → String → String → String → Nat := fun _ _ _ _ => 0

/-- C1 (counterexample): the claimed index invariant does not hold in
every reachable table state.  Storing an item whose `GSI2SK` contains a
NUL character makes its GSI2 entry key collide with that of a second
stored item; the treap insert then overwrites the entry, after which
the second item has no GSI2 entry at all even though its `GSI2PK` and
`GSI2SK` are strings.  The failure is priority-independent, so it
applies in particular to `stablePriority`. -/
theorem index_invariant_counterexample :
    Reachable cexPrio (cexState cexPrio) ∧ ¬ IndexedOnce (cexState cexPrio) :=
  index_invariant_cex_general cexPrio

/-- C1 (amended): in every table state reachable from the empty table
by `put` and `deleteByKey` where every put item has NUL-free projected
index range keys, each stored item has exactly one index entry in the
partition it projects into for each index whose hash and range
attributes it carries as strings, and no index entry anywhere else. -/
theorem index_invariant_amended
    (prio : String → String → String → String → Nat) (s : TableState)
    (h : ReachableNF prio s) : IndexedOnce s :=
  IndexedOnce_of_Inv (Inv_of_ReachableNF h)

def wPrio : String → String → String → String → Nat := fun _ _ _ _ => 0

def wItem : Item := [("PK", Value.str ("a")), ("SK", Value.str ("b"))]

def wState : TableState :=
  match TableState.put wPrio emptyTable wItem with
  | .ok (st, _) => st
  | .error _ => emptyTable

/-- C1 (witness): the amended invariant theorem applied to the concrete
state obtained by putting one NUL-free item into the empty table. -/
theorem index_invariant_amended_witness : IndexedOnce wState :=
  index_invariant_amended wPrio wState
    (ReachableNF.put ReachableNF.empty (by decide)
      (rfl : TableState.put wPrio emptyTable wItem = .ok (wState, none)))

/-! ### Claim C4 -/

/-- C4: storing an item whose `PK` and `SK` are strings succeeds, and a
subsequent `cloneItemByKey` on that key returns an item value-equal to
the original; both the stored copy and the returned item go through
`cloneItem` (`JSON.parse(JSON.stringify(...))`), which on
JSON-representable values is the structural identity. -/
theorem put_get_roundtrip
    (prio : String → String → String → String → Nat) (s : TableState)
    (item : Item) (pk sk : String)
    (hPK : getAttr item ("PK") = some (.str pk))
    (hSK : getAttr item ("SK") = some (.str sk)) :
    ∃ s2 prev, TableState.put prio s item = .ok (s2, prev) ∧
      TableState.cloneItemByKey s2 pk sk = some item ∧
      cloneItem item = item := by
  unfold TableState.put
  rw [hPK, hSK]
  refine ⟨_, _, rfl, ?_, cloneItem_eq item⟩
  show ((mapGet (mapSet s.itemStore (encodeItemKey pk sk) (cloneItem item))
      (encodeItemKey pk sk)).map cloneItem) = some item
  rw [mapGet_mapSet_self]
  simp [cloneItem_eq]

/-- C4 (witness): the roundtrip theorem applied to a concrete item and
the empty table. -/
theorem put_get_roundtrip_witness :
    ∃ s2 prev, TableState.put wPrio emptyTable wItem = .ok (s2, prev) ∧
      TableState.cloneItemByKey s2 ("a") ("b") = some wItem ∧
      cloneItem wItem = wItem :=
  put_get_roundtrip wPrio emptyTable wItem ("a") ("b") rfl rfl

/-! ## Document client (`part_005`), parameter validation

Request params are JS objects: an association list from parameter name
to `Option Value`, where `none` models an explicitly-`undefined`
property (`Object.entries` lists it, `typeof value === "undefined"`
skips it). -/

abbrev Params := List (String × Option Value)

/-- The effective value of a parameter: absent and `undefined` coincide. -/
def getEff (params : Params) (name : String) : Option Value :=
  match mapGet params name with
  | some (some v) => some v
  | _ => none

/-- JS truthiness of a possibly-undefined value (the `Value` model has
no NaN, which is the one falsy number besides 0). -/
def jsTruthy : Option Value → Bool
  | none => false
  | some .null => false
  | some (.bool b) => b
  | some (.num q) => q ≠ 0
  | some (.str s) => s ≠ ""
  | some (.arr _) => true
  | some (.obj _) => true

structure MethodSpec where
  supportedParams : List String
  unsupportedParams : List String
deriving DecidableEq, Repr

/-- `IN_MEMORY_SPEC.methods` from `spec.ts`. -/
def inMemorySpecMethods (method : String) : Option MethodSpec :=
  if method = "get" then
    some ⟨["TableName", "Key", "ConsistentRead"],
      ["AttributesToGet", "ProjectionExpression", "ExpressionAttributeNames"]⟩
  else if method = "put" then
    some ⟨["TableName", "Item", "ConditionExpression",
        "ExpressionAttributeNames", "ExpressionAttributeValues"],
      ["Expected", "ReturnValues", "ReturnConsumedCapacity",
        "ReturnItemCollectionMetrics"]⟩
  else if method = "update" then
    some ⟨["TableName", "Key", "ConditionExpression", "UpdateExpression",
        "ExpressionAttributeNames", "ExpressionAttributeValues",
        "ReturnValues"],
      ["Expected", "AttributeUpdates", "ReturnConsumedCapacity",
        "ReturnItemCollectionMetrics"]⟩
  else if method = "delete" then
    some ⟨["TableName", "Key", "ConditionExpression",
        "ExpressionAttributeNames", "ExpressionAttributeValues"],
      ["Expected", "ReturnValues", "ReturnConsumedCapacity",
        "ReturnItemCollectionMetrics"]⟩
  else if method = "query" then
    some ⟨["TableName", "IndexName", "KeyConditionExpression",
        "FilterExpression", "ExpressionAttributeNames",
        "ExpressionAttributeValues", "Limit", "ExclusiveStartKey",
        "ScanIndexForward", "ConsistentRead"],
      ["Select", "ProjectionExpression", "KeyConditions", "QueryFilter",
        "ConditionalOperator", "AttributesToGet"]⟩
  else if method = "scan" then
    some ⟨["TableName", "FilterExpression", "ExpressionAttributeNames",
        "ExpressionAttributeValues", "Limit", "ExclusiveStartKey"],
      ["ProjectionExpression", "Segment", "TotalSegments", "Select",
        "ScanFilter"]⟩
  else if method = "batchGet" then
    some ⟨["RequestItems"], ["ReturnConsumedCapacity"]⟩
  else if method = "batchWrite" then
    some ⟨["RequestItems"],
      ["ReturnConsumedCapacity", "ReturnItemCollectionMetrics"]⟩
  else if method = "transactWrite" then
    some ⟨["TransactItems"],
      ["ClientRequestToken", "ReturnConsumedCapacity",
        "ReturnItemCollectionMetrics"]⟩
  else none

/-- One step of the `assertSupportedParams` loop. -/
def checkParamEntry (method : String) (spec : MethodSpec)
    (e : String × Option Value) : Except Err Unit :=
  match e.2 with
  | none => .ok ()
  | some _ =>
      if spec.unsupportedParams.contains e.1 then
        .error (Err.notSupported method (method ++ ("." ) ++ e.1)
          (e.1 ++ (" is not supported in in-memory mode.")))
      else if spec.supportedParams.contains e.1 then .ok ()
      else
        .error (Err.notSupported method (method ++ (".") ++ e.1)
          (("Unsupported parameter: ") ++ e.1))

def assertSupportedParams (method : String) (params : Params) :
    Except Err Unit :=
  match inMemorySpecMethods method with
  | none =>
      .error (Err.notSupported method method (("Unsupported method: ") ++ method))
  | some spec => params.forM (checkParamEntry method spec)

def getRequiredTableName (params : Params) : Except Err String :=
  match getEff params ("TableName") with
  | some (.str s) =>
      if s = "" then
        .error (Err.notSupported ("documentClient") ("TableName")
          ("TableName must be a non-empty string."))
      else .ok s
  | _ =>
      .error (Err.notSupported ("documentClient") ("TableName")
        ("TableName must be a non-empty string."))

/-- `getRequiredKey`; arrays pass the `typeof key === "object"` test and
then fail the PK/SK string check. -/
def getRequiredKeyOf (key : Option Value) (featurePath : String) :
    Except Err (String × String) :=
  match key with
  | some (.obj fields) =>
      match getAttr fields ("PK"), getAttr fields ("SK") with
      | some (.str pk), some (.str sk) => .ok (pk, sk)
      | _, _ =>
          .error (validationError
            ("One or more parameter values were invalid: Type mismatch for key"))
  | some (.arr _) =>
      .error (validationError
        ("One or more parameter values were invalid: Type mismatch for key"))
  | _ =>
      .error (Err.notSupported ("documentClient") featurePath
        ("Key must be an object."))

def getRequiredKey (params : Params) (featurePath : String) :
    Except Err (String × String) :=
  getRequiredKeyOf (getEff params ("Key")) featurePath

/-- `assertPrimaryKey` applied to a JS value (an array has no `PK`). -/
def assertPrimaryKeyOf (item : Value) : Except Err (String × String) :=
  match item with
  | .obj fields =>
      match getAttr fields ("PK"), getAttr fields ("SK") with
      | some (.str pk), some (.str sk) => .ok (pk, sk)
      | _, _ =>
          .error (validationError
            ("One or more parameter values were invalid: Type mismatch for key"))
  | _ =>
      .error (validationError
        ("One or more parameter values were invalid: Type mismatch for key"))

/-- `normalizeLimit` from `part_005`: a missing limit passes through,
a non-number or a number below 1 is rejected, anything else is floored.
(`Value.num` is a rational: NaN and infinities, which `Number.isFinite`
rejects, have no representation here.) -/
def normalizeLimit (value : Option Value) : Except Err (Option Int) :=
  match value with
  | none => .ok none
  | some (.num q) =>
      if q < 1 then
        .error (validationError ("Limit must be greater than or equal to 1"))
      else .ok (some ⌊q⌋)
  | some _ =>
      .error (validationError ("Limit must be greater than or equal to 1"))

/-- `resolveIndexName` from `part_005`. -/
def resolveIndexName (indexName : Option Value) : Except Err String :=
  if jsTruthy indexName = false then .ok PRIMARY_INDEX_NAME
  else
    match indexName with
    | some (.str n) =>
        if n = "GSI1" then
          .error (Err.notSupported ("query") ("query.IndexName")
            ("GSI1 is intentionally excluded from in-memory mode."))
        else if isSupportedIndexName n then .ok n
        else
          .error (Err.notSupported ("query") ("query.IndexName")
            (("Unsupported index: ") ++ n))
    | some w =>
        .error (Err.notSupported ("query") ("query.IndexName")
          (("Unsupported index: ") ++ templateString (some w)))
    | none => .ok PRIMARY_INDEX_NAME

/-- First character of an expression token ident (`[A-Za-z_]`). -/
def isIdentStart (c : Char) : Bool := c.isAlpha || c = Char.ofNat 95

/-- Later characters of an expression token ident (`[A-Za-z0-9_]`). -/
def isIdentChar (c : Char) : Bool := c.isAlphanum || c = Char.ofNat 95

/-- The global regex scan `/[:#][A-Za-z_][A-Za-z0-9_]*/g` used by
`assertExpressionAttributeInputs`, for a fixed marker character. -/
theorem length_dropWhile_le2 {α : Type} (p : α → Bool) (l : List α) :
    (List.dropWhile p l).length ≤ l.length := by
  induction l with
  | nil => simp
  | cons a t ih =>
      rw [List.dropWhile_cons]
      split
      · exact le_trans ih (Nat.le_succ _)
      · exact Nat.le_refl _

theorem length_dropWhile_cons_lt {α : Type} (p : α → Bool) (d : α)
    (rest : List α) :
    (List.dropWhile p (d :: rest)).length < rest.length + 2 := by
  rw [List.dropWhile_cons]
  split
  · exact lt_of_le_of_lt (length_dropWhile_le2 p rest) (by omega)
  · simp

def scanTokensGo (marker : Char) : Nat → List Char → List String
  | 0, _ => []
  | _, [] => []
  | fuel + 1, c :: rest =>
      if c = marker then
        match rest with
        | [] => []
        | d :: _ =>
            if isIdentStart d then
              String.mk (c :: rest.takeWhile isIdentChar) ::
                scanTokensGo marker fuel (rest.dropWhile isIdentChar)
            else scanTokensGo marker fuel rest
      else scanTokensGo marker fuel rest

def scanTokens (marker : Char) (l : List Char) : List String :=
  scanTokensGo marker l.length l

/-- Insertion into a lexicographically sorted list of strings. -/
def insortStr (x : String) : List String → List String
  | [] => [x]
  | y :: rest => if x ≤ y then x :: y :: rest else y :: insortStr x rest

/-- JS `Array.prototype.sort()` on strings: lexicographic ascending
(rendered as an insertion sort). -/
def sortStrings (l : List String) : List String := l.foldr insortStr []

/-- The active expressions of `assertExpressionAttributeInputs`:
strings with non-blank content (`value.trim().length > 0` holds exactly
when some character is not whitespace). -/
def activeExpressions (expressions : List (Option Value)) : List String :=
  expressions.filterMap (fun e =>
    match e with
    | some (.str s) =>
        if s.data.any (fun c => ¬ c.isWhitespace) then some s else none
    | _ => none)

/-- The sorted unused placeholder keys of one attribute map: the keys
whose token never occurs in an active expression, in `Array.sort`
order. -/
def unusedKeys (marker : Char) (fields : List (String × Value))
    (active : List String) : List String :=
  sortStrings ((fields.map Prod.fst).filter (fun k =>
    ¬ (active.flatMap (fun e => scanTokens marker e.data)).contains k))

/-- One branch of `assertExpressionAttributeInputs` (shared between
`ExpressionAttributeValues` with marker `:` and
`ExpressionAttributeNames` with marker `#`). -/
def checkAttributeMap (paramValue : Option Value) (emptyMessage : String)
    (unusedMessageLead : String) (marker : Char)
    (active : List String) : Except Err Unit :=
  match paramValue with
  | none => .ok ()
  | some v =>
      match v with
      | .obj fields =>
          if fields.length = 0 then .error (validationError emptyMessage)
          else
            if (unusedKeys marker fields active).length > 0 then
              .error (validationError
                (unusedMessageLead ++
                  String.intercalate (", ") (unusedKeys marker fields active) ++
                  ("\x7d")))
            else .ok ()
      | _ => .error (validationError emptyMessage)

/-- `assertExpressionAttributeInputs` from `part_005`. -/
def assertExpressionAttributeInputs (params : Params)
    (expressions : List (Option Value)) : Except Err Unit :=
  let active := activeExpressions expressions
  if active.length = 0 then .ok ()
  else
    match checkAttributeMap (getEff params ("ExpressionAttributeValues"))
        ("ExpressionAttributeValues must not be empty")
        ("Value provided in ExpressionAttributeValues unused in expressions: keys: \x7b")
        (Char.ofNat 58) active with
    | .error e => .error e
    | .ok _ =>
        checkAttributeMap (getEff params ("ExpressionAttributeNames"))
          ("ExpressionAttributeNames must not be empty")
          ("Value provided in ExpressionAttributeNames unused in expressions: keys: \x7b")
          (Char.ofNat 35) active

/-! ### Claim C9 — `normalizeLimit` -/

/-- C9 (counterexample): a non-integer `Limit` of 5/2 is accepted (and
floored to 2) rather than rejected, contradicting the claim that a
non-integer limit fails validation. -/
theorem normalizeLimit_counterexample :
    normalizeLimit (some (.num (5 / 2))) = .ok (some 2) ∧
      ¬ ∃ n : ℤ, ((5 : ℚ) / 2) = (n : ℚ) := by
  constructor
  · simp only [normalizeLimit]
    rw [if_neg (by norm_num)]
    norm_num
  · rintro ⟨n, hn⟩
    have h2 : (5 : ℚ) = 2 * (n : ℚ) := by linarith
    have h3 : (5 : ℤ) = 2 * n := by exact_mod_cast h2
    omega

/-- C9 (amended): a missing `Limit` passes through; a numeric limit
below 1 and a non-numeric limit are rejected with the validation
message, and an accepted numeric limit is floored and is at least 1;
non-integer limits of at least 1 are accepted. -/
theorem normalizeLimit_spec :
    normalizeLimit none = .ok none ∧
    (∀ q : ℚ, q < 1 → normalizeLimit (some (.num q)) =
      .error (validationError ("Limit must be greater than or equal to 1"))) ∧
    (∀ q : ℚ, 1 ≤ q → normalizeLimit (some (.num q)) = .ok (some ⌊q⌋) ∧
      1 ≤ ⌊q⌋) ∧
    (∀ w : Value, (∀ q, w ≠ .num q) → normalizeLimit (some w) =
      .error (validationError ("Limit must be greater than or equal to 1"))) := by
  refine ⟨rfl, ?_, ?_, ?_⟩
  · intro q hq
    simp only [normalizeLimit]
    rw [if_pos hq]
  · intro q hq
    refine ⟨?_, ?_⟩
    · simp only [normalizeLimit]
      rw [if_neg (not_lt.mpr hq)]
    · exact Int.le_floor.mpr (by exact_mod_cast hq)
  · intro w hw
    cases w with
    | num q => exact absurd rfl (hw q)
    | null => rfl
    | bool b => rfl
    | str t => rfl
    | arr xs => rfl
    | obj fs => rfl

/-- C9 (witness): the amended limit-normalization theorem at the
concrete limits 1/2 (rejected) and 7/2 (accepted, floored to 3). -/
theorem normalizeLimit_spec_witness :
    normalizeLimit (some (.num (1 / 2))) =
      .error (validationError ("Limit must be greater than or equal to 1")) ∧
    normalizeLimit (some (.num (7 / 2))) = .ok (some ⌊(7 : ℚ) / 2⌋) := by
  refine ⟨normalizeLimit_spec.2.1 _ (by norm_num),
    (normalizeLimit_spec.2.2.1 _ (by norm_num)).1⟩

/-! ### Claim C7 — ConsistentRead on a GSI -/

/-- The validation prelude of `query()` from `part_005`: supported
params, `TableName`, the `KeyConditionExpression` string requirement,
index-name resolution, the ConsistentRead/GSI rejection, and the
expression-attribute input check. -/
def queryValidate (params : Params) : Except Err (String × String) :=
  match assertSupportedParams ("query") params with
  | .error e => .error e
  | .ok _ =>
      match getRequiredTableName params with
      | .error e => .error e
      | .ok tableName =>
          match getEff params ("KeyConditionExpression") with
          | some (.str _) =>
              match resolveIndexName (getEff params ("IndexName")) with
              | .error e => .error e
              | .ok indexName =>
                  if jsTruthy (getEff params ("ConsistentRead")) &&
                      isGSI indexName then
                    .error (validationError
                      ("Consistent read cannot be true when querying a GSI"))
                  else
                    match assertExpressionAttributeInputs params
                        [getEff params ("KeyConditionExpression"),
                         getEff params ("FilterExpression")] with
                    | .error e => .error e
                    | .ok _ => .ok (tableName, indexName)
          | _ =>
              .error (Err.notSupported ("query")
                ("query.KeyConditionExpression")
                ("KeyConditionExpression is required."))

theorem gsi_names_facts :
    ∀ g ∈ GSI_NAMES, g ≠ ("GSI1") ∧ g ≠ PRIMARY_INDEX_NAME ∧ g ≠ "" := by
  decide

/-- C7 (amended): a query whose params pass the supported-params check,
carry a table name and a string `KeyConditionExpression`, name one of
the GSIs, and have a truthy `ConsistentRead`, fails with the validation
error whose message is exactly
"Consistent read cannot be true when querying a GSI" (and the purely
functional validation prelude touches no table state). -/
theorem query_consistent_read_gsi (params : Params) (g : String)
    (hsup : assertSupportedParams ("query") params = .ok ())
    (htn : ∃ tn, getRequiredTableName params = .ok tn)
    (hkce : ∃ e, getEff params ("KeyConditionExpression") = some (.str e))
    (hidx : getEff params ("IndexName") = some (.str g))
    (hgsi : g ∈ GSI_NAMES)
    (hcr : jsTruthy (getEff params ("ConsistentRead")) = true) :
    queryValidate params =
      .error (validationError
        ("Consistent read cannot be true when querying a GSI")) := by
  obtain ⟨tn, htn⟩ := htn
  obtain ⟨e, hkce⟩ := hkce
  obtain ⟨hne1, hnep, hnee⟩ := gsi_names_facts g hgsi
  have hres : resolveIndexName (getEff params ("IndexName")) = .ok g := by
    rw [hidx]
    unfold resolveIndexName
    have htruthy : jsTruthy (some (Value.str g)) = true := by
      simp [jsTruthy, hnee]
    rw [htruthy]
    simp only [Bool.true_eq_false, if_false]
    rw [if_neg hne1]
    rw [if_pos (by
      unfold isSupportedIndexName
      have hc : GSI_NAMES.contains g = true := List.elem_eq_true_of_mem hgsi
      rw [hc]
      simp)]
  have hgsib : isGSI g = true := by
    unfold isGSI
    exact decide_eq_true hnep
  unfold queryValidate
  rw [hsup, htn, hkce, hres, hcr]
  simp [hgsib]

def cexQueryParams : Params :=
  [("TableName", some (.str ("t"))),
   ("KeyConditionExpression", some (.str ("PK = :pk"))),
   ("IndexName", some (.str ("GSI2"))),
   ("ConsistentRead", some (.bool true))]

/-- C7 (counterexample): with ConsistentRead on a GSI2 query the raised
validation message is "Consistent read cannot be true when querying a
GSI", not the message the claim states byte-for-byte ("Consistent reads
are not supported on global secondary indexes"). -/
theorem query_consistent_read_counterexample :
    queryValidate cexQueryParams =
      .error (validationError
        ("Consistent read cannot be true when querying a GSI")) ∧
    validationError ("Consistent read cannot be true when querying a GSI") ≠
      validationError
        ("Consistent reads are not supported on global secondary indexes") := by
  constructor
  · rfl
  · decide

/-- C7 (witness): the amended theorem applied to concrete GSI2 query
params with ConsistentRead set. -/
theorem query_consistent_read_gsi_witness :
    queryValidate cexQueryParams =
      .error (validationError
        ("Consistent read cannot be true when querying a GSI")) :=
  query_consistent_read_gsi cexQueryParams ("GSI2") rfl
    ⟨"t", rfl⟩ ⟨"PK = :pk", rfl⟩ rfl (by decide) rfl

/-! ### Claim C10 — expression attribute inputs -/

/-- `get` from `part_005`: supported params, required table name and
key, then a cloned read; `get` never reaches
`assertExpressionAttributeInputs`. -/
def getOp (state : TableState) (params : Params) : Except Err (Option Item) :=
  match assertSupportedParams ("get") params with
  | .error e => .error e
  | .ok _ =>
      match getRequiredTableName params with
      | .error e => .error e
      | .ok _ =>
          match getRequiredKey params ("Key") with
          | .error e => .error e
          | .ok key => .ok (state.cloneItemByKey key.1 key.2)

def cexGetParams : Params :=
  [("TableName", some (.str ("t"))),
   ("Key", some (.obj [("PK", .str ("a")), ("SK", .str ("b"))])),
   ("ConditionExpression", some (.str ("attribute_exists(PK)"))),
   ("ExpressionAttributeValues", some (.obj [(":unused", .str ("x"))]))]

/-- C10 (counterexample): a `get` call carrying a non-empty expression
and an `ExpressionAttributeValues` object with an unused key does not
raise a ValidationException: `get` has no expression parameters at all,
so `assertSupportedParams` rejects `ConditionExpression` with a
NotSupportedError first. -/
theorem get_expression_inputs_counterexample :
    getOp emptyTable cexGetParams =
      .error (Err.notSupported ("get") ("get.ConditionExpression")
        ("Unsupported parameter: ConditionExpression")) ∧
    ∀ msg, getOp emptyTable cexGetParams ≠ .error (validationError msg) := by
  constructor
  · rfl
  · intro msg h
    have hval : getOp emptyTable cexGetParams =
        .error (Err.notSupported ("get") ("get.ConditionExpression")
          ("Unsupported parameter: ConditionExpression")) := rfl
    rw [hval] at h
    rw [Except.error.injEq] at h
    simp [validationError] at h

/-- C10 (amended): for the methods that do call
`assertExpressionAttributeInputs` (put, update, delete, query, scan and
the transact-write entries) the check, given at least one active
expression, rejects an empty `ExpressionAttributeValues` or
`ExpressionAttributeNames` object with "... must not be empty", and an
attribute map containing keys never referenced in the active
expressions with the "unused in expressions" ValidationException; the
check runs before any mutation in every caller. -/
theorem expression_attribute_inputs_spec (params : Params)
    (exprs : List (Option Value))
    (hactive : activeExpressions exprs ≠ []) :
    (getEff params ("ExpressionAttributeValues") = some (.obj []) →
      assertExpressionAttributeInputs params exprs =
        .error (validationError ("ExpressionAttributeValues must not be empty"))) ∧
    (∀ fields, getEff params ("ExpressionAttributeValues") = some (.obj fields) →
      fields ≠ [] →
      unusedKeys (Char.ofNat 58) fields (activeExpressions exprs) ≠ [] →
      assertExpressionAttributeInputs params exprs =
        .error (validationError
          (("Value provided in ExpressionAttributeValues unused in expressions: keys: \x7b") ++
            String.intercalate (", ")
              (unusedKeys (Char.ofNat 58) fields (activeExpressions exprs)) ++
            ("\x7d")))) ∧
    (getEff params ("ExpressionAttributeValues") = none →
      getEff params ("ExpressionAttributeNames") = some (.obj []) →
      assertExpressionAttributeInputs params exprs =
        .error (validationError ("ExpressionAttributeNames must not be empty"))) ∧
    (getEff params ("ExpressionAttributeValues") = none →
      ∀ fields, getEff params ("ExpressionAttributeNames") = some (.obj fields) →
      fields ≠ [] →
      unusedKeys (Char.ofNat 35) fields (activeExpressions exprs) ≠ [] →
      assertExpressionAttributeInputs params exprs =
        .error (validationError
          (("Value provided in ExpressionAttributeNames unused in expressions: keys: \x7b") ++
            String.intercalate (", ")
              (unusedKeys (Char.ofNat 35) fields (activeExpressions exprs)) ++
            ("\x7d")))) := by
  have hlen : ¬ (activeExpressions exprs).length = 0 := by
    intro h
    exact hactive (List.length_eq_zero.mp h)
  refine ⟨?_, ?_, ?_, ?_⟩
  · intro hM
    unfold assertExpressionAttributeInputs
    rw [if_neg hlen]
    rw [hM]
    simp only [checkAttributeMap]
    simp
  · intro fields hM hne hunused
    unfold assertExpressionAttributeInputs
    rw [if_neg hlen]
    rw [hM]
    simp only [checkAttributeMap]
    rw [if_neg (by
      intro h
      exact hne (List.length_eq_zero.mp h))]
    rw [if_pos (List.length_pos.mpr hunused)]
  · intro hV hN
    unfold assertExpressionAttributeInputs
    rw [if_neg hlen]
    rw [hV, hN]
    simp only [checkAttributeMap]
    simp
  · intro hV fields hN hne hunused
    unfold assertExpressionAttributeInputs
    rw [if_neg hlen]
    rw [hV, hN]
    simp only [checkAttributeMap]
    rw [if_neg (by
      intro h
      exact hne (List.length_eq_zero.mp h))]
    rw [if_pos (List.length_pos.mpr hunused)]

def wEAIParams : Params :=
  [("ExpressionAttributeValues",
    some (.obj [(":a", .str ("1")), (":b", .str ("2"))]))]

/-- C10 (witness): the amended theorem applied to a params object whose
`ExpressionAttributeValues` carries the unused key `:b` next to the
used key `:a`. -/
theorem expression_attribute_inputs_spec_witness :
    assertExpressionAttributeInputs wEAIParams [some (.str ("PK = :a"))] =
      .error (validationError
        ("Value provided in ExpressionAttributeValues unused in expressions: keys: \x7b:b\x7d")) := by
  have h := (expression_attribute_inputs_spec wEAIParams
    [some (.str ("PK = :a"))] (by decide)).2.1
    [(":a", Value.str ("1")), (":b", Value.str ("2"))] rfl (by decide) (by decide)
  rw [h]
  rfl

/-! ### Claim C5 — the query loop and LastEvaluatedKey -/

/-- `buildLastEvaluatedKey` from `part_005`: the primary key plus, on a
GSI, the index hash and range attributes (an absent attribute stays
`undefined`). -/
def buildLastEvaluatedKey (indexName : String) (item : Item) :
    List (String × Option Value) :=
  let base := [("PK", getAttr item ("PK")), ("SK", getAttr item ("SK"))]
  if indexName ≠ PRIMARY_INDEX_NAME then
    base ++ [(indexName ++ ("PK"), getAttr item (indexName ++ ("PK"))),
             (indexName ++ ("SK"), getAttr item (indexName ++ ("SK")))]
  else base

/-- The `query()` while-loop over the candidate items yielded by the
index iteration: each candidate increments `scannedCount`, passes the
filter into `items` or is skipped, and once `scannedCount >= limit` the
loop stops with a `LastEvaluatedKey` built from the last-scanned
candidate.  The filter is the abstracted `FilterExpression` evaluation
(absence of a filter is the constantly-true function). -/
def queryLoop (incl : Item → Bool) (limit : Option Int)
    (indexName : String) (scanned : Nat) :
    List Item → List Item × Nat × Option (List (String × Option Value))
  | [] => ([], scanned, none)
  | c :: rest =>
      let scanned2 := scanned + 1
      let items := if incl c then [c] else []
      match limit with
      | some l =>
          if l ≤ (scanned2 : Int) then
            (items, scanned2, some (buildLastEvaluatedKey indexName c))
          else
            let res := queryLoop incl limit indexName scanned2 rest
            (items ++ res.1, res.2.1, res.2.2)
      | none =>
          let res := queryLoop incl limit indexName scanned2 rest
          (items ++ res.1, res.2.1, res.2.2)

theorem queryLoop_none_spec (incl : Item → Bool) (indexName : String) :
    ∀ (cs : List Item) (s : Nat),
      queryLoop incl none indexName s cs =
        (cs.filter incl, s + cs.length, none) := by
  intro cs
  induction cs with
  | nil => intro s; simp [queryLoop]
  | cons c rest ih =>
      intro s
      simp only [queryLoop]
      rw [ih (s + 1)]
      by_cases h : incl c
      · simp [h, List.filter_cons]
        omega
      · simp [h, List.filter_cons]
        omega

theorem queryLoop_some_spec (incl : Item → Bool) (indexName : String)
    (L : Nat) :
    ∀ (cs : List Item) (s : Nat), s < L →
      ((cs.length + s < L →
        queryLoop incl (some (L : Int)) indexName s cs =
          (cs.filter incl, s + cs.length, none)) ∧
       (L ≤ s + cs.length →
        ∃ c, cs.get? (L - s - 1) = some c ∧
          queryLoop incl (some (L : Int)) indexName s cs =
            ((cs.take (L - s)).filter incl, L,
              some (buildLastEvaluatedKey indexName c)))) := by
  intro cs
  induction cs with
  | nil =>
      intro s hs
      constructor
      · intro _
        simp [queryLoop]
      · intro habs
        simp at habs
        omega
  | cons c rest ih =>
      intro s hs
      by_cases hstop : L ≤ s + 1
      · have hLs : L = s + 1 := by omega
        constructor
        · intro habs
          simp at habs
          omega
        · intro _
          refine ⟨c, ?_, ?_⟩
          · have h0 : L - s - 1 = 0 := by omega
            rw [h0]
            rfl
          · simp only [queryLoop]
            rw [if_pos (by exact_mod_cast hstop)]
            have h1 : L - s = 1 := by omega
            rw [h1]
            by_cases h : incl c
            · simp [h, List.filter_cons, hLs]
            · simp [h, List.filter_cons, hLs]
      · have hs2 : s + 1 < L := by omega
        have ihs := ih (s + 1) hs2
        constructor
        · intro hlen
          have hlc : (c :: rest).length = rest.length + 1 := rfl
          rw [hlc] at hlen
          simp only [queryLoop]
          rw [if_neg (by
            intro hc
            exact hstop (by exact_mod_cast hc))]
          rw [ihs.1 (by omega)]
          by_cases h : incl c
          · simp [h, List.filter_cons]
            omega
          · simp [h, List.filter_cons]
            omega
        · intro hle
          obtain ⟨c2, hc2, heq⟩ := ihs.2 (by
            have hlen : (c :: rest).length = rest.length + 1 := rfl
            rw [hlen] at hle
            omega)
          refine ⟨c2, ?_, ?_⟩
          · have harith : L - s - 1 = (L - (s + 1) - 1) + 1 := by omega
            rw [harith]
            simpa using hc2
          · simp only [queryLoop]
            rw [if_neg (by
              intro hc
              exact hstop (by exact_mod_cast hc))]
            rw [heq]
            have harith2 : L - s = (L - (s + 1)) + 1 := by omega
            rw [harith2]
            rw [List.take_succ_cons]
            by_cases h : incl c
            · simp [h, List.filter_cons]
            · simp [h, List.filter_cons]

/-- C5: the query loop scans candidates one by one, counting every
scanned candidate, keeping exactly the candidates that pass the filter;
with no limit it scans everything and yields no `LastEvaluatedKey`;
with a (normalized, hence >= 1) limit it stops as soon as the scanned
count reaches the limit, yielding the filtered prefix of the first
`limit` candidates and a `LastEvaluatedKey` built from the
`limit`-th candidate (PK, SK and, on a GSI, the index hash and range
attributes); when the candidates run out before the limit is reached no
`LastEvaluatedKey` is produced. -/
theorem query_loop_spec (incl : Item → Bool) (indexName : String)
    (candidates : List Item) (L : Nat) (hL : 1 ≤ L) :
    (queryLoop incl none indexName 0 candidates =
      (candidates.filter incl, candidates.length, none)) ∧
    (candidates.length < L →
      queryLoop incl (some (L : Int)) indexName 0 candidates =
        (candidates.filter incl, candidates.length, none)) ∧
    (L ≤ candidates.length →
      ∃ c, candidates.get? (L - 1) = some c ∧
        queryLoop incl (some (L : Int)) indexName 0 candidates =
          ((candidates.take L).filter incl, L,
            some (buildLastEvaluatedKey indexName c))) := by
  have h := queryLoop_some_spec incl indexName L candidates 0 (by omega)
  refine ⟨?_, ?_, ?_⟩
  · have h2 := queryLoop_none_spec incl indexName candidates 0
    simpa using h2
  · intro hlen
    have h2 := h.1 (by omega)
    simpa using h2
  · intro hle
    obtain ⟨c, hc, heq⟩ := h.2 (by omega)
    refine ⟨c, by simpa using hc, by simpa using heq⟩

def wItemsC5 : List Item :=
  [[("PK", .str ("a")), ("SK", .str ("1"))],
   [("PK", .str ("b")), ("SK", .str ("2"))],
   [("PK", .str ("c")), ("SK", .str ("3"))]]

def wItemC5b : Item := [("PK", .str ("b")), ("SK", .str ("2"))]

/-- C5 (witness): the loop specification applied to three concrete
candidates with limit 2: the first two are scanned and the
LastEvaluatedKey comes from the second. -/
theorem query_loop_spec_witness :
    queryLoop (fun _ => true) (some ((2 : Nat) : Int)) ("GSI2") 0 wItemsC5 =
      ((wItemsC5.take 2).filter (fun _ => true), 2,
        some (buildLastEvaluatedKey ("GSI2") wItemC5b)) := by
  obtain ⟨c, hc, heq⟩ :=
    (query_loop_spec (fun _ => true) ("GSI2") wItemsC5 2 (by decide)).2.2
      (by decide)
  have hv : wItemsC5.get? 1 = some wItemC5b := rfl
  rw [hv] at hc
  rw [← Option.some.inj hc] at heq
  exact heq

/-! ### Claim C6 — key attributes in update expressions -/

inductive DocumentPathPart where
  | attribute (value : String)
  | index (value : Nat)
deriving DecidableEq, Repr

/-- `getTopLevelKeyAttribute` from `part_005`. -/
def getTopLevelKeyAttribute (path : List DocumentPathPart) : Option String :=
  match path with
  | .attribute v :: _ => if v = "PK" ∨ v = "SK" then some v else none
  | _ => none

/-- JS strict equality `!==` as used by the key-attribute guard.  In JS
objects and arrays compare by reference; both guard operands here are
freshly parsed resp. freshly cloned values, so for them reference
equality is always false, which the catch-all encodes. -/
def jsStrictEqVal : Value → Value → Bool
  | .str a, .str b => a = b
  | .num a, .num b => a = b
  | .bool a, .bool b => a = b
  | .null, .null => true
  | _, _ => false

def jsStrictEq (v : Value) (o : Option Value) : Bool :=
  match o with
  | some w => jsStrictEqVal v w
  | none => false

def invalidUpdatePathError : Err :=
  validationError
    ("The document path provided in the update expression is invalid for update")

def keyAttrError (k : String) : Err :=
  validationError
    (("One or more parameter values were invalid: Cannot update attribute ") ++
      k ++ (". This attribute is part of the key"))

/-- `parent[leaf.value] = value` on an array, after the guard
`leaf.value > parent.length` was rejected: replace in range, append at
the end. -/
def setListAt (xs : List Value) (i : Nat) (value : Value) : List Value :=
  match xs, i with
  | [], _ => [value]
  | _ :: rest, 0 => value :: rest
  | x :: rest, n + 1 => x :: setListAt rest n value

/-- `resolveDocumentPathParent` fused with the leaf write of
`setValueAtDocumentPath`, walking a JS value. -/
def setVal (v : Value) (path : List DocumentPathPart) (value : Value) :
    Except Err Value :=
  match path with
  | [] => .error invalidUpdatePathError
  | [leaf] =>
      match leaf with
      | .attribute a =>
          match v with
          | .obj fields => .ok (.obj (setAttr fields a value))
          | _ => .error invalidUpdatePathError
      | .index i =>
          match v with
          | .arr xs =>
              if i > xs.length then .error invalidUpdatePathError
              else .ok (.arr (setListAt xs i value))
          | _ => .error invalidUpdatePathError
  | part :: rest =>
      match part with
      | .attribute a =>
          match v with
          | .obj fields =>
              match getAttr fields a with
              | none => .error invalidUpdatePathError
              | some child =>
                  match setVal child rest value with
                  | .ok child2 => .ok (.obj (setAttr fields a child2))
                  | .error e => .error e
          | _ => .error invalidUpdatePathError
      | .index i =>
          match v with
          | .arr xs =>
              match xs.get? i with
              | none => .error invalidUpdatePathError
              | some child =>
                  match setVal child rest value with
                  | .ok child2 => .ok (.arr (xs.set i child2))
                  | .error e => .error e
          | _ => .error invalidUpdatePathError

/-- `tryResolveDocumentPathParent` fused with the leaf removal of
`removeValueAtDocumentPath`: silent no-op wherever the path does not
resolve. -/
def removeVal (v : Value) (path : List DocumentPathPart) : Value :=
  match path with
  | [] => v
  | [leaf] =>
      match leaf with
      | .attribute a =>
          match v with
          | .obj fields => .obj (removeAttr fields a)
          | _ => v
      | .index i =>
          match v with
          | .arr xs => if i < xs.length then .arr (xs.eraseIdx i) else v
          | _ => v
  | part :: rest =>
      match part with
      | .attribute a =>
          match v with
          | .obj fields =>
              match getAttr fields a with
              | some child => .obj (setAttr fields a (removeVal child rest))
              | none => v
          | _ => v
      | .index i =>
          match v with
          | .arr xs =>
              match xs.get? i with
              | some child => .arr (xs.set i (removeVal child rest))
              | none => v
          | _ => v

structure UpdateAssignment where
  path : List DocumentPathPart
  value : Value
deriving DecidableEq, Repr

structure UpdateRemoval where
  path : List DocumentPathPart
deriving DecidableEq, Repr

/-- The parsed update expression as `part_005` consumes it:
path-addressed SET assignments and REMOVE paths. -/
structure ParsedUpdateExpression where
  set : List UpdateAssignment
  remove : List UpdateRemoval
deriving DecidableEq, Repr

/-- `setValueAtDocumentPath` on the root item object (a write at a
non-empty path keeps the root an object, so the second branch is
unreachable). -/
def setValueAtDocumentPath (item : Item) (path : List DocumentPathPart)
    (value : Value) : Except Err Item :=
  match setVal (.obj item) path value with
  | .ok (.obj fields) => .ok fields
  | .ok _ => .ok item
  | .error e => .error e

def removeValueAtDocumentPath (item : Item) (path : List DocumentPathPart) :
    Item :=
  match removeVal (.obj item) path with
  | .obj fields => fields
  | _ => item

/-- One SET assignment of `applyParsedUpdateExpression`, with the
key-attribute guard. -/
def applySetAssignment (item : Item) (a : UpdateAssignment) :
    Except Err Item :=
  match getTopLevelKeyAttribute a.path with
  | some k =>
      if a.path.length ≠ 1 ∨ jsStrictEq a.value (getAttr item k) = false then
        .error (keyAttrError k)
      else setValueAtDocumentPath item a.path a.value
  | none => setValueAtDocumentPath item a.path a.value

/-- One REMOVE of `applyParsedUpdateExpression`, with the key-attribute
guard. -/
def applyRemoval (item : Item) (r : UpdateRemoval) : Except Err Item :=
  match getTopLevelKeyAttribute r.path with
  | some k => .error (keyAttrError k)
  | none => .ok (removeValueAtDocumentPath item r.path)

/-- `applyParsedUpdateExpression` from `part_005`: all SET assignments
in order, then all REMOVE paths. -/
def applyParsedUpdateExpression (item : Item)
    (parsed : ParsedUpdateExpression) : Except Err Item :=
  match parsed.set.foldlM applySetAssignment item with
  | .error e => .error e
  | .ok item1 => parsed.remove.foldlM applyRemoval item1

theorem getTopLevelKeyAttribute_singleton {p : DocumentPathPart}
    {k : String} (h : getTopLevelKeyAttribute [p] = some k) :
    p = .attribute k := by
  cases p
  next v =>
    simp only [getTopLevelKeyAttribute] at h
    by_cases hv : v = "PK" ∨ v = "SK"
    · rw [if_pos hv] at h
      rw [Option.some.injEq] at h
      rw [h]
    · rw [if_neg hv] at h
      cases h
  next i =>
    simp only [getTopLevelKeyAttribute] at h
    cases h

theorem applySetAssignment_eval {item : Item} {a : UpdateAssignment}
    {k : String} (h : getTopLevelKeyAttribute a.path = some k) :
    applySetAssignment item a =
      if a.path.length ≠ 1 ∨ jsStrictEq a.value (getAttr item k) = false then
        .error (keyAttrError k)
      else setValueAtDocumentPath item a.path a.value := by
  unfold applySetAssignment
  rw [h]

theorem applyRemoval_eval {item : Item} {r : UpdateRemoval} {k : String}
    (h : getTopLevelKeyAttribute r.path = some k) :
    applyRemoval item r = .error (keyAttrError k) := by
  unfold applyRemoval
  rw [h]

/-- C6: a SET assignment whose document path starts at the top-level
attribute `PK` or `SK` fails with the key-attribute validation error
exactly unless its path is that single attribute and its value is
strictly equal to the item's current value of the attribute (the no-op
assignment); a REMOVE whose path starts at `PK` or `SK` always fails
with the same error. -/
theorem update_key_attribute_guard (item : Item) (k : String) :
    (∀ a : UpdateAssignment, getTopLevelKeyAttribute a.path = some k →
      (applySetAssignment item a = .error (keyAttrError k) ↔
        ¬ (a.path = [DocumentPathPart.attribute k] ∧
           jsStrictEq a.value (getAttr item k) = true))) ∧
    (∀ r : UpdateRemoval, getTopLevelKeyAttribute r.path = some k →
      applyRemoval item r = .error (keyAttrError k)) := by
  constructor
  · intro a ha
    rw [applySetAssignment_eval ha]
    by_cases hcond : a.path.length ≠ 1 ∨ jsStrictEq a.value (getAttr item k) = false
    · rw [if_pos hcond]
      constructor
      · intro _
        rintro ⟨hpath, heq⟩
        rcases hcond with hlen | hfalse
        · rw [hpath] at hlen
          exact hlen rfl
        · rw [heq] at hfalse
          cases hfalse
      · intro _
        rfl
    · rw [if_neg hcond]
      push_neg at hcond
      obtain ⟨hlen, hne⟩ := hcond
      have htrue : jsStrictEq a.value (getAttr item k) = true := by
        cases hb : jsStrictEq a.value (getAttr item k)
        · exact absurd hb hne
        · rfl
      have hpath : a.path = [DocumentPathPart.attribute k] := by
        cases hp : a.path with
        | nil =>
            rw [hp] at hlen
            cases hlen
        | cons p rest =>
            cases rest with
            | nil =>
                rw [hp] at ha
                rw [getTopLevelKeyAttribute_singleton ha]
            | cons p2 rest2 =>
                rw [hp] at hlen
                cases hlen
      constructor
      · intro herr
        rw [hpath] at herr
        unfold setValueAtDocumentPath at herr
        simp only [setVal] at herr
        cases herr
      · intro habs
        exact absurd ⟨hpath, htrue⟩ habs
  · intro r hr
    exact applyRemoval_eval hr

def wAssignment : UpdateAssignment :=
  { path := [DocumentPathPart.attribute ("PK")], value := .str ("other") }

def wRemoval : UpdateRemoval := { path := [DocumentPathPart.attribute ("SK")] }

/-- C6 (witness): on the concrete item with `PK = "a"`, assigning
`PK = "other"` fails with the key-attribute error (the value differs),
and removing `SK` fails with the key-attribute error. -/
theorem update_key_attribute_guard_witness :
    applySetAssignment wItem wAssignment = .error (keyAttrError ("PK")) ∧
    applyRemoval wItem wRemoval = .error (keyAttrError ("SK")) := by
  constructor
  · exact ((update_key_attribute_guard wItem ("PK")).1 wAssignment rfl).mpr
      (by decide)
  · exact (update_key_attribute_guard wItem ("SK")).2 wRemoval rfl

/-! ## `transactWrite` (claims C2 and C8)

The expression engine enters through two abstracted functions:
`evalCond` for `evaluateConditionOrValidationError` and `parseUpd` for
`parseUpdateExpressionOrValidationError`; the theorems hold for every
such function.  The client's table map is a total function defaulting
to the empty table, which makes the on-demand `getTable` creation a
no-op. -/

abbrev ClientState := String → TableState

def setTable (cs : ClientState) (n : String) (t : TableState) : ClientState :=
  fun m => if m = n then t else cs m

abbrev CondEval :=
  Value → Option Item → Option Value → Option Value → Except Err Bool

abbrev UpdParse :=
  String → Option Value → Option Value → Item →
    Except Err ParsedUpdateExpression

/-- Property access `v.k`; primitives yield `undefined` (a `null` base,
which throws a TypeError in JS, is coalesced to `undefined`: the thrown
error also aborts the transaction, and the rollback claim is
message-independent). -/
def getProp : Value → String → Option Value
  | .obj fields, k => getAttr fields k
  | _, _ => none

/-- The params object a transaction sub-entry carries. -/
def paramsOfValue : Value → Params
  | .obj fields => fields.map (fun e => (e.1, some e.2))
  | _ => []

/-- `assertCondition` with the condition evaluation abstracted. -/
def assertCondition (evalCond : CondEval) (p : Params)
    (existing : Option Item) : Except Err Unit :=
  let ce := getEff p ("ConditionExpression")
  if jsTruthy ce = false then .ok ()
  else
    match ce with
    | none => .ok ()
    | some v =>
        match evalCond v existing (getEff p ("ExpressionAttributeNames"))
            (getEff p ("ExpressionAttributeValues")) with
        | .error e => .error e
        | .ok true => .ok ()
        | .ok false => .error conditionalCheckFailed

structure JEntry where
  tableName : String
  keyPK : String
  keySK : String
  before : Option Item
deriving DecidableEq, Repr

/-- The journal key `tableName::PK::SK`. -/
def marker (tableName pk sk : String) : String :=
  tableName ++ ("::") ++ pk ++ ("::") ++ sk

/-- `remember` from the transactWrite closure: record the first
pre-image per marker (insertion-ordered map rendered as a list). -/
def remember (journal : List JEntry) (tableName pk sk : String)
    (before : Option Item) : List JEntry :=
  if (journal.map (fun e => marker e.tableName e.keyPK e.keySK)).contains
      (marker tableName pk sk) then journal
  else journal ++ [⟨tableName, pk, sk, before.map cloneItem⟩]

/-- `ensureNoDuplicate` from the transactWrite closure. -/
def ensureNoDuplicate (touched : List String) (tableName pk sk : String) :
    Except Err (List String) :=
  if touched.contains (marker tableName pk sk) then
    .error (validationError
      ("Transaction request cannot include multiple operations on one item"))
  else .ok (touched ++ [marker tableName pk sk])

/-- `rollback`: replay the (already reversed) journal; a put failure
propagates like the JS exception, leaving the state reached so far. -/
def rollback (prio : String → String → String → String → Nat)
    (cs : ClientState) : List JEntry → ClientState × Option Err
  | [] => (cs, none)
  | e :: rest =>
      match e.before with
      | none =>
          rollback prio (setTable cs e.tableName
            (TableState.deleteByKey (cs e.tableName) e.keyPK e.keySK).1) rest
      | some b =>
          match TableState.put prio (cs e.tableName) b with
          | .ok (t2, _) => rollback prio (setTable cs e.tableName t2) rest
          | .error err => (cs, some err)

/-- One `Put` transaction entry. -/
def processPut (prio : String → String → String → String → Nat)
    (evalCond : CondEval) (put : Value) (cs : ClientState)
    (touched : List String) (journal : List JEntry) :
    Except Err (ClientState × List String × List JEntry) :=
  let p := paramsOfValue put
  match getRequiredTableName p with
  | .error e => .error e
  | .ok tableName =>
      match getProp put ("Item") with
      | some (.obj fields) =>
          match assertPrimaryKeyOf (.obj fields) with
          | .error e => .error e
          | .ok (pk, sk) =>
              match ensureNoDuplicate touched tableName pk sk with
              | .error e => .error e
              | .ok touched2 =>
                  let existing := (cs tableName).cloneItemByKey pk sk
                  match assertExpressionAttributeInputs p
                      [getEff p ("ConditionExpression")] with
                  | .error e => .error e
                  | .ok _ =>
                      match assertCondition evalCond p existing with
                      | .error e => .error e
                      | .ok _ =>
                          let journal2 :=
                            remember journal tableName pk sk existing
                          match TableState.put prio (cs tableName) fields with
                          | .ok (t2, _) =>
                              .ok (setTable cs tableName t2, touched2, journal2)
                          | .error e => .error e
      | some (.arr _) =>
          .error (validationError
            ("One or more parameter values were invalid: Type mismatch for key"))
      | _ =>
          .error (Err.notSupported ("transactWrite")
            ("transactWrite.TransactItems.Put.Item")
            ("Put.Item must be an object."))

/-- One `Update` transaction entry. -/
def processUpdate (prio : String → String → String → String → Nat)
    (evalCond : CondEval) (parseUpd : UpdParse) (update : Value)
    (cs : ClientState) (touched : List String) (journal : List JEntry) :
    Except Err (ClientState × List String × List JEntry) :=
  let p := paramsOfValue update
  match getRequiredTableName p with
  | .error e => .error e
  | .ok tableName =>
      match getRequiredKey p ("Key") with
      | .error e => .error e
      | .ok key =>
          match ensureNoDuplicate touched tableName key.1 key.2 with
          | .error e => .error e
          | .ok touched2 =>
              let existing := (cs tableName).cloneItemByKey key.1 key.2
              match assertExpressionAttributeInputs p
                  [getEff p ("ConditionExpression"),
                   getEff p ("UpdateExpression")] with
              | .error e => .error e
              | .ok _ =>
                  match assertCondition evalCond p existing with
                  | .error e => .error e
                  | .ok _ =>
                      match getEff p ("UpdateExpression") with
                      | some (.str uexpr) =>
                          let base := existing.getD
                            [("PK", .str key.1), ("SK", .str key.2)]
                          match parseUpd uexpr
                              (getEff p ("ExpressionAttributeNames"))
                              (getEff p ("ExpressionAttributeValues")) base with
                          | .error e => .error e
                          | .ok parsed =>
                              match applyParsedUpdateExpression
                                  (cloneItem base) parsed with
                              | .error e => .error e
                              | .ok next =>
                                  match assertPrimaryKeyOf (.obj next) with
                                  | .error e => .error e
                                  | .ok _ =>
                                      let journal2 := remember journal
                                        tableName key.1 key.2 existing
                                      match TableState.put prio
                                          (cs tableName) next with
                                      | .ok (t2, _) =>
                                          .ok (setTable cs tableName t2,
                                            touched2, journal2)
                                      | .error e => .error e
                      | _ =>
                          .error (Err.notSupported ("transactWrite")
                            ("transactWrite.TransactItems.Update.UpdateExpression")
                            ("UpdateExpression is required."))

/-- One `Delete` transaction entry. -/
def processDelete (evalCond : CondEval) (del : Value) (cs : ClientState)
    (touched : List String) (journal : List JEntry) :
    Except Err (ClientState × List String × List JEntry) :=
  let p := paramsOfValue del
  match getRequiredTableName p with
  | .error e => .error e
  | .ok tableName =>
      match getRequiredKey p ("Key") with
      | .error e => .error e
      | .ok key =>
          match ensureNoDuplicate touched tableName key.1 key.2 with
          | .error e => .error e
          | .ok touched2 =>
              let existing := (cs tableName).cloneItemByKey key.1 key.2
              match assertExpressionAttributeInputs p
                  [getEff p ("ConditionExpression")] with
              | .error e => .error e
              | .ok _ =>
                  match assertCondition evalCond p existing with
                  | .error e => .error e
                  | .ok _ =>
                      let journal2 := remember journal tableName
                        key.1 key.2 existing
                      .ok (setTable cs tableName
                        (TableState.deleteByKey (cs tableName)
                          key.1 key.2).1, touched2, journal2)

/-- One `ConditionCheck` transaction entry (no mutation). -/
def processConditionCheck (evalCond : CondEval) (check : Value)
    (cs : ClientState) (touched : List String) (journal : List JEntry) :
    Except Err (ClientState × List String × List JEntry) :=
  let p := paramsOfValue check
  match getRequiredTableName p with
  | .error e => .error e
  | .ok tableName =>
      match getRequiredKey p ("Key") with
      | .error e => .error e
      | .ok key =>
          match ensureNoDuplicate touched tableName key.1 key.2 with
          | .error e => .error e
          | .ok touched2 =>
              let existing := (cs tableName).cloneItemByKey key.1 key.2
              match assertExpressionAttributeInputs p
                  [getEff p ("ConditionExpression")] with
              | .error e => .error e
              | .ok _ =>
                  match assertCondition evalCond p existing with
                  | .error e => .error e
                  | .ok _ => .ok (cs, touched2, journal)

/-- Dispatch on the entry's truthy `Put` / `Update` / `Delete` /
`ConditionCheck` property. -/
def processEntry (prio : String → String → String → String → Nat)
    (evalCond : CondEval) (parseUpd : UpdParse) (entry : Value)
    (cs : ClientState) (touched : List String) (journal : List JEntry) :
    Except Err (ClientState × List String × List JEntry) :=
  if jsTruthy (getProp entry ("Put")) then
    processPut prio evalCond ((getProp entry ("Put")).getD .null)
      cs touched journal
  else if jsTruthy (getProp entry ("Update")) then
    processUpdate prio evalCond parseUpd ((getProp entry ("Update")).getD .null)
      cs touched journal
  else if jsTruthy (getProp entry ("Delete")) then
    processDelete evalCond ((getProp entry ("Delete")).getD .null)
      cs touched journal
  else if jsTruthy (getProp entry ("ConditionCheck")) then
    processConditionCheck evalCond ((getProp entry ("ConditionCheck")).getD .null)
      cs touched journal
  else
    .error (Err.notSupported ("transactWrite") ("transactWrite.TransactItems")
      ("Each transaction entry must include Put, Update, Delete, or ConditionCheck."))

/-- The `for (const transactionEntry of transactItems)` loop inside the
`try`: on a throw it reports the state and journal at that point. -/
def processEntries (prio : String → String → String → String → Nat)
    (evalCond : CondEval) (parseUpd : UpdParse) :
    List Value → ClientState → List String → List JEntry →
      (Except Err Unit) × ClientState × List JEntry
  | [], cs, _, journal => (.ok (), cs, journal)
  | entry :: rest, cs, touched, journal =>
      match processEntry prio evalCond parseUpd entry cs touched journal with
      | .error e => (.error e, cs, journal)
      | .ok (cs2, touched2, journal2) =>
          processEntries prio evalCond parseUpd rest cs2 touched2 journal2

def startsWithL : List Char → List Char → Bool
  | [], _ => true
  | _ :: _, [] => false
  | p :: ps, c :: rest => p = c && startsWithL ps rest

def hasSub (pat : List Char) : List Char → Bool
  | [] => startsWithL pat []
  | c :: rest => startsWithL pat (c :: rest) || hasSub pat rest

/-- The `catch` block's regex test
`/Cannot update attribute (PK|SK)\. This attribute is part of the key/`
as a substring check. -/
def keyAttrMsgTest (msg : String) : Bool :=
  hasSub ("Cannot update attribute PK. This attribute is part of the key").data
    msg.data ||
  hasSub ("Cannot update attribute SK. This attribute is part of the key").data
    msg.data

/-- The error translation of the `catch` block (after the rollback). -/
def translateTransactError : Err → Err
  | .notSupported m f r => .notSupported m f r
  | .aws code msg =>
      if code = "ValidationException" && keyAttrMsgTest msg then
        transactionCanceledError
          ("Transaction cancelled, please refer cancellation reasons for specific reasons [ValidationError]")
      else if code = "ValidationException" then .aws code msg
      else if code = "ConditionalCheckFailedException" then
        transactionCanceledError
          ("Transaction cancelled, please refer cancellation reasons for specific reasons [None, ConditionalCheckFailed]")
      else if code = "TransactionCanceledException" then .aws code msg
      else transactionCanceledError msg
  | .jsError msg => transactionCanceledError msg

/-- `transactWrite` from `part_005`. -/
def transactWriteOp (prio : String → String → String → String → Nat)
    (evalCond : CondEval) (parseUpd : UpdParse) (params : Params)
    (cs : ClientState) : (Except Err Unit) × ClientState :=
  match assertSupportedParams ("transactWrite") params with
  | .error e => (.error e, cs)
  | .ok _ =>
      match getEff params ("TransactItems") with
      | some (.arr items) =>
          if items.length = 0 then
            (.error (Err.notSupported ("transactWrite")
              ("transactWrite.TransactItems")
              ("TransactItems must be a non-empty array.")), cs)
          else if items.length > 100 then
            (.error (validationError
              ("Member must have length less than or equal to 100")), cs)
          else
            match processEntries prio evalCond parseUpd items cs [] [] with
            | (.ok _, cs2, _) => (.ok (), cs2)
            | (.error e, cs2, journal) =>
                match rollback prio cs2 journal.reverse with
                | (cs3, some e2) => (.error e2, cs3)
                | (cs3, none) => (.error (translateTransactError e), cs3)
      | _ =>
          (.error (Err.notSupported ("transactWrite")
            ("transactWrite.TransactItems")
            ("TransactItems must be a non-empty array.")), cs)

/-! ### Rollback correctness: store-level lemmas -/

theorem optionMapClone (o : Option Item) : o.map cloneItem = o := by
  cases o with
  | none => rfl
  | some b => simp [cloneItem_eq]

theorem setTable_self (cs : ClientState) (n : String) (t : TableState) :
    setTable cs n t n = t := by
  simp [setTable]

theorem setTable_other (cs : ClientState) (n : String) (t : TableState)
    {m : String} (h : m ≠ n) : setTable cs n t m = cs m := by
  simp [setTable, h]

theorem mapGet_mapSet {α : Type} (m : List (String × α)) (k : String)
    (v : α) (k2 : String) :
    mapGet (mapSet m k v) k2 = if k2 = k then some v else mapGet m k2 := by
  induction m with
  | nil =>
      show (if k = k2 then some v else none) = if k2 = k then some v else mapGet [] k2
      by_cases h : k = k2
      · rw [if_pos h, if_pos h.symm]
      · rw [if_neg h, if_neg (fun hh => h (Eq.symm hh))]
        rfl
  | cons e rest ih =>
      obtain ⟨k3, v3⟩ := e
      by_cases h : k3 = k
      · subst h
        rw [mapSet, if_pos rfl, mapGet]
        by_cases h2 : k3 = k2
        · rw [if_pos h2, if_pos h2.symm]
        · rw [if_neg h2, if_neg (fun hh => h2 (Eq.symm hh)), mapGet, if_neg h2]
      · rw [mapSet, if_neg h, mapGet]
        by_cases h2 : k3 = k2
        · rw [if_pos h2, mapGet, if_pos h2]
          rw [if_neg (fun hh => h (h2.trans hh))]
        · rw [if_neg h2, mapGet, if_neg h2, ih]

theorem mapGet_mapDelete_self {α : Type} {m : List (String × α)}
    (hnd : (m.map Prod.fst).Nodup) (k : String) :
    mapGet (mapDelete m k) k = none := by
  induction m with
  | nil => rfl
  | cons e rest ih =>
      obtain ⟨k2, v2⟩ := e
      rw [List.map_cons, List.nodup_cons] at hnd
      by_cases h : k2 = k
      · subst h
        rw [mapDelete, if_pos rfl]
        rw [mapGet_eq_none_iff]
        intro v hv
        exact hnd.1 (List.mem_map.mpr ⟨(k2, v), hv, rfl⟩)
      · rw [mapDelete, if_neg h, mapGet, if_neg h]
        exact ih hnd.2

theorem mapGet_mapDelete_other {α : Type} (m : List (String × α))
    (k : String) {k2 : String} (h : k2 ≠ k) :
    mapGet (mapDelete m k) k2 = mapGet m k2 := by
  induction m with
  | nil => rfl
  | cons e rest ih =>
      obtain ⟨k3, v3⟩ := e
      by_cases h3 : k3 = k
      · subst h3
        rw [mapDelete, if_pos rfl, mapGet, if_neg (fun hh : k3 = k2 => h (hh.symm))]
      · rw [mapDelete, if_neg h3]
        by_cases h4 : k3 = k2
        · subst h4
          rw [mapGet, if_pos rfl, mapGet, if_pos rfl]
        · rw [mapGet, if_neg h4, mapGet, if_neg h4, ih]

/-- Well-formed item store: distinct keys, every key the encoded
primary key of its item. -/
structure StoreWf (t : TableState) : Prop where
  keysNodup : (t.itemStore.map Prod.fst).Nodup
  storeWF : ∀ ik item, (ik, item) ∈ t.itemStore →
    ∃ pk sk, getAttr item ("PK") = some (.str pk) ∧
      getAttr item ("SK") = some (.str sk) ∧ ik = encodeItemKey pk sk

def WfCS (cs : ClientState) : Prop := ∀ n, StoreWf (cs n)

/-- Observable item-store equality of two client states. -/
def StoreEq (cs1 cs2 : ClientState) : Prop :=
  ∀ n ik, mapGet ((cs1 n).itemStore) ik = mapGet ((cs2 n).itemStore) ik

theorem StoreEq.refl (cs : ClientState) : StoreEq cs cs := fun _ _ => rfl

theorem StoreEq.trans {a b c : ClientState} (h1 : StoreEq a b)
    (h2 : StoreEq b c) : StoreEq a c :=
  fun n ik => (h1 n ik).trans (h2 n ik)

theorem put_ok_of_attrs {prio : String → String → String → String → Nat}
    {t : TableState} {item : Item} {pk sk : String}
    (hPK : getAttr item ("PK") = some (.str pk))
    (hSK : getAttr item ("SK") = some (.str sk)) :
    ∃ t2 prev, TableState.put prio t item = .ok (t2, prev) := by
  unfold TableState.put
  rw [hPK, hSK]
  exact ⟨_, _, rfl⟩

theorem put_mapGet {prio : String → String → String → String → Nat}
    {t : TableState} {item : Item} {t2 : TableState} {prev : Option Item}
    {pk sk : String}
    (hPK : getAttr item ("PK") = some (.str pk))
    (hSK : getAttr item ("SK") = some (.str sk))
    (hput : TableState.put prio t item = .ok (t2, prev)) (k : String) :
    mapGet t2.itemStore k =
      if k = encodeItemKey pk sk then some item
      else mapGet t.itemStore k := by
  obtain ⟨pk2, sk2, hPK2, hSK2, _, hstore, _⟩ := put_ok_elim hput
  rw [hPK] at hPK2
  rw [hSK] at hSK2
  have hp2 : pk2 = pk := by
    have h1 := Option.some.inj hPK2
    exact (Value.str.inj h1).symm
  have hs2 : sk2 = sk := by
    have h1 := Option.some.inj hSK2
    exact (Value.str.inj h1).symm
  rw [hp2, hs2] at hstore
  rw [hstore, mapGet_mapSet, cloneItem_eq]

theorem put_preserves_StoreWf
    {prio : String → String → String → String → Nat} {t : TableState}
    {item : Item} {t2 : TableState} {prev : Option Item}
    (hwf : StoreWf t)
    (hput : TableState.put prio t item = .ok (t2, prev)) : StoreWf t2 := by
  obtain ⟨pk, sk, hPK, hSK, _, hstore, _⟩ := put_ok_elim hput
  constructor
  · rw [hstore]
    exact keys_mapSet_nodup hwf.keysNodup _ _
  · rw [hstore]
    intro ik2 item2 hmem2
    rcases (mem_mapSet_iff hwf.keysNodup).mp hmem2 with ⟨hik, hit⟩ | ⟨hold, _⟩
    · refine ⟨pk, sk, ?_, ?_, hik⟩
      · rw [hit, cloneItem_eq]
        exact hPK
      · rw [hit, cloneItem_eq]
        exact hSK
    · exact hwf.storeWF ik2 item2 hold

theorem deleteByKey_preserves_StoreWf {t : TableState} {pk sk : String}
    (hwf : StoreWf t) : StoreWf (TableState.deleteByKey t pk sk).1 := by
  rw [deleteByKey_elim]
  cases hprev : mapGet t.itemStore (encodeItemKey pk sk) with
  | none => exact hwf
  | some prev =>
      constructor
      · exact keys_mapDelete_nodup hwf.keysNodup _
      · intro ik2 item2 hm2
        exact hwf.storeWF ik2 item2
          ((mem_mapDelete_iff hwf.keysNodup).mp hm2).1

theorem deleteByKey_mapGet {t : TableState} (hwf : StoreWf t)
    (pk sk : String) (k : String) :
    mapGet (TableState.deleteByKey t pk sk).1.itemStore k =
      if k = encodeItemKey pk sk then none else mapGet t.itemStore k := by
  rw [deleteByKey_elim]
  cases hprev : mapGet t.itemStore (encodeItemKey pk sk) with
  | none =>
      by_cases h : k = encodeItemKey pk sk
      · rw [if_pos h, h]
        exact hprev
      · rw [if_neg h]
  | some prev =>
      by_cases h : k = encodeItemKey pk sk
      · rw [if_pos h, h]
        exact mapGet_mapDelete_self hwf.keysNodup _
      · rw [if_neg h]
        exact mapGet_mapDelete_other _ _ h

/-- The stored-item facts behind a `cloneItemByKey` hit. -/
theorem cloneItemByKey_eq_mapGet (t : TableState) (pk sk : String) :
    t.cloneItemByKey pk sk = mapGet t.itemStore (encodeItemKey pk sk) := by
  unfold TableState.cloneItemByKey TableState.cloneItemByItemKey
  exact optionMapClone _

/-! ### Frame lemmas for the update-expression key-preservation -/

theorem getAttr_setAttr_self (item : Item) (a : String) (v : Value) :
    getAttr (setAttr item a v) a = some v := by
  induction item with
  | nil => simp [setAttr, getAttr]
  | cons e rest ih =>
      obtain ⟨k, w⟩ := e
      by_cases h : k = a
      · rw [setAttr, if_pos h, getAttr, if_pos h]
      · rw [setAttr, if_neg h, getAttr, if_neg h, ih]

theorem getAttr_setAttr_other (item : Item) (a : String) (v : Value)
    {k : String} (h : k ≠ a) :
    getAttr (setAttr item a v) k = getAttr item k := by
  induction item with
  | nil =>
      show (if a = k then some v else none) = none
      rw [if_neg (fun hh => h (Eq.symm hh))]
  | cons e rest ih =>
      obtain ⟨k2, w⟩ := e
      by_cases h2 : k2 = a
      · rw [setAttr, if_pos h2, getAttr, getAttr]
        subst h2
        rw [if_neg (fun hh => h (Eq.symm hh)), if_neg (fun hh => h (Eq.symm hh))]
      · rw [setAttr, if_neg h2, getAttr, getAttr]
        by_cases h3 : k2 = k
        · rw [if_pos h3, if_pos h3]
        · rw [if_neg h3, if_neg h3, ih]

theorem getAttr_removeAttr_other (item : Item) (a : String)
    {k : String} (h : k ≠ a) :
    getAttr (removeAttr item a) k = getAttr item k := by
  induction item with
  | nil => rfl
  | cons e rest ih =>
      obtain ⟨k2, w⟩ := e
      by_cases h2 : k2 = a
      · subst h2
        rw [removeAttr, if_pos rfl, getAttr, if_neg (fun hh => h (Eq.symm hh))]
      · rw [removeAttr, if_neg h2, getAttr, getAttr]
        by_cases h3 : k2 = k
        · rw [if_pos h3, if_pos h3]
        · rw [if_neg h3, if_neg h3, ih]

theorem jsStrictEqVal_eq_of_true {v w : Value}
    (h : jsStrictEqVal v w = true) : v = w := by
  cases v <;> cases w <;> simp_all [jsStrictEqVal]

theorem assertPrimaryKeyOf_ok_elim {fields : Item} {pk sk : String}
    (h : assertPrimaryKeyOf (.obj fields) = .ok (pk, sk)) :
    getAttr fields ("PK") = some (.str pk) ∧
      getAttr fields ("SK") = some (.str sk) := by
  have h2 : (match getAttr fields ("PK"), getAttr fields ("SK") with
      | some (Value.str pk2), some (Value.str sk2) => Except.ok (pk2, sk2)
      | _, _ => (Except.error (validationError
          ("One or more parameter values were invalid: Type mismatch for key"))
          : Except Err (String × String))) = Except.ok (pk, sk) := h
  clear h
  rename' h2 => h
  cases hpk : getAttr fields ("PK") with
  | none => rw [hpk] at h; cases h
  | some vpk =>
      cases hsk : getAttr fields ("SK") with
      | none =>
          rw [hpk, hsk] at h
          cases vpk <;> cases h
      | some vsk =>
          rw [hpk, hsk] at h
          cases vpk <;> cases vsk <;> cases h
          exact ⟨rfl, rfl⟩

theorem ensureNoDuplicate_ok_elim {touched : List String}
    {tableName pk sk : String} {touched2 : List String}
    (h : ensureNoDuplicate touched tableName pk sk = .ok touched2) :
    marker tableName pk sk ∉ touched ∧
      touched2 = touched ++ [marker tableName pk sk] := by
  unfold ensureNoDuplicate at h
  by_cases hc : touched.contains (marker tableName pk sk)
  · rw [if_pos hc] at h
    cases h
  · rw [if_neg hc] at h
    refine ⟨fun hm => hc (List.elem_eq_true_of_mem hm), ?_⟩
    cases h
    rfl

theorem remember_fresh {journal : List JEntry} {tableName pk sk : String}
    {before : Option Item}
    (h : ¬ (journal.map (fun e => marker e.tableName e.keyPK e.keySK)).contains
      (marker tableName pk sk)) :
    remember journal tableName pk sk before =
      journal ++ [⟨tableName, pk, sk, before.map cloneItem⟩] := by
  unfold remember
  rw [if_neg h]

theorem setValueAtDocumentPath_elim {item : Item}
    {path : List DocumentPathPart} {value : Value} {item2 : Item}
    (h : setValueAtDocumentPath item path value = .ok item2) :
    ∃ a0 rest, path = .attribute a0 :: rest ∧
      ((rest = [] ∧ item2 = setAttr item a0 value) ∨
       (∃ child child2, getAttr item a0 = some child ∧
          setVal child rest value = .ok child2 ∧
          item2 = setAttr item a0 child2)) := by
  unfold setValueAtDocumentPath at h
  cases path with
  | nil =>
      rw [setVal] at h
      cases h
  | cons p ps =>
      cases ps with
      | nil =>
          cases p
          next a0 =>
              refine ⟨a0, [], rfl, Or.inl ⟨rfl, ?_⟩⟩
              rw [show setVal (.obj item) [DocumentPathPart.attribute a0] value
                  = .ok (.obj (setAttr item a0 value)) from rfl] at h
              cases h
              rfl
          next i =>
              rw [show setVal (.obj item) [DocumentPathPart.index i] value
                  = .error invalidUpdatePathError from rfl] at h
              cases h
      | cons q qs =>
          cases p
          next a0 =>
              refine ⟨a0, q :: qs, rfl, Or.inr ?_⟩
              rw [show setVal (.obj item) (DocumentPathPart.attribute a0 :: q :: qs) value
                  = (match getAttr item a0 with
                     | none => .error invalidUpdatePathError
                     | some child =>
                        match setVal child (q :: qs) value with
                        | .ok child2 => .ok (.obj (setAttr item a0 child2))
                        | .error e => .error e) from rfl] at h
              cases hg : getAttr item a0 with
              | none => rw [hg] at h; cases h
              | some child =>
                  simp only [hg] at h
                  cases hs : setVal child (q :: qs) value with
                  | error e => simp only [hs] at h; cases h
                  | ok child2 =>
                      simp only [hs] at h
                      cases h
                      exact ⟨child, child2, rfl, hs, rfl⟩
          next i =>
              rw [show setVal (.obj item) (DocumentPathPart.index i :: q :: qs) value
                  = .error invalidUpdatePathError from rfl] at h
              cases h

theorem removeValueAtDocumentPath_frame (item : Item)
    (path : List DocumentPathPart) (k : String)
    (h : ∀ rest, path ≠ DocumentPathPart.attribute k :: rest) :
    getAttr (removeValueAtDocumentPath item path) k = getAttr item k := by
  cases path with
  | nil => rfl
  | cons p ps =>
      cases p
      case index i =>
          cases ps with
          | nil =>
              show getAttr (match removeVal (.obj item) [DocumentPathPart.index i] with
                | .obj fields => fields
                | _ => item) k = getAttr item k
              rw [show removeVal (.obj item) [DocumentPathPart.index i] = .obj item from rfl]
          | cons q qs =>
              show getAttr (match removeVal (.obj item) (DocumentPathPart.index i :: q :: qs) with
                | .obj fields => fields
                | _ => item) k = getAttr item k
              rw [show removeVal (.obj item) (DocumentPathPart.index i :: q :: qs)
                  = .obj item from rfl]
      next a0 =>
          have ha : a0 ≠ k := by
            intro hh
            exact h ps (by rw [hh])
          have hk : k ≠ a0 := fun hh => ha (Eq.symm hh)
          cases ps with
          | nil =>
              show getAttr (match removeVal (.obj item) [DocumentPathPart.attribute a0] with
                | .obj fields => fields
                | _ => item) k = getAttr item k
              rw [show removeVal (.obj item) [DocumentPathPart.attribute a0]
                  = .obj (removeAttr item a0) from rfl]
              exact getAttr_removeAttr_other item a0 hk
          | cons q qs =>
              show getAttr (match removeVal (.obj item) (DocumentPathPart.attribute a0 :: q :: qs) with
                | .obj fields => fields
                | _ => item) k = getAttr item k
              rw [show removeVal (.obj item) (DocumentPathPart.attribute a0 :: q :: qs)
                  = (match getAttr item a0 with
                     | some child => .obj (setAttr item a0 (removeVal child (q :: qs)))
                     | none => .obj item) from rfl]
              cases hg : getAttr item a0 with
              | none => rfl
              | some child =>
                  show getAttr (setAttr item a0 (removeVal child (q :: qs))) k
                    = getAttr item k
                  exact getAttr_setAttr_other item a0 _ hk

theorem applySetAssignment_preserves_key {item : Item} {a : UpdateAssignment}
    {item2 : Item} {k : String} (hk : k = "PK" ∨ k = "SK")
    (h : applySetAssignment item a = .ok item2) :
    getAttr item2 k = getAttr item k := by
  unfold applySetAssignment at h
  cases hg : getTopLevelKeyAttribute a.path with
  | some k2 =>
      simp only [hg] at h
      by_cases hcond : a.path.length ≠ 1 ∨ jsStrictEq a.value (getAttr item k2) = false
      · rw [if_pos hcond] at h
        cases h
      · rw [if_neg hcond] at h
        push_neg at hcond
        obtain ⟨hlen, hjs⟩ := hcond
        have hjs2 : jsStrictEq a.value (getAttr item k2) = true :=
          eq_true_of_ne_false hjs
        obtain ⟨w, hw, hval⟩ : ∃ w, getAttr item k2 = some w ∧ a.value = w := by
          unfold jsStrictEq at hjs2
          cases hga : getAttr item k2 with
          | none => rw [hga] at hjs2; cases hjs2
          | some w =>
              rw [hga] at hjs2
              exact ⟨w, rfl, jsStrictEqVal_eq_of_true hjs2⟩
        obtain ⟨a0, rest, hpath, hcases⟩ := setValueAtDocumentPath_elim h
        have ha0 : a0 = k2 := by
          rw [hpath] at hg
          cases rest with
          | nil =>
              have hinj := getTopLevelKeyAttribute_singleton hg
              exact DocumentPathPart.attribute.inj hinj
          | cons q qs =>
              rw [hpath] at hlen
              simp at hlen
        have hrest : rest = [] := by
          rw [hpath] at hlen
          simpa using hlen
        subst ha0
        subst hrest
        rcases hcases with ⟨_, hitem2⟩ | ⟨child, child2, _, hsv, _⟩
        · subst hitem2
          by_cases hkk : k = a0
          · subst hkk
            rw [getAttr_setAttr_self, hval, hw]
          · exact getAttr_setAttr_other item a0 _ hkk
        · rw [setVal] at hsv
          cases hsv
  | none =>
      simp only [hg] at h
      obtain ⟨a0, rest, hpath, hcases⟩ := setValueAtDocumentPath_elim h
      have ha0 : k ≠ a0 := by
        intro hh
        rw [hpath, ← hh] at hg
        have : getTopLevelKeyAttribute (DocumentPathPart.attribute k :: rest)
            = some k := by
          show (if k = "PK" ∨ k = "SK" then some k else none) = some k
          rw [if_pos hk]
        rw [this] at hg
        cases hg
      rcases hcases with ⟨_, hitem2⟩ | ⟨child, child2, _, _, hitem2⟩ <;>
        (subst hitem2; exact getAttr_setAttr_other item a0 _ ha0)

theorem applyRemoval_preserves_key {item : Item} {r : UpdateRemoval}
    {item2 : Item} {k : String} (hk : k = "PK" ∨ k = "SK")
    (h : applyRemoval item r = .ok item2) :
    getAttr item2 k = getAttr item k := by
  unfold applyRemoval at h
  cases hg : getTopLevelKeyAttribute r.path with
  | some k2 =>
      simp only [hg] at h
      cases h
  | none =>
      simp only [hg] at h
      cases h
      refine removeValueAtDocumentPath_frame item r.path k ?_
      intro rest hh
      rw [hh] at hg
      have : getTopLevelKeyAttribute (DocumentPathPart.attribute k :: rest)
          = some k := by
        show (if k = "PK" ∨ k = "SK" then some k else none) = some k
        rw [if_pos hk]
      rw [this] at hg
      cases hg

theorem exceptBindErr {α β : Type} (e : Err) (f : α → Except Err β) :
    (Except.error e >>= f) = Except.error e := rfl

theorem exceptBindOk {α β : Type} (a : α) (f : α → Except Err β) :
    (Except.ok a >>= f) = f a := rfl

theorem foldlM_preserves_key {β : Type} {f : Item → β → Except Err Item}
    {k : String}
    (hstep : ∀ it b it2, f it b = .ok it2 → getAttr it2 k = getAttr it k) :
    ∀ (l : List β) (it it2 : Item), l.foldlM f it = .ok it2 →
      getAttr it2 k = getAttr it k := by
  intro l
  induction l with
  | nil =>
      intro it it2 h
      simp only [List.foldlM_nil] at h
      cases h
      rfl
  | cons b rest ih =>
      intro it it2 h
      rw [List.foldlM_cons] at h
      cases hb : f it b with
      | error e =>
          rw [hb, exceptBindErr] at h
          cases h
      | ok it1 =>
          rw [hb, exceptBindOk] at h
          exact (ih it1 it2 h).trans (hstep it b it1 hb)

theorem applyParsedUpdateExpression_preserves_key {item : Item}
    {parsed : ParsedUpdateExpression} {next : Item} {k : String}
    (hk : k = "PK" ∨ k = "SK")
    (h : applyParsedUpdateExpression item parsed = .ok next) :
    getAttr next k = getAttr item k := by
  unfold applyParsedUpdateExpression at h
  cases hset : parsed.set.foldlM applySetAssignment item with
  | error e =>
      simp only [hset] at h
      cases h
  | ok item1 =>
      simp only [hset] at h
      exact (foldlM_preserves_key
        (fun it r it2 hr => applyRemoval_preserves_key hk hr)
        parsed.remove item1 next h).trans
        (foldlM_preserves_key
          (fun it a it2 ha => applySetAssignment_preserves_key hk ha)
          parsed.set item item1 hset)

theorem WfCS_setTable {cs : ClientState} (hwf : WfCS cs) {n : String}
    {t : TableState} (ht : StoreWf t) : WfCS (setTable cs n t) := by
  intro m
  by_cases h : m = n
  · rw [h, setTable_self]
    exact ht
  · rw [setTable_other _ _ _ h]
    exact hwf m

theorem StoreEq_setTable_delete {a b : ClientState} (hwfa : WfCS a)
    (hwfb : WfCS b) (hab : StoreEq a b) (n pk sk : String) :
    StoreEq (setTable a n (TableState.deleteByKey (a n) pk sk).1)
      (setTable b n (TableState.deleteByKey (b n) pk sk).1) := by
  intro m ik
  by_cases h : m = n
  · subst h
    rw [setTable_self, setTable_self, deleteByKey_mapGet (hwfa _),
      deleteByKey_mapGet (hwfb _)]
    by_cases hik : ik = encodeItemKey pk sk
    · rw [if_pos hik, if_pos hik]
    · rw [if_neg hik, if_neg hik]
      exact hab _ ik
  · rw [setTable_other _ _ _ h, setTable_other _ _ _ h]
    exact hab m ik

/-- Rollback replay is determined, up to observable store equality, by
the observable stores: on well-formed states it succeeds or fails in
lock-step and yields pointwise-equal stores. -/
theorem rollback_congr (prio : String → String → String → String → Nat) :
    ∀ (l : List JEntry) (a b c3 : ClientState),
      WfCS a → WfCS b → StoreEq a b →
      rollback prio b l = (c3, none) →
      ∃ a3, rollback prio a l = (a3, none) ∧ StoreEq a3 c3 := by
  intro l
  induction l with
  | nil =>
      intro a b c3 _ _ hab hb
      have hc3 : b = c3 := congrArg Prod.fst hb
      exact ⟨a, rfl, hc3 ▸ hab⟩
  | cons e rest ih =>
      intro a b c3 hwfa hwfb hab hb
      rw [rollback] at hb
      cases hbe : e.before with
      | none =>
          simp only [hbe] at hb
          have hwfa2 : WfCS (setTable a e.tableName
              (TableState.deleteByKey (a e.tableName) e.keyPK e.keySK).1) :=
            WfCS_setTable hwfa (deleteByKey_preserves_StoreWf (hwfa _))
          have hwfb2 : WfCS (setTable b e.tableName
              (TableState.deleteByKey (b e.tableName) e.keyPK e.keySK).1) :=
            WfCS_setTable hwfb (deleteByKey_preserves_StoreWf (hwfb _))
          have hab2 := StoreEq_setTable_delete hwfa hwfb hab
            e.tableName e.keyPK e.keySK
          obtain ⟨a3, ha3, heq3⟩ := ih _ _ _ hwfa2 hwfb2 hab2 hb
          refine ⟨a3, ?_, heq3⟩
          rw [rollback]
          simp only [hbe]
          exact ha3
      | some bi =>
          simp only [hbe] at hb
          cases hpb : TableState.put prio (b e.tableName) bi with
          | error err =>
              rw [hpb] at hb
              cases hb
          | ok pair =>
              obtain ⟨tb2, prevb⟩ := pair
              simp only [hpb] at hb
              obtain ⟨pk2, sk2, hPK2, hSK2, _, _, _⟩ := put_ok_elim hpb
              obtain ⟨ta2, preva, hpa⟩ :=
                @put_ok_of_attrs prio (a e.tableName) bi pk2 sk2 hPK2 hSK2
              have hwfa2 : WfCS (setTable a e.tableName ta2) :=
                WfCS_setTable hwfa (put_preserves_StoreWf (hwfa _) hpa)
              have hwfb2 : WfCS (setTable b e.tableName tb2) :=
                WfCS_setTable hwfb (put_preserves_StoreWf (hwfb _) hpb)
              have hab2 : StoreEq (setTable a e.tableName ta2)
                  (setTable b e.tableName tb2) := by
                intro m ik
                by_cases h : m = e.tableName
                · subst h
                  rw [setTable_self, setTable_self,
                    put_mapGet hPK2 hSK2 hpa, put_mapGet hPK2 hSK2 hpb]
                  by_cases hik : ik = encodeItemKey pk2 sk2
                  · rw [if_pos hik, if_pos hik]
                  · rw [if_neg hik, if_neg hik]
                    exact hab _ ik
                · rw [setTable_other _ _ _ h, setTable_other _ _ _ h]
                  exact hab m ik
              obtain ⟨a3, ha3, heq3⟩ := ih _ _ _ hwfa2 hwfb2 hab2 hb
              refine ⟨a3, ?_, heq3⟩
              rw [rollback]
              simp only [hbe, hpa]
              exact ha3

/-- One journaled mutation: a fresh-marker write whose table-level
effect is confined to the slot `encodeItemKey pk sk` keeps the state
well-formed, keeps journal markers inside `touched`, and keeps the
reversed-journal rollback a faithful restoration of `cs0`. -/
theorem mutate_invariant
    (prio : String → String → String → String → Nat)
    {cs0 cs : ClientState} {touched : List String} {journal : List JEntry}
    (tableName pk sk : String) {t2 : TableState} (newv : Option Item)
    (hwf : WfCS cs)
    (hmk : ∀ e ∈ journal, marker e.tableName e.keyPK e.keySK ∈ touched)
    (hroll : ∃ c3, rollback prio cs journal.reverse = (c3, none) ∧
      StoreEq c3 cs0)
    (hfresh : marker tableName pk sk ∉ touched)
    (hwf2 : StoreWf t2)
    (hmut : ∀ k, mapGet t2.itemStore k =
      if k = encodeItemKey pk sk then newv
      else mapGet (cs tableName).itemStore k) :
    WfCS (setTable cs tableName t2) ∧
    (∀ e ∈ remember journal tableName pk sk
        ((cs tableName).cloneItemByKey pk sk),
      marker e.tableName e.keyPK e.keySK ∈
        touched ++ [marker tableName pk sk]) ∧
    (∃ c3, rollback prio (setTable cs tableName t2)
        (remember journal tableName pk sk
          ((cs tableName).cloneItemByKey pk sk)).reverse = (c3, none) ∧
      StoreEq c3 cs0) := by
  have hfr : ¬ (journal.map
      (fun e => marker e.tableName e.keyPK e.keySK)).contains
      (marker tableName pk sk) := by
    intro hc
    have hmem : marker tableName pk sk ∈ journal.map
        (fun e => marker e.tableName e.keyPK e.keySK) :=
      List.mem_of_elem_eq_true hc
    obtain ⟨e, he, heq⟩ := List.mem_map.mp hmem
    exact hfresh (heq ▸ hmk e he)
  have hrem := @remember_fresh journal tableName pk sk
    ((cs tableName).cloneItemByKey pk sk) hfr
  refine ⟨WfCS_setTable hwf hwf2, ?_, ?_⟩
  · intro e he
    rw [hrem] at he
    rcases List.mem_append.mp he with hold | hnew
    · exact List.mem_append_left _ (hmk e hold)
    · have he2 : e = ⟨tableName, pk, sk,
          ((cs tableName).cloneItemByKey pk sk).map cloneItem⟩ :=
        List.mem_singleton.mp hnew
      rw [he2]
      refine List.mem_append_right _ ?_
      show marker tableName pk sk ∈ [marker tableName pk sk]
      exact List.mem_singleton_self _
  · rw [hrem, List.reverse_append, List.reverse_singleton,
      List.singleton_append]
    obtain ⟨c3x, hc3x, heq3x⟩ := hroll
    cases hex : mapGet (cs tableName).itemStore (encodeItemKey pk sk) with
    | none =>
        have hE : (⟨tableName, pk, sk,
            ((cs tableName).cloneItemByKey pk sk).map cloneItem⟩ : JEntry) =
            ⟨tableName, pk, sk, none⟩ := by
          rw [optionMapClone, cloneItemByKey_eq_mapGet, hex]
        rw [hE]
        have hstep : rollback prio (setTable cs tableName t2)
            ((⟨tableName, pk, sk, none⟩ : JEntry) :: journal.reverse) =
            rollback prio (setTable (setTable cs tableName t2) tableName
              (TableState.deleteByKey
                ((setTable cs tableName t2) tableName) pk sk).1)
              journal.reverse := rfl
        rw [hstep, setTable_self]
        have hwfR : WfCS (setTable (setTable cs tableName t2) tableName
            (TableState.deleteByKey t2 pk sk).1) :=
          WfCS_setTable (WfCS_setTable hwf hwf2)
            (deleteByKey_preserves_StoreWf hwf2)
        have heqR : StoreEq (setTable (setTable cs tableName t2) tableName
            (TableState.deleteByKey t2 pk sk).1) cs := by
          intro m ik2
          by_cases hm : m = tableName
          · subst hm
            rw [setTable_self, deleteByKey_mapGet hwf2]
            by_cases hik2 : ik2 = encodeItemKey pk sk
            · rw [if_pos hik2, hik2, hex]
            · rw [if_neg hik2, hmut, if_neg hik2]
          · rw [setTable_other _ _ _ hm, setTable_other _ _ _ hm]
        obtain ⟨a3, ha3, heqa3⟩ := rollback_congr prio journal.reverse
          _ cs c3x hwfR hwf heqR hc3x
        exact ⟨a3, ha3, heqa3.trans heq3x⟩
    | some b =>
        have hE : (⟨tableName, pk, sk,
            ((cs tableName).cloneItemByKey pk sk).map cloneItem⟩ : JEntry) =
            ⟨tableName, pk, sk, some b⟩ := by
          rw [optionMapClone, cloneItemByKey_eq_mapGet, hex]
        rw [hE]
        obtain ⟨pk3, sk3, hPK3, hSK3, hik⟩ :=
          (hwf tableName).storeWF _ b (mem_of_mapGet_eq_some hex)
        obtain ⟨t3, prev3, hput3⟩ :=
          @put_ok_of_attrs prio t2 b pk3 sk3 hPK3 hSK3
        have hstep : rollback prio (setTable cs tableName t2)
            ((⟨tableName, pk, sk, some b⟩ : JEntry) :: journal.reverse) =
            match TableState.put prio
                ((setTable cs tableName t2) tableName) b with
            | .ok (t3, _) => rollback prio
                (setTable (setTable cs tableName t2) tableName t3)
                journal.reverse
            | .error err => ((setTable cs tableName t2), some err) := rfl
        rw [hstep, setTable_self]
        simp only [hput3]
        have hwfR : WfCS (setTable (setTable cs tableName t2) tableName t3) :=
          WfCS_setTable (WfCS_setTable hwf hwf2)
            (put_preserves_StoreWf hwf2 hput3)
        have heqR : StoreEq (setTable (setTable cs tableName t2) tableName t3)
            cs := by
          intro m ik2
          by_cases hm : m = tableName
          · subst hm
            rw [setTable_self, put_mapGet hPK3 hSK3 hput3]
            by_cases hik2 : ik2 = encodeItemKey pk sk
            · rw [if_pos (hik ▸ hik2), hik2, hex]
            · rw [if_neg (fun hh => hik2 (hik ▸ hh)), hmut, if_neg hik2]
          · rw [setTable_other _ _ _ hm, setTable_other _ _ _ hm]
        obtain ⟨a3, ha3, heqa3⟩ := rollback_congr prio journal.reverse
          _ cs c3x hwfR hwf heqR hc3x
        exact ⟨a3, ha3, heqa3.trans heq3x⟩

/-- The loop invariant of the transactWrite entry loop: the state is
well-formed, every journal marker has been recorded in `touched`, and
replaying the reversed journal restores the pre-call stores. -/
def TxInv (prio : String → String → String → String → Nat)
    (cs0 cs : ClientState) (touched : List String)
    (journal : List JEntry) : Prop :=
  WfCS cs ∧
  (∀ e ∈ journal, marker e.tableName e.keyPK e.keySK ∈ touched) ∧
  (∃ c3, rollback prio cs journal.reverse = (c3, none) ∧ StoreEq c3 cs0)

theorem processConditionCheck_inv {evalCond : CondEval} {check : Value}
    {prio : String → String → String → String → Nat} {cs0 cs : ClientState}
    {touched : List String} {journal : List JEntry} {cs2 : ClientState}
    {touched2 : List String} {journal2 : List JEntry}
    (hinv : TxInv prio cs0 cs touched journal)
    (h : processConditionCheck evalCond check cs touched journal =
      .ok (cs2, touched2, journal2)) :
    TxInv prio cs0 cs2 touched2 journal2 := by
  simp only [processConditionCheck] at h
  cases hT : getRequiredTableName (paramsOfValue check) with
  | error e0 => simp only [hT] at h; cases h
  | ok tableName =>
      simp only [hT] at h
      cases hK : getRequiredKey (paramsOfValue check) ("Key") with
      | error e0 => simp only [hK] at h; cases h
      | ok key =>
          simp only [hK] at h
          cases hD : ensureNoDuplicate touched tableName key.1 key.2 with
          | error e0 => simp only [hD] at h; cases h
          | ok touched2x =>
              simp only [hD] at h
              cases hA : assertExpressionAttributeInputs (paramsOfValue check)
                  [getEff (paramsOfValue check) ("ConditionExpression")] with
              | error e0 => simp only [hA] at h; cases h
              | ok u =>
                  simp only [hA] at h
                  cases hC : assertCondition evalCond (paramsOfValue check)
                      ((cs tableName).cloneItemByKey key.1 key.2) with
                  | error e0 => simp only [hC] at h; cases h
                  | ok u2 =>
                      simp only [hC] at h
                      simp only [Except.ok.injEq, Prod.mk.injEq] at h
                      obtain ⟨h1, h2, h3⟩ := h
                      subst h1
                      subst h2
                      subst h3
                      obtain ⟨htd, hteq⟩ := ensureNoDuplicate_ok_elim hD
                      refine ⟨hinv.1, ?_, hinv.2.2⟩
                      intro e he
                      rw [hteq]
                      exact List.mem_append_left _ (hinv.2.1 e he)

theorem processDelete_inv {evalCond : CondEval} {del : Value}
    {prio : String → String → String → String → Nat} {cs0 cs : ClientState}
    {touched : List String} {journal : List JEntry} {cs2 : ClientState}
    {touched2 : List String} {journal2 : List JEntry}
    (hinv : TxInv prio cs0 cs touched journal)
    (h : processDelete evalCond del cs touched journal =
      .ok (cs2, touched2, journal2)) :
    TxInv prio cs0 cs2 touched2 journal2 := by
  simp only [processDelete] at h
  cases hT : getRequiredTableName (paramsOfValue del) with
  | error e0 => simp only [hT] at h; cases h
  | ok tableName =>
      simp only [hT] at h
      cases hK : getRequiredKey (paramsOfValue del) ("Key") with
      | error e0 => simp only [hK] at h; cases h
      | ok key =>
          simp only [hK] at h
          cases hD : ensureNoDuplicate touched tableName key.1 key.2 with
          | error e0 => simp only [hD] at h; cases h
          | ok touched2x =>
              simp only [hD] at h
              cases hA : assertExpressionAttributeInputs (paramsOfValue del)
                  [getEff (paramsOfValue del) ("ConditionExpression")] with
              | error e0 => simp only [hA] at h; cases h
              | ok u =>
                  simp only [hA] at h
                  cases hC : assertCondition evalCond (paramsOfValue del)
                      ((cs tableName).cloneItemByKey key.1 key.2) with
                  | error e0 => simp only [hC] at h; cases h
                  | ok u2 =>
                      simp only [hC] at h
                      simp only [Except.ok.injEq, Prod.mk.injEq] at h
                      obtain ⟨h1, h2, h3⟩ := h
                      obtain ⟨htd, hteq⟩ := ensureNoDuplicate_ok_elim hD
                      obtain ⟨hw, hm, hr⟩ := mutate_invariant prio
                        tableName key.1 key.2 none hinv.1 hinv.2.1 hinv.2.2
                        htd (deleteByKey_preserves_StoreWf (hinv.1 tableName))
                        (deleteByKey_mapGet (hinv.1 tableName) key.1 key.2)
                      subst h1
                      subst h2
                      subst h3
                      rw [hteq]
                      exact ⟨hw, hm, hr⟩

theorem processPut_inv {put : Value}
    {prio : String → String → String → String → Nat} {evalCond : CondEval}
    {cs0 cs : ClientState} {touched : List String} {journal : List JEntry}
    {cs2 : ClientState} {touched2 : List String} {journal2 : List JEntry}
    (hinv : TxInv prio cs0 cs touched journal)
    (h : processPut prio evalCond put cs touched journal =
      .ok (cs2, touched2, journal2)) :
    TxInv prio cs0 cs2 touched2 journal2 := by
  simp only [processPut] at h
  cases hT : getRequiredTableName (paramsOfValue put) with
  | error e0 => simp only [hT] at h; cases h
  | ok tableName =>
      simp only [hT] at h
      cases hIt : getProp put ("Item") with
      | none => simp only [hIt] at h; cases h
      | some v =>
          cases v with
          | null => simp only [hIt] at h; cases h
          | bool b => simp only [hIt] at h; cases h
          | num q => simp only [hIt] at h; cases h
          | str srep => simp only [hIt] at h; cases h
          | arr xs => simp only [hIt] at h; cases h
          | obj fields =>
              simp only [hIt] at h
              cases hPKSK : assertPrimaryKeyOf (.obj fields) with
              | error e0 => simp only [hPKSK] at h; cases h
              | ok pr =>
                  obtain ⟨pk, sk⟩ := pr
                  simp only [hPKSK] at h
                  cases hD : ensureNoDuplicate touched tableName pk sk with
                  | error e0 => simp only [hD] at h; cases h
                  | ok touched2x =>
                      simp only [hD] at h
                      cases hA : assertExpressionAttributeInputs
                          (paramsOfValue put)
                          [getEff (paramsOfValue put)
                            ("ConditionExpression")] with
                      | error e0 => simp only [hA] at h; cases h
                      | ok u =>
                          simp only [hA] at h
                          cases hC : assertCondition evalCond
                              (paramsOfValue put)
                              ((cs tableName).cloneItemByKey pk sk) with
                          | error e0 => simp only [hC] at h; cases h
                          | ok u2 =>
                              simp only [hC] at h
                              cases hput : TableState.put prio
                                  (cs tableName) fields with
                              | error e0 => simp only [hput] at h; cases h
                              | ok pr2 =>
                                  obtain ⟨t2, prev⟩ := pr2
                                  simp only [hput] at h
                                  simp only [Except.ok.injEq,
                                    Prod.mk.injEq] at h
                                  obtain ⟨h1, h2, h3⟩ := h
                                  obtain ⟨hPK, hSK⟩ :=
                                    assertPrimaryKeyOf_ok_elim hPKSK
                                  obtain ⟨htd, hteq⟩ :=
                                    ensureNoDuplicate_ok_elim hD
                                  obtain ⟨hw, hm, hr⟩ := mutate_invariant prio
                                    tableName pk sk (some fields) hinv.1
                                    hinv.2.1 hinv.2.2 htd
                                    (put_preserves_StoreWf
                                      (hinv.1 tableName) hput)
                                    (put_mapGet hPK hSK hput)
                                  subst h1
                                  subst h2
                                  subst h3
                                  rw [hteq]
                                  exact ⟨hw, hm, hr⟩

theorem base_encode_eq {t : TableState} (hwf : StoreWf t) (pk sk : String)
    {pk2 sk2 : String}
    (hPK : getAttr ((t.cloneItemByKey pk sk).getD
        [("PK", .str pk), ("SK", .str sk)]) ("PK") = some (.str pk2))
    (hSK : getAttr ((t.cloneItemByKey pk sk).getD
        [("PK", .str pk), ("SK", .str sk)]) ("SK") = some (.str sk2)) :
    encodeItemKey pk2 sk2 = encodeItemKey pk sk := by
  rw [cloneItemByKey_eq_mapGet] at hPK hSK
  cases hex : mapGet t.itemStore (encodeItemKey pk sk) with
  | none =>
      rw [hex, Option.getD_none] at hPK hSK
      have h1 : getAttr [("PK", Value.str pk), ("SK", Value.str sk)] ("PK")
          = some (Value.str pk) := by simp [getAttr]
      have h2 : getAttr [("PK", Value.str pk), ("SK", Value.str sk)] ("SK")
          = some (Value.str sk) := by simp [getAttr]
      rw [h1] at hPK
      rw [h2] at hSK
      have e1 : pk = pk2 := Value.str.inj (Option.some.inj hPK)
      have e2 : sk = sk2 := Value.str.inj (Option.some.inj hSK)
      rw [← e1, ← e2]
  | some b =>
      rw [hex, Option.getD_some] at hPK hSK
      obtain ⟨pk3, sk3, hb1, hb2, hb3⟩ :=
        hwf.storeWF _ b (mem_of_mapGet_eq_some hex)
      rw [hb1] at hPK
      rw [hb2] at hSK
      have e1 : pk3 = pk2 := Value.str.inj (Option.some.inj hPK)
      have e2 : sk3 = sk2 := Value.str.inj (Option.some.inj hSK)
      rw [← e1, ← e2, ← hb3]

theorem processUpdate_inv {update : Value}
    {prio : String → String → String → String → Nat} {evalCond : CondEval}
    {parseUpd : UpdParse}
    {cs0 cs : ClientState} {touched : List String} {journal : List JEntry}
    {cs2 : ClientState} {touched2 : List String} {journal2 : List JEntry}
    (hinv : TxInv prio cs0 cs touched journal)
    (h : processUpdate prio evalCond parseUpd update cs touched journal =
      .ok (cs2, touched2, journal2)) :
    TxInv prio cs0 cs2 touched2 journal2 := by
  simp only [processUpdate] at h
  cases hT : getRequiredTableName (paramsOfValue update) with
  | error e0 => simp only [hT] at h; cases h
  | ok tableName =>
      simp only [hT] at h
      cases hK : getRequiredKey (paramsOfValue update) ("Key") with
      | error e0 => simp only [hK] at h; cases h
      | ok key =>
          simp only [hK] at h
          cases hD : ensureNoDuplicate touched tableName key.1 key.2 with
          | error e0 => simp only [hD] at h; cases h
          | ok touched2x =>
              simp only [hD] at h
              cases hA : assertExpressionAttributeInputs (paramsOfValue update)
                  [getEff (paramsOfValue update) ("ConditionExpression"),
                   getEff (paramsOfValue update) ("UpdateExpression")] with
              | error e0 => simp only [hA] at h; cases h
              | ok u =>
                  simp only [hA] at h
                  cases hC : assertCondition evalCond (paramsOfValue update)
                      ((cs tableName).cloneItemByKey key.1 key.2) with
                  | error e0 => simp only [hC] at h; cases h
                  | ok u2 =>
                      simp only [hC] at h
                      cases hU : getEff (paramsOfValue update)
                          ("UpdateExpression") with
                      | none => simp only [hU] at h; cases h
                      | some uv =>
                          cases uv with
                          | null => simp only [hU] at h; cases h
                          | bool b => simp only [hU] at h; cases h
                          | num q => simp only [hU] at h; cases h
                          | arr xs => simp only [hU] at h; cases h
                          | obj fs => simp only [hU] at h; cases h
                          | str uexpr =>
                              simp only [hU] at h
                              cases hP : parseUpd uexpr
                                  (getEff (paramsOfValue update)
                                    ("ExpressionAttributeNames"))
                                  (getEff (paramsOfValue update)
                                    ("ExpressionAttributeValues"))
                                  (((cs tableName).cloneItemByKey key.1
                                      key.2).getD
                                    [("PK", .str key.1),
                                     ("SK", .str key.2)]) with
                              | error e0 => simp only [hP] at h; cases h
                              | ok parsed =>
                                  simp only [hP] at h
                                  cases happ : applyParsedUpdateExpression
                                      (cloneItem
                                        (((cs tableName).cloneItemByKey key.1
                                            key.2).getD
                                          [("PK", .str key.1),
                                           ("SK", .str key.2)])) parsed with
                                  | error e0 => simp only [happ] at h; cases h
                                  | ok next =>
                                      simp only [happ] at h
                                      cases hPKSK : assertPrimaryKeyOf
                                          (.obj next) with
                                      | error e0 =>
                                          simp only [hPKSK] at h; cases h
                                      | ok pr =>
                                          obtain ⟨pk2, sk2⟩ := pr
                                          simp only [hPKSK] at h
                                          cases hput : TableState.put prio
                                              (cs tableName) next with
                                          | error e0 =>
                                              simp only [hput] at h; cases h
                                          | ok pr2 =>
                                              obtain ⟨t2, prev⟩ := pr2
                                              simp only [hput] at h
                                              simp only [Except.ok.injEq,
                                                Prod.mk.injEq] at h
                                              obtain ⟨h1, h2, h3⟩ := h
                                              obtain ⟨hPKn, hSKn⟩ :=
                                                assertPrimaryKeyOf_ok_elim
                                                  hPKSK
                                              obtain ⟨htd, hteq⟩ :=
                                                ensureNoDuplicate_ok_elim hD
                                              have hpPK :
                                                  getAttr next ("PK") =
                                                  getAttr (cloneItem
                                                    (((cs tableName).cloneItemByKey
                                                        key.1 key.2).getD
                                                      [("PK", .str key.1),
                                                       ("SK", .str key.2)]))
                                                    ("PK") :=
                                                applyParsedUpdateExpression_preserves_key
                                                  (Or.inl rfl) happ
                                              have hpSK :
                                                  getAttr next ("SK") =
                                                  getAttr (cloneItem
                                                    (((cs tableName).cloneItemByKey
                                                        key.1 key.2).getD
                                                      [("PK", .str key.1),
                                                       ("SK", .str key.2)]))
                                                    ("SK") :=
                                                applyParsedUpdateExpression_preserves_key
                                                  (Or.inr rfl) happ
                                              rw [cloneItem_eq] at hpPK hpSK
                                              have heq : encodeItemKey pk2 sk2
                                                  = encodeItemKey key.1 key.2 :=
                                                base_encode_eq
                                                  (hinv.1 tableName) key.1 key.2
                                                  (hpPK ▸ hPKn) (hpSK ▸ hSKn)
                                              have hmut : ∀ k,
                                                  mapGet t2.itemStore k =
                                                  if k = encodeItemKey key.1
                                                      key.2 then some next
                                                  else mapGet
                                                    (cs tableName).itemStore
                                                    k := by
                                                intro k
                                                rw [put_mapGet hPKn hSKn hput,
                                                  heq]
                                              obtain ⟨hw, hm, hr⟩ :=
                                                mutate_invariant prio tableName
                                                  key.1 key.2 (some next)
                                                  hinv.1 hinv.2.1 hinv.2.2 htd
                                                  (put_preserves_StoreWf
                                                    (hinv.1 tableName) hput)
                                                  hmut
                                              subst h1
                                              subst h2
                                              subst h3
                                              rw [hteq]
                                              exact ⟨hw, hm, hr⟩

theorem processEntry_inv {entry : Value}
    {prio : String → String → String → String → Nat} {evalCond : CondEval}
    {parseUpd : UpdParse}
    {cs0 cs : ClientState} {touched : List String} {journal : List JEntry}
    {cs2 : ClientState} {touched2 : List String} {journal2 : List JEntry}
    (hinv : TxInv prio cs0 cs touched journal)
    (h : processEntry prio evalCond parseUpd entry cs touched journal =
      .ok (cs2, touched2, journal2)) :
    TxInv prio cs0 cs2 touched2 journal2 := by
  unfold processEntry at h
  by_cases h1 : jsTruthy (getProp entry ("Put")) = true
  · rw [if_pos h1] at h
    exact processPut_inv hinv h
  · rw [if_neg h1] at h
    by_cases h2 : jsTruthy (getProp entry ("Update")) = true
    · rw [if_pos h2] at h
      exact processUpdate_inv hinv h
    · rw [if_neg h2] at h
      by_cases h3 : jsTruthy (getProp entry ("Delete")) = true
      · rw [if_pos h3] at h
        exact processDelete_inv hinv h
      · rw [if_neg h3] at h
        by_cases h4 : jsTruthy (getProp entry ("ConditionCheck")) = true
        · rw [if_pos h4] at h
          exact processConditionCheck_inv hinv h
        · rw [if_neg h4] at h
          cases h

/-- The entry loop, stopped by a thrown error, leaves a state from which
replaying the reversed journal restores the pre-call stores. -/
theorem processEntries_rollback
    {prio : String → String → String → String → Nat} {evalCond : CondEval}
    {parseUpd : UpdParse} :
    ∀ (entries : List Value) {cs0 cs : ClientState} {touched : List String}
      {journal : List JEntry},
      TxInv prio cs0 cs touched journal →
      ∀ {e : Err} {cs2 : ClientState} {j2 : List JEntry},
        processEntries prio evalCond parseUpd entries cs touched journal =
          (.error e, cs2, j2) →
        ∃ c3, rollback prio cs2 j2.reverse = (c3, none) ∧ StoreEq c3 cs0 := by
  intro entries
  induction entries with
  | nil =>
      intro cs0 cs touched journal hinv e cs2 j2 h
      rw [processEntries] at h
      cases h
  | cons entry rest ih =>
      intro cs0 cs touched journal hinv e cs2 j2 h
      rw [processEntries] at h
      cases hpe : processEntry prio evalCond parseUpd entry cs touched
          journal with
      | error e0 =>
          simp only [hpe] at h
          simp only [Prod.mk.injEq] at h
          obtain ⟨he, hcs, hj⟩ := h
          subst hcs
          subst hj
          exact hinv.2.2
      | ok triple =>
          obtain ⟨csM, touchedM, journalM⟩ := triple
          simp only [hpe] at h
          exact ih (processEntry_inv hinv hpe) h

def trivialCondEval : CondEval := fun _ _ _ _ => .ok true

def trivialUpdParse : UpdParse := fun _ _ _ _ => .ok ⟨[], []⟩

def emptyClient : ClientState := fun _ => emptyTable

theorem emptyClient_wf : WfCS emptyClient :=
  fun _ => ⟨List.nodup_nil, fun _ item hmem => absurd hmem (List.not_mem_nil _)⟩

/-- A transaction entry that puts `{PK: "p", SK: "s"}` into table `t`. -/
def txPutEntry : Value :=
  .obj [("Put", .obj [("TableName", .str "t"),
    ("Item", .obj [("PK", .str "p"), ("SK", .str "s")])])]

/-- A transaction entry carrying none of Put / Update / Delete /
ConditionCheck: processing it throws after the first entry mutated. -/
def txBadEntry : Value := .obj [("Oops", .bool true)]

def txParams : Params := [("TransactItems", some (.arr [txPutEntry, txBadEntry]))]

/-- C2: whenever a transactWrite call reports an error (a failed
condition check, a parse error, or any validation error raised while
applying the entries in order), the client state it leaves behind is
observably the state from before the call: for every table and item
key, the stored item is unchanged, because every journaled pre-image is
replayed in reverse insertion order, restoring the prior value or
deleting keys that had none. -/
theorem transact_write_rollback
    (prio : String → String → String → String → Nat)
    (evalCond : CondEval) (parseUpd : UpdParse) (params : Params)
    (cs : ClientState) (e : Err) (cs2 : ClientState) (hwf : WfCS cs)
    (h : transactWriteOp prio evalCond parseUpd params cs = (.error e, cs2)) :
    StoreEq cs2 cs := by
  unfold transactWriteOp at h
  cases hsup : assertSupportedParams ("transactWrite") params with
  | error e0 =>
      simp only [hsup] at h
      simp only [Prod.mk.injEq] at h
      rw [← h.2]
      exact StoreEq.refl cs
  | ok u =>
      simp only [hsup] at h
      cases hti : getEff params ("TransactItems") with
      | none =>
          simp only [hti] at h
          simp only [Prod.mk.injEq] at h
          rw [← h.2]
          exact StoreEq.refl cs
      | some v =>
          cases v with
          | null =>
              simp only [hti] at h
              simp only [Prod.mk.injEq] at h
              rw [← h.2]
              exact StoreEq.refl cs
          | bool b =>
              simp only [hti] at h
              simp only [Prod.mk.injEq] at h
              rw [← h.2]
              exact StoreEq.refl cs
          | num q =>
              simp only [hti] at h
              simp only [Prod.mk.injEq] at h
              rw [← h.2]
              exact StoreEq.refl cs
          | str sx =>
              simp only [hti] at h
              simp only [Prod.mk.injEq] at h
              rw [← h.2]
              exact StoreEq.refl cs
          | obj fs =>
              simp only [hti] at h
              simp only [Prod.mk.injEq] at h
              rw [← h.2]
              exact StoreEq.refl cs
          | arr items =>
              simp only [hti] at h
              by_cases h0 : items.length = 0
              · rw [if_pos h0] at h
                simp only [Prod.mk.injEq] at h
                rw [← h.2]
                exact StoreEq.refl cs
              · rw [if_neg h0] at h
                by_cases h100 : items.length > 100
                · rw [if_pos h100] at h
                  simp only [Prod.mk.injEq] at h
                  rw [← h.2]
                  exact StoreEq.refl cs
                · rw [if_neg h100] at h
                  rcases hpe : processEntries prio evalCond parseUpd items
                      cs [] [] with ⟨res, csx, jx⟩
                  cases res with
                  | ok u2 =>
                      simp only [hpe] at h
                      simp only [Prod.mk.injEq] at h
                      exact absurd h.1 (by simp)
                  | error e0 =>
                      simp only [hpe] at h
                      have hinv0 : TxInv prio cs cs [] [] :=
                        ⟨hwf, fun e2 he2 => absurd he2 (List.not_mem_nil _),
                          ⟨cs, rfl, StoreEq.refl cs⟩⟩
                      obtain ⟨c3, hc3, heq3⟩ :=
                        processEntries_rollback items hinv0 hpe
                      simp only [hc3] at h
                      simp only [Prod.mk.injEq] at h
                      rw [← h.2]
                      exact heq3

/-- The concrete failing transaction performs a Put and then throws on
a malformed entry; the reported state is store-equal to the initial
one. -/
theorem transact_write_rollback_witness :
    StoreEq (transactWriteOp wPrio trivialCondEval trivialUpdParse txParams
      emptyClient).2 emptyClient :=
  transact_write_rollback wPrio trivialCondEval trivialUpdParse txParams
    emptyClient
    (Err.notSupported ("transactWrite") ("transactWrite.TransactItems")
      ("Each transaction entry must include Put, Update, Delete, or ConditionCheck."))
    (transactWriteOp wPrio trivialCondEval trivialUpdParse txParams
      emptyClient).2
    emptyClient_wf rfl

/-- C8 counterexample: an empty TransactItems list is rejected with a
NotSupportedError, not a Validation error; the state is unchanged. -/
theorem transact_write_size_counterexample :
    transactWriteOp wPrio trivialCondEval trivialUpdParse
        [("TransactItems", some (.arr []))] emptyClient =
      (.error (Err.notSupported ("transactWrite")
        ("transactWrite.TransactItems")
        ("TransactItems must be a non-empty array.")), emptyClient) ∧
    (∀ msg, Err.notSupported ("transactWrite") ("transactWrite.TransactItems")
      ("TransactItems must be a non-empty array.") ≠ validationError msg) := by
  constructor
  · rfl
  · intro msg hcontra
    simp [validationError] at hcontra

/-- C8 (amended): with the params otherwise accepted, an empty
TransactItems array fails with a NotSupportedError and more than 100
entries fail with the ValidationException message about the length
bound; both checks run before any entry is processed, so the reported
state is exactly the input state. -/
theorem transact_write_size_guard
    (prio : String → String → String → String → Nat)
    (evalCond : CondEval) (parseUpd : UpdParse) (params : Params)
    (cs : ClientState) (items : List Value)
    (hsup : assertSupportedParams ("transactWrite") params = .ok ())
    (hti : getEff params ("TransactItems") = some (.arr items)) :
    (items = [] →
      transactWriteOp prio evalCond parseUpd params cs =
        (.error (Err.notSupported ("transactWrite")
          ("transactWrite.TransactItems")
          ("TransactItems must be a non-empty array.")), cs)) ∧
    (items.length > 100 →
      transactWriteOp prio evalCond parseUpd params cs =
        (.error (validationError
          ("Member must have length less than or equal to 100")), cs)) := by
  constructor
  · intro h0
    subst h0
    simp [transactWriteOp, hsup, hti]
  · intro h100
    have h0 : ¬ items.length = 0 := by omega
    simp only [transactWriteOp, hsup, hti]
    rw [if_neg h0, if_pos h100]

/-- 101 entries trip the length bound with the exact validation
message. -/
theorem transact_write_size_guard_witness :
    transactWriteOp wPrio trivialCondEval trivialUpdParse
        [("TransactItems", some (.arr (List.replicate 101 Value.null)))]
        emptyClient =
      (.error (validationError
        ("Member must have length less than or equal to 100")), emptyClient) :=
  (transact_write_size_guard wPrio trivialCondEval trivialUpdParse
    [("TransactItems", some (.arr (List.replicate 101 Value.null)))]
    emptyClient (List.replicate 101 Value.null) rfl rfl).2
    (by simp [List.length_replicate])

end ModelTs
